import Mathlib

/-!
# lockfreequeue: a broadcast ring buffer

Shallow embedding of `lockfreequeue.go`.  Go `uint32` values are natural
numbers below `u32 = 2 ^ 32`; every arithmetic operation of the source that can
overflow is followed by an explicit `% u32`.  Slices are lists; an index that is
out of range is the outcome `panic`.  The two spin loops (`Write`, `read`) are
modelled by one pass of their loop: the outcome `blocked` says that the pass
reached `runtime.Gosched()` and that the loop restarts on the same state.
-/

namespace LockFreeQueue

/-- Number of values of a Go `uint32`. -/
def u32 : Nat := 4294967296

/-- The two error values declared by the package. -/
inductive QueueError where
  | InvalidBufferSize
  | NoAvaliableConsumerSlot
  deriving DecidableEq, Repr

/-- Result of a call that may spin or index a slice out of range. -/
inductive Outcome (σ : Type) where
  | done (r : σ)
  | blocked
  | panic
  deriving DecidableEq, Repr

/-- The struct `RingBuffer[T]`. -/
structure RingBuffer (T : Type) where
  size : Nat
  bitWiseValue : Nat
  headIndex : Nat
  nextReaderIndex : Nat
  buffer : List T
  readerIndexes : List Nat
  readerActiveFlags : List Nat
  deriving DecidableEq, Repr

/-- The struct `Consumer[T]`; the `ring` pointer is the buffer the operations are applied to. -/
structure Consumer where
  id : Nat
  deriving DecidableEq, Repr

/-- Result of `NewRingBuffer` and of `CreateConsumer`: a value or an error. -/
inductive Result (σ : Type) where
  | ok (r : σ)
  | error (e : QueueError)
  deriving DecidableEq, Repr

/-- Function `NewRingBuffer(size, readers)`: `size - 1` is computed on `uint32`. -/
def NewRingBuffer {T : Type} [Inhabited T] (size readers : Nat) : Result (RingBuffer T) :=
  if size &&& ((size + u32 - 1) % u32) ≠ 0 then
    Result.error QueueError.InvalidBufferSize
  else
    Result.ok
      { size := size
        bitWiseValue := (size + u32 - 1) % u32
        headIndex := 0
        nextReaderIndex := 0
        buffer := List.replicate size default
        readerIndexes := List.replicate readers 0
        readerActiveFlags := List.replicate readers 0 }

/-- Body of `CreateConsumer` once the compare-and-swap of slot `i` from 0 to 2 has succeeded:
seed the cursor with `headIndex`, store the flag 1, then compare-and-swap `nextReaderIndex`
from `uint32(i)` to `uint32(i) + 1`. -/
def claimSlot {T : Type} (b : RingBuffer T) (i : Nat) : Outcome (RingBuffer T × Consumer) :=
  let b1 := { b with readerActiveFlags := b.readerActiveFlags.set i 2 }
  if i < b1.readerIndexes.length then
    let b2 := { b1 with readerIndexes := b1.readerIndexes.set i b1.headIndex }
    let b3 := { b2 with readerActiveFlags := b2.readerActiveFlags.set i 1 }
    let uRedaderIndex := i % u32
    let b4 :=
      if b3.nextReaderIndex = uRedaderIndex then
        { b3 with nextReaderIndex := (uRedaderIndex + 1) % u32 }
      else b3
    Outcome.done (b4, { id := uRedaderIndex })
  else Outcome.panic

/-- The loop `for readerIndex := range buffer.readerActiveFlags` of `CreateConsumer`, run on
the indices that remain to be visited. -/
def createFrom {T : Type} (b : RingBuffer T) :
    List Nat → Outcome (RingBuffer T × Result Consumer)
  | [] => Outcome.done (b, Result.error QueueError.NoAvaliableConsumerSlot)
  | i :: rest =>
    match b.readerActiveFlags[i]? with
    | none => Outcome.panic
    | some f =>
      if f = 0 then
        match claimSlot b i with
        | Outcome.done (b4, c) => Outcome.done (b4, Result.ok c)
        | Outcome.blocked => Outcome.blocked
        | Outcome.panic => Outcome.panic
      else createFrom b rest

/-- Method `(*RingBuffer).CreateConsumer`. -/
def CreateConsumer {T : Type} (b : RingBuffer T) : Outcome (RingBuffer T × Result Consumer) :=
  createFrom b (List.range b.readerActiveFlags.length)

/-- One pass of the loop `for i = 0; i < nextReaderIndex; i++` of `Write` over the indices
that remain: `blocked` when the pass reaches `goto attemptWrite`. -/
def writeScan {T : Type} (b : RingBuffer T) : List Nat → Outcome Unit
  | [] => Outcome.done ()
  | i :: rest =>
    match b.readerActiveFlags[i]? with
    | none => Outcome.panic
    | some f =>
      if f = 1 then
        match b.readerIndexes[i]? with
        | none => Outcome.panic
        | some c =>
          if (c + b.size) % u32 = b.headIndex then Outcome.blocked
          else writeScan b rest
      else writeScan b rest

/-- Method `(*RingBuffer).Write`. -/
def Write {T : Type} (b : RingBuffer T) (value : T) : Outcome (RingBuffer T) :=
  match writeScan b (List.range b.nextReaderIndex) with
  | Outcome.panic => Outcome.panic
  | Outcome.blocked => Outcome.blocked
  | Outcome.done () =>
    let nextIndex := (b.headIndex + 1) % u32
    if nextIndex &&& b.bitWiseValue < b.buffer.length then
      Outcome.done
        { b with
          buffer := b.buffer.set (nextIndex &&& b.bitWiseValue) value
          headIndex := nextIndex }
    else Outcome.panic

/-- Method `(*RingBuffer).read`. -/
def read {T : Type} (b : RingBuffer T) (readerIndex : Nat) : Outcome (T × RingBuffer T) :=
  match b.readerIndexes[readerIndex]? with
  | none => Outcome.panic
  | some c =>
    let newIndex := (c + 1) % u32
    if newIndex > b.headIndex then Outcome.blocked
    else
      match b.buffer[newIndex &&& b.bitWiseValue]? with
      | none => Outcome.panic
      | some value =>
        Outcome.done
          (value, { b with readerIndexes := b.readerIndexes.set readerIndex ((c + 1) % u32) })

/-- Method `(*RingBuffer).removeConsumer`: the compare-and-swap compares `nextReaderIndex`
with `readerID - 1` and stores `nextReaderIndex - 1`, both on `uint32`. -/
def removeConsumer {T : Type} (b : RingBuffer T) (readerID : Nat) : Outcome (RingBuffer T) :=
  if readerID < b.readerActiveFlags.length then
    let b1 := { b with readerActiveFlags := b.readerActiveFlags.set readerID 0 }
    if b1.nextReaderIndex = (readerID + u32 - 1) % u32 then
      Outcome.done { b1 with nextReaderIndex := (b1.nextReaderIndex + u32 - 1) % u32 }
    else Outcome.done b1
  else Outcome.panic

/-- Method `(*Consumer).Read`. -/
def Consumer.Read {T : Type} (consumer : Consumer) (ring : RingBuffer T) :
    Outcome (T × RingBuffer T) :=
  read ring consumer.id

/-- Method `(*Consumer).Remove`. -/
def Consumer.Remove {T : Type} (consumer : Consumer) (ring : RingBuffer T) :
    Outcome (RingBuffer T) :=
  removeConsumer ring consumer.id


/-! ## Sequential schedules -/

/-- A call of the public API. -/
inductive Op (T : Type) where
  | create
  | write (v : T)
  | read (id : Nat)
  | remove (id : Nat)
  deriving DecidableEq, Repr

/-- A buffer together with the bookkeeping of a sequential run: the consumer ids that
`CreateConsumer` has returned so far and the values of the completed `Write` calls, oldest
first. -/
structure Sys (T : Type) where
  ring : RingBuffer T
  handles : List Nat
  written : List T
  deriving DecidableEq, Repr

/-- One call, run to completion.  The result is `none` when the call would spin, when it
indexes out of range, or when it uses a consumer id that `CreateConsumer` has not returned.
The second component lists the completed read: consumer id and value returned. -/
def step {T : Type} (s : Sys T) : Op T → Option (Sys T × List (Nat × T))
  | Op.create =>
    match CreateConsumer s.ring with
    | Outcome.done (b, Result.ok c) =>
      some ({ s with ring := b, handles := c.id :: s.handles }, [])
    | Outcome.done (b, Result.error _) => some ({ s with ring := b }, [])
    | Outcome.blocked => none
    | Outcome.panic => none
  | Op.write v =>
    match Write s.ring v with
    | Outcome.done b => some ({ s with ring := b, written := s.written ++ [v] }, [])
    | Outcome.blocked => none
    | Outcome.panic => none
  | Op.read id =>
    if id ∈ s.handles then
      match read s.ring id with
      | Outcome.done (v, b) => some ({ s with ring := b }, [(id, v)])
      | Outcome.blocked => none
      | Outcome.panic => none
    else none
  | Op.remove id =>
    if id ∈ s.handles then
      match removeConsumer s.ring id with
      | Outcome.done b => some ({ s with ring := b }, [])
      | Outcome.blocked => none
      | Outcome.panic => none
    else none

/-- A schedule: the calls are run one after the other, each to completion. -/
def run {T : Type} : Sys T → List (Op T) → Option (Sys T × List (Nat × T))
  | s, [] => some (s, [])
  | s, op :: ops =>
    match step s op with
    | none => none
    | some (s1, ev) =>
      match run s1 ops with
      | none => none
      | some (s2, evs) => some (s2, ev ++ evs)

/-- The system right after `NewRingBuffer(size, readers)` returned without error. -/
def boot {T : Type} [Inhabited T] (size readers : Nat) : Option (Sys T) :=
  match (NewRingBuffer size readers : Result (RingBuffer T)) with
  | Result.ok b => some { ring := b, handles := [], written := [] }
  | Result.error _ => none

/-- Values returned to consumer `j` in a log of completed reads, oldest first. -/
def readsOf {T : Type} (j : Nat) (log : List (Nat × T)) : List T :=
  (log.filter (fun e => e.1 = j)).map Prod.snd

/-- Values written by a schedule, oldest first. -/
def writesOf {T : Type} : List (Op T) → List T
  | [] => []
  | Op.write v :: ops => v :: writesOf ops
  | _ :: ops => writesOf ops

/-- Slot `i` is Active and its cursor plus `size` equals `headIndex` on `uint32`: the
condition under which the scan of `Write` yields and restarts. -/
def holdsBack {T : Type} (b : RingBuffer T) (i : Nat) : Prop :=
  b.readerActiveFlags[i]? = some 1 ∧
    ∃ c, b.readerIndexes[i]? = some c ∧ (c + b.size) % u32 = b.headIndex

/-- Shape of a buffer built by `NewRingBuffer` with a power-of-two size and `n` slots. -/
structure Shape {T : Type} (b : RingBuffer T) (n : Nat) : Prop where
  pow : ∃ e, e < 32 ∧ b.size = 2 ^ e
  mask : b.bitWiseValue = b.size - 1
  buf : b.buffer.length = b.size
  idx : b.readerIndexes.length = n
  flg : b.readerActiveFlags.length = n
  nlt : n < u32
  next : b.nextReaderIndex ≤ n

/-- Invariant of sequential runs with fewer than `2 ^ 32 - 1` writes. -/
structure Inv {T : Type} (s : Sys T) (n : Nat) : Prop where
  shape : Shape s.ring n
  head : s.ring.headIndex = s.written.length
  wlt : s.written.length < u32 - 1
  flags01 : ∀ (i f : Nat), s.ring.readerActiveFlags[i]? = some f → f = 0 ∨ f = 1
  active_lt : ∀ (i : Nat), s.ring.readerActiveFlags[i]? = some 1 → i < s.ring.nextReaderIndex
  handles_lt : ∀ id ∈ s.handles, id < s.ring.nextReaderIndex
  cursor_le : ∀ (i c : Nat), s.ring.readerIndexes[i]? = some c → c ≤ s.ring.headIndex
  lag : ∀ (i c : Nat), s.ring.readerActiveFlags[i]? = some 1 → s.ring.readerIndexes[i]? = some c →
    s.ring.headIndex ≤ c + s.ring.size
  cells : ∀ (p : Nat), 1 ≤ p → p ≤ s.ring.headIndex → s.ring.headIndex < p + s.ring.size →
    s.ring.buffer[p % s.ring.size]? = s.written[p - 1]?


/-- The call is a `Remove`. -/
def Op.isRemove {T : Type} : Op T → Bool
  | Op.remove _ => true
  | _ => false

/-- The call is a `Write`. -/
def Op.isWrite {T : Type} : Op T → Bool
  | Op.write _ => true
  | _ => false

/-- The call is a `Read` by a consumer whose id is below `m`. -/
def Op.isReadBelow {T : Type} (m : Nat) : Op T → Bool
  | Op.read j => decide (j < m)
  | _ => false


/-- State reached by `k` registrations on a fresh buffer with `n` slots. -/
structure Registered {T : Type} (s : Sys T) (n k : Nat) : Prop where
  inv : Inv s n
  nothing : s.written = []
  active : ∀ (j : Nat), j < k → s.ring.readerActiveFlags[j]? = some 1
  free : ∀ (j : Nat), k ≤ j → j < n → s.ring.readerActiveFlags[j]? = some 0
  handles : ∀ (j : Nat), j ∈ s.handles ↔ j < k
  cursors : ∀ (j : Nat), j < n → s.ring.readerIndexes[j]? = some 0
  next : s.ring.nextReaderIndex = k

/-- State `s` is reached from `s0` by a sequential schedule in which no call blocks. -/
def Reach {T : Type} (s0 s : Sys T) : Prop :=
  ∃ ops log, run s0 ops = some (s, log)

/-- State reached, on a table of `n = 2 ^ 32 - 1` slots that were all registered before any
write, by removing the consumers `0 .. k - 1` (`k >= 1`), consumer 0 first. -/
structure Drained {T : Type} (s : Sys T) (n k : Nat) : Prop where
  shape : Shape s.ring n
  nothing : s.written = []
  head : s.ring.headIndex = 0
  freed : ∀ (j : Nat), j < k → s.ring.readerActiveFlags[j]? = some 0
  active : ∀ (j : Nat), k ≤ j → j < n → s.ring.readerActiveFlags[j]? = some 1
  handles : ∀ (j : Nat), j ∈ s.handles ↔ j < n
  cursors : ∀ (j : Nat), j < n → s.ring.readerIndexes[j]? = some 0
  next : s.ring.nextReaderIndex = n - 1


/-- One plus the largest consumer id of a list, 0 for the empty list. -/
def onePastMax : List Nat → Nat
  | [] => 0
  | id :: ids => max (id + 1) (onePastMax ids)

/-- Facts about the slot table that every sequential run keeps, whatever the size of the
buffer and the number of writes.  The scan bound is either a strict upper bound of the Active
slots and of the ids handed out, with its predecessor among these ids, or the table has
`2 ^ 32 - 1` slots and the bound is one of the two largest values. -/
structure Slots {T : Type} (s : Sys T) (n : Nat) : Prop where
  flg : s.ring.readerActiveFlags.length = n
  idx : s.ring.readerIndexes.length = n
  nlt : n < u32
  next_le : s.ring.nextReaderIndex ≤ n
  flags01 : ∀ (i f : Nat), s.ring.readerActiveFlags[i]? = some f → f = 0 ∨ f = 1
  handles_n : ∀ id ∈ s.handles, id < n
  active_handle : ∀ (i : Nat), s.ring.readerActiveFlags[i]? = some 1 → i ∈ s.handles
  mode :
    ((∀ (i : Nat), s.ring.readerActiveFlags[i]? = some 1 → i < s.ring.nextReaderIndex) ∧
        (∀ id ∈ s.handles, id < s.ring.nextReaderIndex) ∧
        (0 < s.ring.nextReaderIndex → s.ring.nextReaderIndex - 1 ∈ s.handles)) ∨
      (n + 1 = u32 ∧ n ≤ s.ring.nextReaderIndex + 1)

/-- Facts about the counters that every sequential run with fewer than `2 ^ 32 - 1` writes
on a buffer of power-of-two size keeps. -/
structure Counters {T : Type} (s : Sys T) : Prop where
  pow : ∃ e, e < 32 ∧ s.ring.size = 2 ^ e
  mask : s.ring.bitWiseValue = s.ring.size - 1
  buf : s.ring.buffer.length = s.ring.size
  head : s.ring.headIndex = s.written.length
  wlt : s.written.length < u32 - 1
  cursor_le : ∀ (i c : Nat), s.ring.readerIndexes[i]? = some c → c ≤ s.ring.headIndex

/-- Control point of one call of `CreateConsumer` between two of its atomic actions: about
to compare-and-swap the flag of slot `i`; about to load `headIndex` and store the cursor of
the claimed slot; about to store the flag 1; about to compare-and-swap `nextReaderIndex`;
returned a consumer; returned the error; indexed out of range. -/
inductive Pc where
  | scan (i : Nat)
  | seed (i : Nat)
  | activate (i : Nat)
  | advance (i : Nat)
  | returned (id : Nat)
  | failed
  | crashed
  deriving DecidableEq, Repr

/-- One atomic action of a call of `CreateConsumer` that is at control point `pc`. -/
def createStep {T : Type} (b : RingBuffer T) : Pc → RingBuffer T × Pc
  | Pc.scan i =>
    if i < b.readerActiveFlags.length then
      if b.readerActiveFlags[i]? = some 0 then
        ({ b with readerActiveFlags := b.readerActiveFlags.set i 2 }, Pc.seed i)
      else (b, Pc.scan (i + 1))
    else (b, Pc.failed)
  | Pc.seed i =>
    if i < b.readerIndexes.length then
      ({ b with readerIndexes := b.readerIndexes.set i b.headIndex }, Pc.activate i)
    else (b, Pc.crashed)
  | Pc.activate i =>
    ({ b with readerActiveFlags := b.readerActiveFlags.set i 1 }, Pc.advance i)
  | Pc.advance i =>
    (if b.nextReaderIndex = i % u32 then
        { b with nextReaderIndex := (i % u32 + 1) % u32 }
      else b,
      Pc.returned (i % u32))
  | Pc.returned id => (b, Pc.returned id)
  | Pc.failed => (b, Pc.failed)
  | Pc.crashed => (b, Pc.crashed)

/-- Repeated atomic actions of a single call of `CreateConsumer`. -/
def createSteps {T : Type} : Nat → RingBuffer T × Pc → RingBuffer T × Pc
  | 0, p => p
  | k + 1, p => createSteps k (createStep p.1 p.2)

/-- Two calls of `CreateConsumer` in progress on one buffer. -/
structure Race (T : Type) where
  ring : RingBuffer T
  first : Pc
  second : Pc
  deriving DecidableEq, Repr

/-- One atomic action of the first call (`true`) or of the second call (`false`). -/
def raceStep {T : Type} (r : Race T) (who : Bool) : Race T :=
  if who then
    { ring := (createStep r.ring r.first).1, first := (createStep r.ring r.first).2,
      second := r.second }
  else
    { ring := (createStep r.ring r.second).1, first := r.first,
      second := (createStep r.ring r.second).2 }

/-- An interleaving of the two calls: the list says whose atomic action comes next. -/
def race {T : Type} : Race T → List Bool → Race T
  | r, [] => r
  | r, who :: rest => race (raceStep r who) rest

/-- The slot a call has claimed at a control point, if any. -/
def Pc.owner : Pc → Option Nat
  | Pc.seed i => some i
  | Pc.activate i => some i
  | Pc.advance i => some i
  | Pc.returned id => some id
  | _ => none


/-! ## Arithmetic helpers -/

theorem pow_lt_u32 {e : Nat} (he : e < 32) : 2 ^ e < u32 := by
  have h : 2 ^ e < 2 ^ 32 := Nat.pow_lt_pow_right (by decide) he
  simpa [u32] using h

theorem mask_eq_mod (x e : Nat) : x &&& (2 ^ e - 1) = x % 2 ^ e :=
  Nat.and_pow_two_sub_one_eq_mod x e

/-- Two positions less than `m` apart fall into different cells modulo `m`. -/
theorem mod_ne_of_close {p q m : Nat} (h1 : p < q) (h2 : q < p + m) : q % m ≠ p % m := by
  intro h
  have hd : m ∣ q - p := (Nat.modEq_iff_dvd' (le_of_lt h1)).mp h.symm
  have hle : m ≤ q - p := Nat.le_of_dvd (by omega) hd
  omega

/-- The `uint32` subtraction `size - 1` of a power of two. -/
theorem pow_pred_u32 {e : Nat} (he : e < 32) : (2 ^ e + u32 - 1) % u32 = 2 ^ e - 1 := by
  have h1 := pow_lt_u32 he
  have h2 : 0 < 2 ^ e := Nat.pow_pos (by decide)
  have h3 : 2 ^ e + u32 - 1 = (2 ^ e - 1) + u32 := by omega
  rw [h3, Nat.add_mod_right, Nat.mod_eq_of_lt (by omega)]

theorem pow_and_pred {e : Nat} : 2 ^ e &&& (2 ^ e - 1) = 0 := by
  rw [mask_eq_mod, Nat.mod_self]

/-! ## The scan of `Write` -/

theorem writeScan_ne_panic {T : Type} (b : RingBuffer T) (is : List Nat)
    (hr : ∀ i ∈ is, i < b.readerActiveFlags.length ∧ i < b.readerIndexes.length) :
    writeScan b is ≠ Outcome.panic := by
  induction is with
  | nil => simp [writeScan]
  | cons i rest ih =>
    have hi := hr i (List.mem_cons_self _ _)
    have hrest : ∀ j ∈ rest, j < b.readerActiveFlags.length ∧ j < b.readerIndexes.length :=
      fun j hj => hr j (List.mem_cons_of_mem _ hj)
    unfold writeScan
    rw [List.getElem?_eq_getElem hi.1, List.getElem?_eq_getElem hi.2]
    simp only []
    split_ifs with h1 h2
    · simp
    · exact ih hrest
    · exact ih hrest

theorem writeScan_blocked_iff {T : Type} (b : RingBuffer T) (is : List Nat)
    (hr : ∀ i ∈ is, i < b.readerActiveFlags.length ∧ i < b.readerIndexes.length) :
    writeScan b is = Outcome.blocked ↔ ∃ i ∈ is, holdsBack b i := by
  induction is with
  | nil => simp [writeScan]
  | cons i rest ih =>
    have hi := hr i (List.mem_cons_self _ _)
    have hrest : ∀ j ∈ rest, j < b.readerActiveFlags.length ∧ j < b.readerIndexes.length :=
      fun j hj => hr j (List.mem_cons_of_mem _ hj)
    have ih1 := ih hrest
    unfold writeScan
    rw [List.getElem?_eq_getElem hi.1, List.getElem?_eq_getElem hi.2]
    simp only [List.mem_cons, exists_eq_or_imp, holdsBack]
    rw [List.getElem?_eq_getElem hi.1, List.getElem?_eq_getElem hi.2]
    simp only [Option.some.injEq, exists_eq_left']
    split_ifs with h1 h2
    · simp [h1, h2]
    · rw [ih1]; simp [h1, h2, holdsBack]
    · rw [ih1]; simp [h1, holdsBack]

theorem writeScan_done_iff {T : Type} (b : RingBuffer T) (is : List Nat)
    (hr : ∀ i ∈ is, i < b.readerActiveFlags.length ∧ i < b.readerIndexes.length) :
    writeScan b is = Outcome.done () ↔ ∀ i ∈ is, ¬ holdsBack b i := by
  have h1 := writeScan_ne_panic b is hr
  have h2 := writeScan_blocked_iff b is hr
  constructor
  · intro h i hi hb
    have : writeScan b is = Outcome.blocked := h2.mpr ⟨i, hi, hb⟩
    rw [h] at this
    cases this
  · intro h
    cases hw : writeScan b is with
    | done r => rfl
    | blocked => exact absurd (h2.mp hw) (by push_neg; exact h)
    | panic => exact absurd hw h1


theorem Shape.mask_index {T : Type} {b : RingBuffer T} {n : Nat} (hs : Shape b n) (x : Nat) :
    x &&& b.bitWiseValue = x % b.size := by
  obtain ⟨e, _, he⟩ := hs.pow
  rw [hs.mask, he, mask_eq_mod]

theorem Shape.size_pos {T : Type} {b : RingBuffer T} {n : Nat} (hs : Shape b n) :
    0 < b.size := by
  obtain ⟨e, _, he⟩ := hs.pow
  rw [he]; exact Nat.pow_pos (by decide)

theorem Shape.size_lt {T : Type} {b : RingBuffer T} {n : Nat} (hs : Shape b n) :
    b.size < u32 := by
  obtain ⟨e, h, he⟩ := hs.pow
  rw [he]; exact pow_lt_u32 h

theorem Shape.scan_range {T : Type} {b : RingBuffer T} {n : Nat} (hs : Shape b n) :
    ∀ i ∈ List.range b.nextReaderIndex,
      i < b.readerActiveFlags.length ∧ i < b.readerIndexes.length := by
  intro i hi
  have h1 := List.mem_range.mp hi
  have h2 := hs.next
  rw [hs.flg, hs.idx]
  omega

/-! ## `Write` on a well-shaped buffer -/

theorem Write_blocked_iff {T : Type} {b : RingBuffer T} {n : Nat} (hs : Shape b n) (v : T) :
    Write b v = Outcome.blocked ↔ ∃ i, i < b.nextReaderIndex ∧ holdsBack b i := by
  have hb := writeScan_blocked_iff b _ hs.scan_range
  have hp := writeScan_ne_panic b _ hs.scan_range
  have hlt : (b.headIndex + 1) % u32 &&& b.bitWiseValue < b.buffer.length := by
    rw [hs.mask_index, hs.buf]; exact Nat.mod_lt _ hs.size_pos
  unfold Write
  cases hw : writeScan b (List.range b.nextReaderIndex) with
  | done r =>
    simp only [hlt, if_true]
    constructor
    · intro h; cases h
    · rintro ⟨i, hi, hh⟩
      have : writeScan b (List.range b.nextReaderIndex) = Outcome.blocked :=
        hb.mpr ⟨i, List.mem_range.mpr hi, hh⟩
      rw [hw] at this; cases this
  | blocked =>
    simp only [true_iff]
    obtain ⟨i, hi, hh⟩ := hb.mp hw
    exact ⟨i, List.mem_range.mp hi, hh⟩
  | panic => exact absurd hw hp

theorem Write_done_of_free {T : Type} {b : RingBuffer T} {n : Nat} (hs : Shape b n) (v : T)
    (hfree : ∀ i, i < b.nextReaderIndex → ¬ holdsBack b i) :
    Write b v = Outcome.done
      { b with
        buffer := b.buffer.set ((b.headIndex + 1) % u32 % b.size) v
        headIndex := (b.headIndex + 1) % u32 } := by
  have hd := (writeScan_done_iff b _ hs.scan_range).mpr
    (fun i hi => hfree i (List.mem_range.mp hi))
  have hlt : (b.headIndex + 1) % u32 &&& b.bitWiseValue < b.buffer.length := by
    rw [hs.mask_index, hs.buf]; exact Nat.mod_lt _ hs.size_pos
  unfold Write
  rw [hd]
  simp only [hlt, if_true]
  rw [hs.mask_index]

theorem Write_done_inv {T : Type} {b b1 : RingBuffer T} {n : Nat} (hs : Shape b n) (v : T)
    (h : Write b v = Outcome.done b1) :
    (∀ i, i < b.nextReaderIndex → ¬ holdsBack b i) ∧
      b1 = { b with
        buffer := b.buffer.set ((b.headIndex + 1) % u32 % b.size) v
        headIndex := (b.headIndex + 1) % u32 } := by
  have hfree : ∀ i, i < b.nextReaderIndex → ¬ holdsBack b i := by
    intro i hi hh
    have := (Write_blocked_iff hs v).mpr ⟨i, hi, hh⟩
    rw [h] at this; cases this
  refine ⟨hfree, ?_⟩
  have := Write_done_of_free hs v hfree
  rw [h] at this
  exact Outcome.done.inj this

/-! ## The loop of `CreateConsumer` -/

theorem claimSlot_eq {T : Type} (b : RingBuffer T) (i : Nat) (hi : i < b.readerIndexes.length) :
    claimSlot b i = Outcome.done
      ({ b with
          readerActiveFlags := b.readerActiveFlags.set i 1
          readerIndexes := b.readerIndexes.set i b.headIndex
          nextReaderIndex :=
            if b.nextReaderIndex = i % u32 then (i % u32 + 1) % u32 else b.nextReaderIndex },
        { id := i % u32 }) := by
  unfold claimSlot
  simp only [hi, if_true, List.set_set]
  split_ifs <;> rfl

theorem createFrom_full {T : Type} (b : RingBuffer T) (m : Nat) :
    ∀ k, k + m ≤ b.readerActiveFlags.length →
      (∀ j, k ≤ j → j < k + m → b.readerActiveFlags[j]? ≠ some 0) →
      createFrom b (List.range' k m) =
        Outcome.done (b, Result.error QueueError.NoAvaliableConsumerSlot) := by
  induction m with
  | zero => intro k _ _; simp [createFrom]
  | succ m ih =>
    intro k hk hne
    rw [List.range'_succ]
    unfold createFrom
    have hk1 : k < b.readerActiveFlags.length := by omega
    have h0 := hne k (le_refl _) (by omega)
    rw [List.getElem?_eq_getElem hk1] at h0 ⊢
    have hf : b.readerActiveFlags[k] ≠ 0 := fun h => h0 (by rw [h])
    simp only [hf, if_false]
    exact ih (k + 1) (by omega) (fun j h1 h2 => hne j (by omega) (by omega))

theorem createFrom_claim {T : Type} (b : RingBuffer T) (i : Nat)
    (hi : b.readerActiveFlags[i]? = some 0) (hidx : i < b.readerIndexes.length) (m : Nat) :
    ∀ k, k ≤ i → i < k + m → k + m ≤ b.readerActiveFlags.length →
      (∀ j, k ≤ j → j < i → b.readerActiveFlags[j]? ≠ some 0) →
      createFrom b (List.range' k m) = Outcome.done
        ({ b with
            readerActiveFlags := b.readerActiveFlags.set i 1
            readerIndexes := b.readerIndexes.set i b.headIndex
            nextReaderIndex :=
              if b.nextReaderIndex = i % u32 then (i % u32 + 1) % u32
              else b.nextReaderIndex },
          Result.ok { id := i % u32 }) := by
  induction m with
  | zero => intro k h1 h2; omega
  | succ m ih =>
    intro k h1 h2 h3 hne
    rw [List.range'_succ]
    unfold createFrom
    by_cases hki : k = i
    · subst hki
      rw [hi]
      simp only [if_true, claimSlot_eq b k hidx]
    · have hk1 : k < b.readerActiveFlags.length := by omega
      have h0 := hne k (le_refl _) (by omega)
      rw [List.getElem?_eq_getElem hk1] at h0 ⊢
      have hf : b.readerActiveFlags[k] ≠ 0 := fun h => h0 (by rw [h])
      simp only [hf, if_false]
      exact ih (k + 1) (by omega) (by omega) (by omega)
        (fun j h4 h5 => hne j (by omega) h5)

theorem CreateConsumer_full {T : Type} (b : RingBuffer T)
    (h : ∀ j, j < b.readerActiveFlags.length → b.readerActiveFlags[j]? ≠ some 0) :
    CreateConsumer b = Outcome.done (b, Result.error QueueError.NoAvaliableConsumerSlot) := by
  unfold CreateConsumer
  rw [List.range_eq_range']
  exact createFrom_full b _ 0 (by omega) (fun j _ h2 => h j (by omega))

theorem CreateConsumer_claim {T : Type} (b : RingBuffer T) (i : Nat)
    (hi : b.readerActiveFlags[i]? = some 0) (hidx : i < b.readerIndexes.length)
    (hlow : ∀ j, j < i → b.readerActiveFlags[j]? ≠ some 0) :
    CreateConsumer b = Outcome.done
      ({ b with
          readerActiveFlags := b.readerActiveFlags.set i 1
          readerIndexes := b.readerIndexes.set i b.headIndex
          nextReaderIndex :=
            if b.nextReaderIndex = i % u32 then (i % u32 + 1) % u32
            else b.nextReaderIndex },
        Result.ok { id := i % u32 }) := by
  unfold CreateConsumer
  rw [List.range_eq_range']
  have hlen : i < b.readerActiveFlags.length := by
    by_contra hcon
    rw [List.getElem?_eq_none (by omega)] at hi
    cases hi
  exact createFrom_claim b i hi hidx _ 0 (by omega) (by omega) (by omega)
    (fun j _ h2 => hlow j h2)

/-- Any call of `CreateConsumer` on a buffer whose two slot tables have equal length either
finds the table full or claims the lowest Free slot. -/
theorem CreateConsumer_cases {T : Type} (b : RingBuffer T)
    (hlen : b.readerIndexes.length = b.readerActiveFlags.length) :
    ((∀ j, j < b.readerActiveFlags.length → b.readerActiveFlags[j]? ≠ some 0) ∧
      CreateConsumer b = Outcome.done (b, Result.error QueueError.NoAvaliableConsumerSlot)) ∨
    ∃ i, i < b.readerActiveFlags.length ∧ b.readerActiveFlags[i]? = some 0 ∧
      (∀ j, j < i → b.readerActiveFlags[j]? ≠ some 0) ∧
      CreateConsumer b = Outcome.done
        ({ b with
            readerActiveFlags := b.readerActiveFlags.set i 1
            readerIndexes := b.readerIndexes.set i b.headIndex
            nextReaderIndex :=
              if b.nextReaderIndex = i % u32 then (i % u32 + 1) % u32
              else b.nextReaderIndex },
          Result.ok { id := i % u32 }) := by
  classical
  by_cases hex : ∃ i : Nat, b.readerActiveFlags[i]? = some 0
  · right
    let i := Nat.find hex
    have hi : b.readerActiveFlags[i]? = some 0 := Nat.find_spec hex
    have hlow : ∀ j, j < i → b.readerActiveFlags[j]? ≠ some 0 :=
      fun j hj => Nat.find_min hex hj
    have hlt : i < b.readerActiveFlags.length := by
      by_contra hcon
      rw [List.getElem?_eq_none (by omega)] at hi
      cases hi
    exact ⟨i, hlt, hi, hlow, CreateConsumer_claim b i hi (by omega) hlow⟩
  · left
    push_neg at hex
    exact ⟨fun j _ => hex j, CreateConsumer_full b (fun j _ => hex j)⟩


/-! ## `read` and `removeConsumer` -/

theorem read_done_inv {T : Type} {b b1 : RingBuffer T} {id : Nat} {v : T}
    (h : read b id = Outcome.done (v, b1)) :
    ∃ c, b.readerIndexes[id]? = some c ∧ (c + 1) % u32 ≤ b.headIndex ∧
      b.buffer[(c + 1) % u32 &&& b.bitWiseValue]? = some v ∧
      b1 = { b with readerIndexes := b.readerIndexes.set id ((c + 1) % u32) } := by
  unfold read at h
  cases hc : b.readerIndexes[id]? with
  | none => rw [hc] at h; cases h
  | some c =>
    rw [hc] at h
    simp only [] at h
    by_cases hgt : (c + 1) % u32 > b.headIndex
    · rw [if_pos hgt] at h; cases h
    · rw [if_neg hgt] at h
      cases hv : b.buffer[(c + 1) % u32 &&& b.bitWiseValue]? with
      | none => rw [hv] at h; cases h
      | some w =>
        rw [hv] at h
        simp only [Outcome.done.injEq, Prod.mk.injEq] at h
        refine ⟨c, rfl, by omega, ?_, h.2.symm⟩
        rw [hv, h.1]

theorem read_blocked_iff {T : Type} {b : RingBuffer T} {n : Nat} (hs : Shape b n) (id : Nat) :
    read b id = Outcome.blocked ↔
      ∃ c, b.readerIndexes[id]? = some c ∧ b.headIndex < (c + 1) % u32 := by
  unfold read
  cases hc : b.readerIndexes[id]? with
  | none => simp
  | some c =>
    simp only [Option.some.injEq, exists_eq_left']
    have hlt : (c + 1) % u32 &&& b.bitWiseValue < b.buffer.length := by
      rw [hs.mask_index, hs.buf]; exact Nat.mod_lt _ hs.size_pos
    rw [List.getElem?_eq_getElem hlt]
    by_cases hgt : (c + 1) % u32 > b.headIndex
    · simp [hgt]
    · rw [if_neg hgt]
      constructor
      · intro h; cases h
      · intro h; exact absurd h hgt

theorem read_done_of_le {T : Type} {b : RingBuffer T} {n : Nat} (hs : Shape b n) {id c : Nat}
    (hc : b.readerIndexes[id]? = some c) (hle : (c + 1) % u32 ≤ b.headIndex) :
    ∃ v, b.buffer[(c + 1) % u32 % b.size]? = some v ∧
      read b id = Outcome.done
        (v, { b with readerIndexes := b.readerIndexes.set id ((c + 1) % u32) }) := by
  have hlt : (c + 1) % u32 &&& b.bitWiseValue < b.buffer.length := by
    rw [hs.mask_index, hs.buf]; exact Nat.mod_lt _ hs.size_pos
  have hlt2 : (c + 1) % u32 % b.size < b.buffer.length := by
    rw [← hs.mask_index]; exact hlt
  refine ⟨b.buffer[(c + 1) % u32 % b.size], List.getElem?_eq_getElem hlt2, ?_⟩
  unfold read
  rw [hc]
  simp only []
  rw [if_neg (by omega), List.getElem?_eq_getElem hlt]
  simp only [hs.mask_index]

theorem removeConsumer_done_inv {T : Type} {b b1 : RingBuffer T} {id : Nat}
    (h : removeConsumer b id = Outcome.done b1) :
    id < b.readerActiveFlags.length ∧
      b1 = { b with
        readerActiveFlags := b.readerActiveFlags.set id 0
        nextReaderIndex :=
          if b.nextReaderIndex = (id + u32 - 1) % u32 then (b.nextReaderIndex + u32 - 1) % u32
          else b.nextReaderIndex } := by
  unfold removeConsumer at h
  by_cases hid : id < b.readerActiveFlags.length
  · rw [if_pos hid] at h
    refine ⟨hid, ?_⟩
    simp only [] at h
    split_ifs at h with hc
    · rw [if_pos hc]; exact (Outcome.done.inj h).symm
    · rw [if_neg hc]; exact (Outcome.done.inj h).symm
  · rw [if_neg hid] at h; cases h

theorem removeConsumer_eq {T : Type} (b : RingBuffer T) (id : Nat)
    (hid : id < b.readerActiveFlags.length) :
    removeConsumer b id = Outcome.done
      { b with
        readerActiveFlags := b.readerActiveFlags.set id 0
        nextReaderIndex :=
          if b.nextReaderIndex = (id + u32 - 1) % u32 then (b.nextReaderIndex + u32 - 1) % u32
          else b.nextReaderIndex } := by
  unfold removeConsumer
  rw [if_pos hid]
  simp only []
  split_ifs <;> rfl

/-- With at most `2 ^ 32 - 2` slots the compare-and-swap of `removeConsumer` fails for every
slot id below the scan bound. -/
theorem remove_cas_fails {id next n : Nat} (h1 : id < next) (h2 : next ≤ n)
    (h3 : n < u32 - 1) : next ≠ (id + u32 - 1) % u32 := by
  unfold u32 at *
  omega


/-! ## The invariant is established by `NewRingBuffer` and kept by every call -/

theorem NewRingBuffer_pow {T : Type} [Inhabited T] {e : Nat} (he : e < 32) (readers : Nat) :
    (NewRingBuffer (2 ^ e) readers : Result (RingBuffer T)) = Result.ok
      { size := 2 ^ e
        bitWiseValue := 2 ^ e - 1
        headIndex := 0
        nextReaderIndex := 0
        buffer := List.replicate (2 ^ e) default
        readerIndexes := List.replicate readers 0
        readerActiveFlags := List.replicate readers 0 } := by
  unfold NewRingBuffer
  rw [pow_pred_u32 he, pow_and_pred]
  simp

theorem boot_pow {T : Type} [Inhabited T] {e : Nat} (he : e < 32) (readers : Nat) :
    (boot (2 ^ e) readers : Option (Sys T)) = some
      { ring :=
          { size := 2 ^ e
            bitWiseValue := 2 ^ e - 1
            headIndex := 0
            nextReaderIndex := 0
            buffer := List.replicate (2 ^ e) default
            readerIndexes := List.replicate readers 0
            readerActiveFlags := List.replicate readers 0 }
        handles := []
        written := [] } := by
  unfold boot
  rw [NewRingBuffer_pow he]

theorem inv_boot {T : Type} [Inhabited T] {e readers : Nat} (he : e < 32)
    (hr : readers < u32) {s : Sys T} (h : boot (2 ^ e) readers = some s) : Inv s readers := by
  rw [boot_pow he] at h
  cases h
  refine
    { shape := ⟨⟨e, he, rfl⟩, rfl, by simp, by simp, by simp, hr, Nat.zero_le _⟩
      head := rfl
      wlt := by simp [u32]
      flags01 := ?_
      active_lt := ?_
      handles_lt := by simp
      cursor_le := ?_
      lag := ?_
      cells := ?_ }
  · intro i f hf
    simp only [List.getElem?_replicate] at hf
    split_ifs at hf
    left; cases hf; rfl
  · intro i hf
    simp only [List.getElem?_replicate] at hf
    split_ifs at hf
    cases hf
  · intro i c hc
    simp only [List.getElem?_replicate] at hc
    split_ifs at hc
    cases hc; exact le_refl _
  · intro i c hf
    simp only [List.getElem?_replicate] at hf
    split_ifs at hf
    cases hf
  · intro p h1 h2
    simp only at h2
    omega

theorem inv_write {T : Type} {s : Sys T} {n : Nat} (hinv : Inv s n) {v : T}
    {b1 : RingBuffer T} (h : Write s.ring v = Outcome.done b1)
    (hw : s.written.length + 1 < u32 - 1) :
    Inv { s with ring := b1, written := s.written ++ [v] } n := by
  obtain ⟨hfree, rfl⟩ := Write_done_inv hinv.shape v h
  have hs := hinv.shape
  have hhead := hinv.head
  have hmod : (s.ring.headIndex + 1) % u32 = s.ring.headIndex + 1 :=
    Nat.mod_eq_of_lt (by omega)
  refine
    { shape := ⟨hs.pow, hs.mask, by simp [hs.buf], hs.idx, hs.flg, hs.nlt, hs.next⟩
      head := by
        show (s.ring.headIndex + 1) % u32 = (s.written ++ [v]).length
        rw [hmod, hhead]; simp
      wlt := by simpa using hw
      flags01 := hinv.flags01
      active_lt := hinv.active_lt
      handles_lt := hinv.handles_lt
      cursor_le := ?_
      lag := ?_
      cells := ?_ }
  · intro i c hc
    have := hinv.cursor_le i c hc
    simp only [hmod]
    omega
  · intro i c hf hc
    have h1 := hinv.lag i c hf hc
    have h2 := hinv.active_lt i hf
    have h3 : ¬ holdsBack s.ring i := hfree i h2
    have h4 : (c + s.ring.size) % u32 ≠ s.ring.headIndex := fun h5 => h3 ⟨hf, c, hc, h5⟩
    simp only [hmod]
    by_cases h6 : c + s.ring.size < u32
    · rw [Nat.mod_eq_of_lt h6] at h4
      omega
    · omega
  · intro p h1 h2 h3
    simp only [hmod] at h2 h3 ⊢
    have hsz := hs.size_pos
    by_cases hp : p = s.ring.headIndex + 1
    · subst hp
      rw [List.getElem?_set_self (by rw [hs.buf]; exact Nat.mod_lt _ hsz)]
      rw [hhead]
      simp
    · have hne : (s.ring.headIndex + 1) % s.ring.size ≠ p % s.ring.size :=
        mod_ne_of_close (by omega) (by omega)
      rw [List.getElem?_set_ne hne, hinv.cells p h1 (by omega) (by omega)]
      rw [List.getElem?_append_left (by omega)]

theorem inv_read {T : Type} {s : Sys T} {n : Nat} (hinv : Inv s n) {id : Nat} {v : T}
    {b1 : RingBuffer T} (h : read s.ring id = Outcome.done (v, b1)) :
    Inv { s with ring := b1 } n := by
  obtain ⟨c, hc, hle, _, rfl⟩ := read_done_inv h
  have hs := hinv.shape
  have hcl := hinv.cursor_le id c hc
  have hwl := hinv.wlt
  have hhead := hinv.head
  have hmod : (c + 1) % u32 = c + 1 := Nat.mod_eq_of_lt (by omega)
  rw [hmod] at hle
  refine
    { shape := ⟨hs.pow, hs.mask, hs.buf, by simp [hs.idx], hs.flg, hs.nlt, hs.next⟩
      head := hinv.head
      wlt := hinv.wlt
      flags01 := hinv.flags01
      active_lt := hinv.active_lt
      handles_lt := hinv.handles_lt
      cursor_le := ?_
      lag := ?_
      cells := hinv.cells }
  · intro i c1 hc1
    simp only [List.getElem?_set, hmod] at hc1
    split_ifs at hc1 with h1 h2
    · cases hc1; exact hle
    · exact hinv.cursor_le i c1 hc1
  · intro i c1 hf hc1
    simp only [List.getElem?_set, hmod] at hc1
    split_ifs at hc1 with h1 h2
    · cases hc1
      subst h1
      have := hinv.lag id c hf hc
      show s.ring.headIndex ≤ c + 1 + s.ring.size
      omega
    · exact hinv.lag i c1 hf hc1

theorem inv_remove {T : Type} {s : Sys T} {n : Nat} (hinv : Inv s n) {id : Nat}
    {b1 : RingBuffer T} (h : removeConsumer s.ring id = Outcome.done b1)
    (hid : id ∈ s.handles) (hn : n < u32 - 1) :
    Inv { s with ring := b1 } n ∧
      b1 = { s.ring with readerActiveFlags := s.ring.readerActiveFlags.set id 0 } := by
  obtain ⟨hlt, rfl⟩ := removeConsumer_done_inv h
  have hs := hinv.shape
  have hcas := remove_cas_fails (hinv.handles_lt id hid) hs.next hn
  rw [if_neg hcas]
  refine ⟨?_, rfl⟩
  refine
    { shape := ⟨hs.pow, hs.mask, hs.buf, hs.idx, by simp [hs.flg], hs.nlt, hs.next⟩
      head := hinv.head
      wlt := hinv.wlt
      flags01 := ?_
      active_lt := ?_
      handles_lt := hinv.handles_lt
      cursor_le := hinv.cursor_le
      lag := ?_
      cells := hinv.cells }
  · intro i f hf
    simp only [List.getElem?_set] at hf
    split_ifs at hf with h1
    · cases hf; left; rfl
    · exact hinv.flags01 i f hf
  · intro i hf
    simp only [List.getElem?_set] at hf
    split_ifs at hf with h1
    · cases hf
    · exact hinv.active_lt i hf
  · intro i c hf hc
    simp only [List.getElem?_set] at hf
    split_ifs at hf with h1
    · cases hf
    · exact hinv.lag i c hf hc

/-- In a state of the invariant the lowest Free slot is at or below the scan bound. -/
theorem Inv.free_le_next {T : Type} {s : Sys T} {n : Nat} (hinv : Inv s n) {i : Nat}
    (hi : i < n) (hlow : ∀ j, j < i → s.ring.readerActiveFlags[j]? ≠ some 0) :
    i ≤ s.ring.nextReaderIndex := by
  by_contra hcon
  have hlt : s.ring.nextReaderIndex < i := by omega
  have hlen : s.ring.nextReaderIndex < s.ring.readerActiveFlags.length := by
    rw [hinv.shape.flg]; omega
  have hget := List.getElem?_eq_getElem hlen
  rcases hinv.flags01 _ _ hget with h0 | h1
  · exact hlow _ hlt (by rw [hget, h0])
  · have := hinv.active_lt _ (by rw [hget, h1])
    omega

theorem inv_create {T : Type} {s : Sys T} {n : Nat} (hinv : Inv s n)
    {b1 : RingBuffer T} {r : Result Consumer}
    (h : CreateConsumer s.ring = Outcome.done (b1, r)) :
    (r = Result.error QueueError.NoAvaliableConsumerSlot ∧ b1 = s.ring ∧
        (∀ j, j < n → s.ring.readerActiveFlags[j]? ≠ some 0)) ∨
    ∃ i, i < n ∧ r = Result.ok { id := i } ∧ s.ring.readerActiveFlags[i]? = some 0 ∧
      (∀ j, j < i → s.ring.readerActiveFlags[j]? ≠ some 0) ∧
      b1 = { s.ring with
          readerActiveFlags := s.ring.readerActiveFlags.set i 1
          readerIndexes := s.ring.readerIndexes.set i s.ring.headIndex
          nextReaderIndex :=
            if s.ring.nextReaderIndex = i then i + 1 else s.ring.nextReaderIndex } ∧
      Inv { s with ring := b1, handles := i :: s.handles } n := by
  have hs := hinv.shape
  rcases CreateConsumer_cases s.ring (by rw [hs.idx, hs.flg]) with ⟨hfull, heq⟩ | ⟨i, hi, h0, hlow, heq⟩
  · left
    rw [heq] at h
    simp only [Outcome.done.injEq, Prod.mk.injEq] at h
    rw [hs.flg] at hfull
    exact ⟨h.2.symm, h.1.symm, hfull⟩
  · right
    rw [hs.flg] at hi
    have hnlt := hs.nlt
    have hmod : i % u32 = i := Nat.mod_eq_of_lt (by omega)
    have hmod1 : (i + 1) % u32 = i + 1 := Nat.mod_eq_of_lt (by omega)
    rw [heq] at h
    simp only [Outcome.done.injEq, Prod.mk.injEq, hmod, hmod1] at h
    obtain ⟨hb, hr⟩ := h
    have hle := hinv.free_le_next hi hlow
    have hnext := hs.next
    refine ⟨i, hi, hr.symm, h0, hlow, hb.symm, ?_⟩
    subst hb
    refine
      { shape := ⟨hs.pow, hs.mask, hs.buf, by simp [hs.idx], by simp [hs.flg], hs.nlt, ?_⟩
        head := hinv.head
        wlt := hinv.wlt
        flags01 := ?_
        active_lt := ?_
        handles_lt := ?_
        cursor_le := ?_
        lag := ?_
        cells := hinv.cells }
    · show (if s.ring.nextReaderIndex = i then i + 1 else s.ring.nextReaderIndex) ≤ n
      split_ifs <;> omega
    · intro j f hf
      simp only [List.getElem?_set] at hf
      split_ifs at hf with h1 h2
      · cases hf; right; rfl
      · exact hinv.flags01 j f hf
    · intro j hf
      show j < (if s.ring.nextReaderIndex = i then i + 1 else s.ring.nextReaderIndex)
      by_cases hij : i = j
      · subst hij
        split_ifs <;> omega
      · have hf1 : (s.ring.readerActiveFlags.set i 1)[j]? = some 1 := hf
        rw [List.getElem?_set_ne hij] at hf1
        have h9 := hinv.active_lt j hf1
        split_ifs <;> omega
    · intro id hid
      show id < (if s.ring.nextReaderIndex = i then i + 1 else s.ring.nextReaderIndex)
      rcases List.mem_cons.mp hid with h1 | h1
      · split_ifs <;> omega
      · have := hinv.handles_lt id h1
        split_ifs <;> omega
    · intro j c hc
      simp only [List.getElem?_set] at hc
      split_ifs at hc with h1 h2
      · cases hc; exact le_refl _
      · exact hinv.cursor_le j c hc
    · intro j c hf hc
      by_cases hij : i = j
      · subst hij
        have hc1 : (s.ring.readerIndexes.set i s.ring.headIndex)[i]? = some c := hc
        rw [List.getElem?_set_self (by rw [hs.idx]; exact hi)] at hc1
        cases hc1
        show s.ring.headIndex ≤ s.ring.headIndex + s.ring.size
        omega
      · have hf1 : (s.ring.readerActiveFlags.set i 1)[j]? = some 1 := hf
        have hc1 : (s.ring.readerIndexes.set i s.ring.headIndex)[j]? = some c := hc
        rw [List.getElem?_set_ne hij] at hf1 hc1
        exact hinv.lag j c hf1 hc1


/-! ## Steps and runs -/

theorem step_create_inv {T : Type} {s s1 : Sys T} {ev : List (Nat × T)}
    (h : step s Op.create = some (s1, ev)) :
    ev = [] ∧ ∃ b1 r, CreateConsumer s.ring = Outcome.done (b1, r) ∧
      ((∃ c, r = Result.ok c ∧ s1 = { s with ring := b1, handles := c.id :: s.handles }) ∨
        ((∃ e, r = Result.error e) ∧ s1 = { s with ring := b1 })) := by
  simp only [step] at h
  cases hc : CreateConsumer s.ring with
  | done p =>
    obtain ⟨b1, r⟩ := p
    rw [hc] at h
    cases r with
    | ok c =>
      simp only [Option.some.injEq, Prod.mk.injEq] at h
      exact ⟨h.2.symm, b1, _, rfl, Or.inl ⟨c, rfl, h.1.symm⟩⟩
    | error e =>
      simp only [Option.some.injEq, Prod.mk.injEq] at h
      exact ⟨h.2.symm, b1, _, rfl, Or.inr ⟨⟨e, rfl⟩, h.1.symm⟩⟩
  | blocked => rw [hc] at h; cases h
  | panic => rw [hc] at h; cases h

theorem step_write_inv {T : Type} {s s1 : Sys T} {v : T} {ev : List (Nat × T)}
    (h : step s (Op.write v) = some (s1, ev)) :
    ev = [] ∧ ∃ b1, Write s.ring v = Outcome.done b1 ∧
      s1 = { s with ring := b1, written := s.written ++ [v] } := by
  simp only [step] at h
  cases hc : Write s.ring v with
  | done b1 =>
    rw [hc] at h
    simp only [Option.some.injEq, Prod.mk.injEq] at h
    exact ⟨h.2.symm, b1, rfl, h.1.symm⟩
  | blocked => rw [hc] at h; cases h
  | panic => rw [hc] at h; cases h

theorem step_read_inv {T : Type} {s s1 : Sys T} {id : Nat} {ev : List (Nat × T)}
    (h : step s (Op.read id) = some (s1, ev)) :
    id ∈ s.handles ∧ ∃ v b1, read s.ring id = Outcome.done (v, b1) ∧
      ev = [(id, v)] ∧ s1 = { s with ring := b1 } := by
  simp only [step] at h
  by_cases hid : id ∈ s.handles
  · rw [if_pos hid] at h
    refine ⟨hid, ?_⟩
    cases hc : read s.ring id with
    | done p =>
      obtain ⟨v, b1⟩ := p
      rw [hc] at h
      simp only [Option.some.injEq, Prod.mk.injEq] at h
      exact ⟨v, b1, rfl, h.2.symm, h.1.symm⟩
    | blocked => rw [hc] at h; cases h
    | panic => rw [hc] at h; cases h
  · rw [if_neg hid] at h; cases h

theorem step_remove_inv {T : Type} {s s1 : Sys T} {id : Nat} {ev : List (Nat × T)}
    (h : step s (Op.remove id) = some (s1, ev)) :
    id ∈ s.handles ∧ ev = [] ∧ ∃ b1, removeConsumer s.ring id = Outcome.done b1 ∧
      s1 = { s with ring := b1 } := by
  simp only [step] at h
  by_cases hid : id ∈ s.handles
  · rw [if_pos hid] at h
    refine ⟨hid, ?_⟩
    cases hc : removeConsumer s.ring id with
    | done b1 =>
      rw [hc] at h
      simp only [Option.some.injEq, Prod.mk.injEq] at h
      exact ⟨h.2.symm, b1, rfl, h.1.symm⟩
    | blocked => rw [hc] at h; cases h
    | panic => rw [hc] at h; cases h
  · rw [if_neg hid] at h; cases h

theorem run_cons_inv {T : Type} {s s2 : Sys T} {op : Op T} {ops : List (Op T)}
    {log : List (Nat × T)} (h : run s (op :: ops) = some (s2, log)) :
    ∃ s1 ev evs, step s op = some (s1, ev) ∧ run s1 ops = some (s2, evs) ∧
      log = ev ++ evs := by
  unfold run at h
  cases h1 : step s op with
  | none => rw [h1] at h; cases h
  | some p =>
    obtain ⟨s1, ev⟩ := p
    rw [h1] at h
    simp only [] at h
    cases h2 : run s1 ops with
    | none => rw [h2] at h; cases h
    | some q =>
      obtain ⟨s3, evs⟩ := q
      rw [h2] at h
      simp only [Option.some.injEq, Prod.mk.injEq] at h
      exact ⟨s1, ev, evs, rfl, by rw [h2, h.1], h.2.symm⟩

theorem run_append {T : Type} (ops1 ops2 : List (Op T)) :
    ∀ (s s1 s2 : Sys T) (l1 l2 : List (Nat × T)),
      run s ops1 = some (s1, l1) → run s1 ops2 = some (s2, l2) →
      run s (ops1 ++ ops2) = some (s2, l1 ++ l2) := by
  induction ops1 with
  | nil =>
    intro s s1 s2 l1 l2 h1 h2
    simp only [run, Option.some.injEq, Prod.mk.injEq] at h1
    obtain ⟨rfl, rfl⟩ := h1
    simpa using h2
  | cons op ops ih =>
    intro s s1 s2 l1 l2 h1 h2
    obtain ⟨t, ev, evs, hst, hrun, rfl⟩ := run_cons_inv h1
    have := ih t s1 s2 evs l2 hrun h2
    rw [List.cons_append, run, hst]
    simp only []
    rw [this]
    simp only [List.append_assoc]

theorem step_written {T : Type} {s s1 : Sys T} {op : Op T} {ev : List (Nat × T)}
    (h : step s op = some (s1, ev)) : ∃ t, s1.written = s.written ++ t := by
  cases op with
  | create =>
    obtain ⟨_, b1, r, _, h1 | h1⟩ := step_create_inv h
    · obtain ⟨c, _, rfl⟩ := h1; exact ⟨[], by simp⟩
    · obtain ⟨_, rfl⟩ := h1; exact ⟨[], by simp⟩
  | write v =>
    obtain ⟨_, b1, _, rfl⟩ := step_write_inv h
    exact ⟨[v], rfl⟩
  | read id =>
    obtain ⟨_, v, b1, _, _, rfl⟩ := step_read_inv h
    exact ⟨[], by simp⟩
  | remove id =>
    obtain ⟨_, _, b1, _, rfl⟩ := step_remove_inv h
    exact ⟨[], by simp⟩

theorem run_written {T : Type} (ops : List (Op T)) :
    ∀ (s s1 : Sys T) (log : List (Nat × T)), run s ops = some (s1, log) →
      s1.written = s.written ++ writesOf ops := by
  induction ops with
  | nil =>
    intro s s1 log h
    simp only [run, Option.some.injEq, Prod.mk.injEq] at h
    rw [← h.1]; simp [writesOf]
  | cons op ops ih =>
    intro s s1 log h
    obtain ⟨t, ev, evs, hst, hrun, _⟩ := run_cons_inv h
    have h2 := ih t s1 evs hrun
    cases op with
    | create =>
      obtain ⟨_, b1, r, _, h1 | h1⟩ := step_create_inv hst
      · obtain ⟨c, _, rfl⟩ := h1; simpa [writesOf] using h2
      · obtain ⟨_, rfl⟩ := h1; simpa [writesOf] using h2
    | write v =>
      obtain ⟨_, b1, _, rfl⟩ := step_write_inv hst
      simpa [writesOf] using h2
    | read id =>
      obtain ⟨_, v, b1, _, _, rfl⟩ := step_read_inv hst
      simpa [writesOf] using h2
    | remove id =>
      obtain ⟨_, _, b1, _, rfl⟩ := step_remove_inv hst
      simpa [writesOf] using h2

/-- A slot that is Active with cursor `c0` stays Active through any call other than its own
removal; the call moves its cursor by the number of values it is handed, and a value it is
handed is the one written at position `c0`. -/
theorem step_track {T : Type} {s s1 : Sys T} {n j c0 : Nat} {op : Op T}
    {ev : List (Nat × T)} (hinv : Inv s n)
    (hf : s.ring.readerActiveFlags[j]? = some 1) (hc : s.ring.readerIndexes[j]? = some c0)
    (h : step s op = some (s1, ev)) (hj : op ≠ Op.remove j)
    (hreg : n < u32 - 1 ∨ op.isRemove = false) (hw : s1.written.length < u32 - 1) :
    Inv s1 n ∧ s1.ring.readerActiveFlags[j]? = some 1 ∧
      s1.ring.readerIndexes[j]? = some (c0 + (readsOf j ev).length) ∧
      (readsOf j ev = [] ∨ ∃ v, readsOf j ev = [v] ∧ s.written[c0]? = some v) := by
  have hs := hinv.shape
  cases op with
  | create =>
    obtain ⟨rfl, b1, r, hcc, _⟩ := step_create_inv h
    rcases inv_create hinv hcc with ⟨rfl, rfl, _⟩ | ⟨i, hi, rfl, h0, _, rfl, hinv1⟩
    · simp only [step] at h
      rw [hcc] at h
      simp only [Option.some.injEq, Prod.mk.injEq] at h
      rw [← h.1]
      exact ⟨hinv, hf, by simpa [readsOf] using hc, Or.inl rfl⟩
    · simp only [step] at h
      rw [hcc] at h
      simp only [Option.some.injEq, Prod.mk.injEq] at h
      rw [← h.1]
      have hij : i ≠ j := by
        intro hij; subst hij; rw [h0] at hf; cases hf
      refine ⟨hinv1, ?_, ?_, Or.inl rfl⟩
      · show (s.ring.readerActiveFlags.set i 1)[j]? = some 1
        rw [List.getElem?_set_ne hij]; exact hf
      · show (s.ring.readerIndexes.set i s.ring.headIndex)[j]? = _
        rw [List.getElem?_set_ne hij]; simpa [readsOf] using hc
  | write v =>
    obtain ⟨rfl, b1, hwr, rfl⟩ := step_write_inv h
    have hinv1 := inv_write hinv hwr (by simpa using hw)
    obtain ⟨_, rfl⟩ := Write_done_inv hs v hwr
    exact ⟨hinv1, hf, by simpa [readsOf] using hc, Or.inl rfl⟩
  | read id =>
    obtain ⟨_, v, b1, hrd, rfl, rfl⟩ := step_read_inv h
    have hinv1 := inv_read hinv hrd
    obtain ⟨c, hcid, hle, hv, rfl⟩ := read_done_inv hrd
    refine ⟨hinv1, hf, ?_, ?_⟩
    · show (s.ring.readerIndexes.set id ((c + 1) % u32))[j]? = _
      by_cases hij : id = j
      · subst hij
        have hcc : c0 = c := by rw [hc] at hcid; exact Option.some.inj hcid
        subst hcc
        have h1 := hinv.cursor_le id c0 hc
        have h2 := hinv.wlt
        have h3 := hinv.head
        rw [List.getElem?_set_self (by rw [hs.idx, ← hs.flg]; exact (List.getElem?_eq_some.mp hf).1)]
        rw [Nat.mod_eq_of_lt (by omega)]
        simp [readsOf]
      · rw [List.getElem?_set_ne hij]
        simpa [readsOf, hij] using hc
    · by_cases hij : id = j
      · subst hij
        right
        have hcc : c0 = c := by rw [hc] at hcid; exact Option.some.inj hcid
        subst hcc
        have h1 := hinv.cursor_le id c0 hc
        have h2 := hinv.wlt
        have h3 := hinv.head
        have hmod : (c0 + 1) % u32 = c0 + 1 := Nat.mod_eq_of_lt (by omega)
        rw [hmod] at hle hv
        rw [hs.mask_index] at hv
        have h4 := hinv.lag id c0 hf hc
        have h5 := hinv.cells (c0 + 1) (by omega) hle (by omega)
        rw [hv] at h5
        exact ⟨v, by simp [readsOf], by simpa using h5.symm⟩
      · left
        simp [readsOf, hij]
  | remove id =>
    obtain ⟨hid, rfl, b1, hrm, rfl⟩ := step_remove_inv h
    have hn : n < u32 - 1 := by
      rcases hreg with h1 | h1
      · exact h1
      · simp [Op.isRemove] at h1
    obtain ⟨hinv1, rfl⟩ := inv_remove hinv hrm hid hn
    have hij : id ≠ j := fun hij => hj (by rw [hij])
    refine ⟨hinv1, ?_, by simpa [readsOf] using hc, Or.inl rfl⟩
    show (s.ring.readerActiveFlags.set id 0)[j]? = some 1
    rw [List.getElem?_set_ne hij]; exact hf

theorem step_inv {T : Type} {s s1 : Sys T} {n : Nat} {op : Op T}
    {ev : List (Nat × T)} (hinv : Inv s n) (h : step s op = some (s1, ev))
    (hreg : n < u32 - 1 ∨ op.isRemove = false) (hw : s1.written.length < u32 - 1) :
    Inv s1 n := by
  cases op with
  | create =>
    obtain ⟨rfl, b1, r, hcc, _⟩ := step_create_inv h
    rcases inv_create hinv hcc with ⟨rfl, rfl, _⟩ | ⟨i, hi, rfl, h0, _, rfl, hinv1⟩
    · simp only [step] at h
      rw [hcc] at h
      simp only [Option.some.injEq, Prod.mk.injEq] at h
      rw [← h.1]; exact hinv
    · simp only [step] at h
      rw [hcc] at h
      simp only [Option.some.injEq, Prod.mk.injEq] at h
      rw [← h.1]; exact hinv1
  | write v =>
    obtain ⟨rfl, b1, hwr, rfl⟩ := step_write_inv h
    exact inv_write hinv hwr (by simpa using hw)
  | read id =>
    obtain ⟨_, v, b1, hrd, rfl, rfl⟩ := step_read_inv h
    exact inv_read hinv hrd
  | remove id =>
    obtain ⟨hid, rfl, b1, hrm, rfl⟩ := step_remove_inv h
    have hn : n < u32 - 1 := by
      rcases hreg with h1 | h1
      · exact h1
      · simp [Op.isRemove] at h1
    exact (inv_remove hinv hrm hid hn).1


theorem readsOf_append {T : Type} (j : Nat) (l1 l2 : List (Nat × T)) :
    readsOf j (l1 ++ l2) = readsOf j l1 ++ readsOf j l2 := by
  simp [readsOf]

theorem run_inv {T : Type} {n : Nat} (ops : List (Op T)) :
    ∀ (s s1 : Sys T) (log : List (Nat × T)), Inv s n → run s ops = some (s1, log) →
      (n < u32 - 1 ∨ ∀ op ∈ ops, op.isRemove = false) → s1.written.length < u32 - 1 →
      Inv s1 n := by
  induction ops with
  | nil =>
    intro s s1 log hinv h _ _
    simp only [run, Option.some.injEq, Prod.mk.injEq] at h
    rw [← h.1]; exact hinv
  | cons op ops ih =>
    intro s s1 log hinv h hreg hw
    obtain ⟨t, ev, evs, hst, hrun, _⟩ := run_cons_inv h
    have hwt := run_written ops t s1 evs hrun
    have hlen : t.written.length ≤ s1.written.length := by rw [hwt]; simp
    have hreg1 : n < u32 - 1 ∨ op.isRemove = false :=
      hreg.imp id (fun h1 => h1 op (List.mem_cons_self _ _))
    have hreg2 : n < u32 - 1 ∨ ∀ o ∈ ops, o.isRemove = false :=
      hreg.imp id (fun h1 o ho => h1 o (List.mem_cons_of_mem _ ho))
    exact ih t s1 evs (step_inv hinv hst hreg1 (by omega)) hrun hreg2 hw

/-- A slot that is Active with cursor `c0` and is not removed receives, read after read, the
values written at positions `c0`, `c0 + 1`, ... -/
theorem run_track {T : Type} {n j : Nat} (ops : List (Op T)) :
    ∀ (s s1 : Sys T) (log : List (Nat × T)) (c0 : Nat), Inv s n →
      s.ring.readerActiveFlags[j]? = some 1 → s.ring.readerIndexes[j]? = some c0 →
      run s ops = some (s1, log) → (∀ op ∈ ops, op ≠ Op.remove j) →
      (n < u32 - 1 ∨ ∀ op ∈ ops, op.isRemove = false) → s1.written.length < u32 - 1 →
      Inv s1 n ∧ s1.ring.readerActiveFlags[j]? = some 1 ∧
        s1.ring.readerIndexes[j]? = some (c0 + (readsOf j log).length) ∧
        ∀ k, k < (readsOf j log).length → (readsOf j log)[k]? = s1.written[c0 + k]? := by
  induction ops with
  | nil =>
    intro s s1 log c0 hinv hf hc h _ _ _
    simp only [run, Option.some.injEq, Prod.mk.injEq] at h
    obtain ⟨rfl, rfl⟩ := h
    refine ⟨hinv, hf, by simpa [readsOf] using hc, ?_⟩
    intro k hk
    simp [readsOf] at hk
  | cons op ops ih =>
    intro s s1 log c0 hinv hf hc h hj hreg hw
    obtain ⟨t, ev, evs, hst, hrun, rfl⟩ := run_cons_inv h
    have hwt := run_written ops t s1 evs hrun
    obtain ⟨x, hx⟩ := step_written hst
    have hlen : t.written.length ≤ s1.written.length := by rw [hwt]; simp
    have hreg1 : n < u32 - 1 ∨ op.isRemove = false :=
      hreg.imp id (fun h1 => h1 op (List.mem_cons_self _ _))
    have hreg2 : n < u32 - 1 ∨ ∀ o ∈ ops, o.isRemove = false :=
      hreg.imp id (fun h1 o ho => h1 o (List.mem_cons_of_mem _ ho))
    obtain ⟨hinvt, hft, hct, hev⟩ :=
      step_track hinv hf hc hst (hj op (List.mem_cons_self _ _)) hreg1 (by omega)
    obtain ⟨hinv1, hf1, hc1, hvals⟩ :=
      ih t s1 evs _ hinvt hft hct hrun (fun o ho => hj o (List.mem_cons_of_mem _ ho)) hreg2 hw
    rw [readsOf_append]
    refine ⟨hinv1, hf1, ?_, ?_⟩
    · rw [hc1, List.length_append, Nat.add_assoc]
    · intro k hk
      rcases hev with h0 | ⟨v, hv, hsv⟩
      · rw [h0] at hvals hk ⊢
        simpa using hvals k (by simpa using hk)
      · rw [hv] at hvals hk ⊢
        have hlt : c0 < s.written.length := by
          by_contra hcon
          rw [List.getElem?_eq_none (by omega)] at hsv
          cases hsv
        cases k with
        | zero =>
          have h1 : s1.written[c0 + 0]? = some v := by
            rw [hwt, hx, List.append_assoc, Nat.add_zero, List.getElem?_append_left hlt]
            exact hsv
          rw [h1]; simp
        | succ k =>
          have := hvals k (by simpa using hk)
          simp only [List.length_singleton] at this
          simp only [List.singleton_append, List.getElem?_cons_succ]
          rw [this]
          congr 1
          omega


/-! ## Registration on a fresh buffer -/

theorem registered_boot {T : Type} [Inhabited T] {e readers : Nat} (he : e < 32)
    (hr : readers < u32) {s : Sys T} (h : boot (2 ^ e) readers = some s) :
    Registered s readers 0 := by
  have hinv := inv_boot he hr h
  rw [boot_pow he] at h
  cases h
  exact
    { inv := hinv
      nothing := rfl
      active := fun j hj => by omega
      free := fun j _ hj => by simp [hj]
      handles := fun j => by simp
      cursors := fun j hj => by simp [hj]
      next := rfl }

theorem registered_step {T : Type} {s : Sys T} {n k : Nat} (h : Registered s n k)
    (hk : k < n) :
    ∃ s1, step s Op.create = some (s1, []) ∧ Registered s1 n (k + 1) ∧
      s1.ring.size = s.ring.size ∧ s1.ring.buffer = s.ring.buffer ∧
      s1.ring.headIndex = s.ring.headIndex := by
  have hinv := h.inv
  have hs := hinv.shape
  have hnlt := hs.nlt
  have hclaim := CreateConsumer_claim s.ring k (h.free k (le_refl _) hk)
    (by rw [hs.idx]; exact hk) (fun j hj => by rw [h.active j hj]; simp)
  have hmod : k % u32 = k := Nat.mod_eq_of_lt (by omega)
  have hmod1 : (k + 1) % u32 = k + 1 := Nat.mod_eq_of_lt (by omega)
  rw [hmod, hmod1, h.next, if_pos rfl] at hclaim
  rcases inv_create hinv hclaim with ⟨hr, _, _⟩ | ⟨i, _, hr, _, _, _, hinv1⟩
  · cases hr
  · have hik : k = i := by
      simp only [Result.ok.injEq, Consumer.mk.injEq] at hr
      exact hr
    subst hik
    have hhead : s.ring.headIndex = 0 := by rw [hinv.head, h.nothing]; rfl
    refine
      ⟨{ s with
          ring :=
            { s.ring with
              readerActiveFlags := s.ring.readerActiveFlags.set k 1
              readerIndexes := s.ring.readerIndexes.set k s.ring.headIndex
              nextReaderIndex := k + 1 }
          handles := k :: s.handles },
        by simp only [step, hclaim], ?_, rfl, rfl, rfl⟩
    refine
      { inv := hinv1
        nothing := h.nothing
        active := ?_
        free := ?_
        handles := ?_
        cursors := ?_
        next := rfl }
    · intro j hj
      show (s.ring.readerActiveFlags.set k 1)[j]? = some 1
      by_cases hjk : k = j
      · subst hjk
        exact List.getElem?_set_self (by rw [hs.flg]; exact hk)
      · rw [List.getElem?_set_ne hjk]; exact h.active j (by omega)
    · intro j hj1 hj2
      show (s.ring.readerActiveFlags.set k 1)[j]? = some 0
      rw [List.getElem?_set_ne (by omega)]; exact h.free j (by omega) hj2
    · intro j
      show j ∈ k :: s.handles ↔ j < k + 1
      rw [List.mem_cons, h.handles j]
      omega
    · intro j hj
      show (s.ring.readerIndexes.set k s.ring.headIndex)[j]? = some 0
      by_cases hjk : k = j
      · subst hjk
        rw [List.getElem?_set_self (by rw [hs.idx]; exact hk), hhead]
      · rw [List.getElem?_set_ne hjk]; exact h.cursors j hj

/-- The first `k` calls of `CreateConsumer` on a fresh buffer with at least `k` slots all
succeed and claim the slots `0 .. k - 1`. -/
theorem registered_run {T : Type} {n : Nat} (k : Nat) :
    ∀ (s : Sys T), Registered s n 0 → k ≤ n →
      ∃ s1, run s (List.replicate k Op.create) = some (s1, []) ∧ Registered s1 n k ∧
        s1.ring.size = s.ring.size ∧ s1.ring.buffer = s.ring.buffer ∧
        s1.ring.headIndex = s.ring.headIndex := by
  induction k with
  | zero => intro s h _; exact ⟨s, rfl, h, rfl, rfl, rfl⟩
  | succ k ih =>
    intro s h hk
    obtain ⟨s1, hrun, hreg, h1, h2, h3⟩ := ih s h (by omega)
    obtain ⟨s2, hst, hreg2, h4, h5, h6⟩ := registered_step hreg (by omega)
    refine ⟨s2, ?_, hreg2, by rw [h4, h1], by rw [h5, h2], by rw [h6, h3]⟩
    rw [List.replicate_succ']
    have hlast : run s1 [Op.create] = some (s2, []) := by
      simp only [run, hst, List.append_nil]
    simpa using run_append _ _ s s1 s2 [] [] hrun hlast

theorem run_log_mem {T : Type} (ops : List (Op T)) :
    ∀ (s s1 : Sys T) (log : List (Nat × T)), run s ops = some (s1, log) →
      ∀ x ∈ log, Op.read x.1 ∈ ops := by
  induction ops with
  | nil =>
    intro s s1 log h x hx
    simp only [run, Option.some.injEq, Prod.mk.injEq] at h
    rw [← h.2] at hx; cases hx
  | cons op ops ih =>
    intro s s1 log h x hx
    obtain ⟨t, ev, evs, hst, hrun, rfl⟩ := run_cons_inv h
    rcases List.mem_append.mp hx with h1 | h1
    · cases op with
      | create => obtain ⟨rfl, _⟩ := step_create_inv hst; cases h1
      | write v => obtain ⟨rfl, _⟩ := step_write_inv hst; cases h1
      | read id =>
        obtain ⟨_, v, b1, _, rfl, _⟩ := step_read_inv hst
        simp only [List.mem_singleton] at h1
        subst h1
        exact List.mem_cons_self _ _
      | remove id => obtain ⟨_, rfl, _⟩ := step_remove_inv hst; cases h1
    · exact List.mem_cons_of_mem _ (ih t s1 evs hrun x h1)


/-! ## Ordering, fan-out and late registration -/

/-- C1 (ordering for one consumer): on a buffer of power-of-two size with at least one slot,
after one `CreateConsumer` (its success implies `readers >= 1`), every schedule of `Write`s of the values `vs` (fewer than
`2 ^ 32 - 1` of them) and of `Read`s by that consumer in which no call blocks returns to the
consumer, read after read, `vs[0]`, `vs[1]`, ...: the `k`-th completed `Read` returns
`vs[k]`, every completed read of the schedule is one of them, and no more reads complete than
values were written. -/
theorem fifo_one_consumer {T : Type} [Inhabited T] (e readers : Nat) (vs : List T)
    (sch : List (Op T)) (b0 b1 : RingBuffer T) (c : Consumer) (s1 : Sys T)
    (log : List (Nat × T)) (he : e < 32) (hr : readers < u32)
    (hvs : vs.length < u32 - 1)
    (hnew : NewRingBuffer (2 ^ e) readers = Result.ok b0)
    (hcreate : CreateConsumer b0 = Outcome.done (b1, Result.ok c))
    (hsch : ∀ op ∈ sch, op.isWrite = true ∨ op = Op.read c.id)
    (hwrites : writesOf sch = vs)
    (hrun : run { ring := b1, handles := [c.id], written := [] } sch = some (s1, log)) :
    log.map Prod.snd = readsOf c.id log ∧ (readsOf c.id log).length ≤ vs.length ∧
      ∀ k, k < (readsOf c.id log).length → (readsOf c.id log)[k]? = vs[k]? := by
  have hboot : (boot (2 ^ e) readers : Option (Sys T)) =
      some { ring := b0, handles := [], written := [] } := by
    unfold boot; rw [hnew]
  have hinv0 := inv_boot he hr hboot
  rcases inv_create hinv0 hcreate with ⟨h1, _, _⟩ | ⟨i, hi, hri, _, _, hb1, hinv1⟩
  · cases h1
  · have hci : c.id = i := by cases hri; rfl
    have hs0 := hinv0.shape
    have hf : b1.readerActiveFlags[i]? = some 1 := by
      rw [hb1]
      exact List.getElem?_set_self (by rw [hs0.flg]; exact hi)
    have hc : b1.readerIndexes[i]? = some 0 := by
      rw [hb1]
      show (b0.readerIndexes.set i b0.headIndex)[i]? = some 0
      rw [List.getElem?_set_self (by rw [hs0.idx]; exact hi)]
      have := hinv0.head
      simp only [List.length_nil] at this
      rw [this]
    have hwr := run_written sch _ s1 log hrun
    simp only [List.nil_append] at hwr
    rw [hci] at hrun hsch ⊢
    have hkeep : ∀ op ∈ sch, op ≠ Op.remove i := by
      intro op hop h
      rcases hsch op hop with hv | hv <;> rw [h] at hv <;> cases hv
    have hnorem : ∀ op ∈ sch, op.isRemove = false := by
      intro op hop
      rcases hsch op hop with hv | hv
      · cases op <;> first | rfl | cases hv
      · rw [hv]; rfl
    obtain ⟨hinv2, _, hc2, hvals⟩ :=
      run_track sch _ s1 log 0 hinv1 hf hc hrun hkeep (Or.inr hnorem)
        (by rw [hwr, hwrites]; exact hvs)
    refine ⟨?_, ?_, ?_⟩
    · unfold readsOf
      rw [List.filter_eq_self.mpr]
      intro x hx
      have hmem := run_log_mem sch _ s1 log hrun x hx
      rcases hsch _ hmem with hv | hv
      · cases hv
      · simp only [Op.read.injEq] at hv
        simp [hv]
    · have := hinv2.cursor_le i _ hc2
      rw [hinv2.head, hwr, hwrites] at this
      omega
    · intro k hk
      have := hvals k hk
      rw [hwr, hwrites, Nat.zero_add] at this
      exact this

/-- C1 on a buffer of size 2 with the schedule write 7, read, write 8, write 9, read, read. -/
theorem fifo_one_consumer_witness :
    ([(0, 7), (0, 8), (0, 9)] : List (Nat × Nat)).map Prod.snd
        = readsOf 0 [(0, 7), (0, 8), (0, 9)] ∧
      (readsOf 0 ([(0, 7), (0, 8), (0, 9)] : List (Nat × Nat))).length ≤ [7, 8, 9].length ∧
      ∀ k, k < (readsOf 0 ([(0, 7), (0, 8), (0, 9)] : List (Nat × Nat))).length →
        (readsOf 0 ([(0, 7), (0, 8), (0, 9)] : List (Nat × Nat)))[k]? = [7, 8, 9][k]? :=
  fifo_one_consumer 1 1 [7, 8, 9]
    [Op.write 7, Op.read 0, Op.write 8, Op.write 9, Op.read 0, Op.read 0]
    { size := 2, bitWiseValue := 1, headIndex := 0, nextReaderIndex := 0, buffer := [0, 0],
      readerIndexes := [0], readerActiveFlags := [0] }
    { size := 2, bitWiseValue := 1, headIndex := 0, nextReaderIndex := 1, buffer := [0, 0],
      readerIndexes := [0], readerActiveFlags := [1] }
    { id := 0 }
    { ring :=
        { size := 2, bitWiseValue := 1, headIndex := 3, nextReaderIndex := 1, buffer := [8, 9],
          readerIndexes := [3], readerActiveFlags := [1] }
      handles := [0]
      written := [7, 8, 9] }
    [(0, 7), (0, 8), (0, 9)]
    (by decide) (by decide) (by decide) (by decide) (by decide) (by decide) (by decide)
    (by decide)


/-- C2 (fan-out independence): on a buffer of power-of-two size, after `m` registrations on
the fresh buffer (`m` at most `readers`; the statement holds for every such `m`, so for
`m >= 2`), the consumers are those with ids `0 .. m - 1`, and in every schedule of the
`Write`s of `vs` (fewer than `2 ^ 32 - 1` values) and of `Read`s by these consumers, in any
order, in which no call blocks, the `k`-th completed `Read` of each consumer returns `vs[k]`,
whatever the other consumers have read. -/
theorem fanout_independence {T : Type} [Inhabited T] (e readers m : Nat) (vs : List T)
    (sch : List (Op T)) (s0 sm s1 : Sys T) (logm log : List (Nat × T))
    (he : e < 32) (hr : readers < u32) (hmr : m ≤ readers) (hvs : vs.length < u32 - 1)
    (hboot : boot (2 ^ e) readers = some s0)
    (hreg : run s0 (List.replicate m Op.create) = some (sm, logm))
    (hsch : ∀ op ∈ sch, op.isWrite = true ∨ op.isReadBelow m = true)
    (hwrites : writesOf sch = vs)
    (hrun : run sm sch = some (s1, log)) :
    (∀ j, j ∈ sm.handles ↔ j < m) ∧
      ∀ j, j < m → (readsOf j log).length ≤ vs.length ∧
        ∀ k, k < (readsOf j log).length → (readsOf j log)[k]? = vs[k]? := by
  obtain ⟨s2, hrun2, hregd, _, _, _⟩ := registered_run m s0 (registered_boot he hr hboot) hmr
  rw [hreg] at hrun2
  simp only [Option.some.injEq, Prod.mk.injEq] at hrun2
  obtain ⟨rfl, _⟩ := hrun2
  refine ⟨hregd.handles, ?_⟩
  intro j hj
  have hwr := run_written sch sm s1 log hrun
  rw [hregd.nothing, List.nil_append] at hwr
  have hkeep : ∀ op ∈ sch, op ≠ Op.remove j := by
    intro op hop h
    rcases hsch op hop with hv | hv <;> rw [h] at hv <;> cases hv
  have hnorem : ∀ op ∈ sch, op.isRemove = false := by
    intro op hop
    rcases hsch op hop with hv | hv <;> cases op <;> first | rfl | cases hv
  obtain ⟨hinv2, _, hc2, hvals⟩ :=
    run_track sch sm s1 log 0 hregd.inv (hregd.active j hj) (hregd.cursors j (by omega)) hrun
      hkeep (Or.inr hnorem) (by rw [hwr, hwrites]; exact hvs)
  constructor
  · have := hinv2.cursor_le j _ hc2
    rw [hinv2.head, hwr, hwrites] at this
    omega
  · intro k hk
    have := hvals k hk
    rw [hwr, hwrites, Nat.zero_add] at this
    exact this

/-- C2 on a buffer of size 2 with two consumers that read at different rates. -/
theorem fanout_independence_witness :
    (2 ≤ 2) ∧ (∀ j, j ∈ [1, 0] ↔ j < 2) ∧
      ∀ j, j < 2 →
        (readsOf j ([(0, 7), (1, 7), (0, 8), (1, 8), (1, 9), (0, 9)] : List (Nat × Nat))).length
            ≤ [7, 8, 9].length ∧
          ∀ k,
            k < (readsOf j
              ([(0, 7), (1, 7), (0, 8), (1, 8), (1, 9), (0, 9)] : List (Nat × Nat))).length →
            (readsOf j ([(0, 7), (1, 7), (0, 8), (1, 8), (1, 9), (0, 9)] : List (Nat × Nat)))[k]?
              = [7, 8, 9][k]? :=
  ⟨by decide,
    fanout_independence 1 2 2 [7, 8, 9]
      [Op.write 7, Op.read 0, Op.write 8, Op.read 1, Op.read 0, Op.write 9, Op.read 1,
        Op.read 1, Op.read 0]
      { ring :=
          { size := 2, bitWiseValue := 1, headIndex := 0, nextReaderIndex := 0, buffer := [0, 0],
            readerIndexes := [0, 0], readerActiveFlags := [0, 0] }
        handles := []
        written := [] }
      { ring :=
          { size := 2, bitWiseValue := 1, headIndex := 0, nextReaderIndex := 2, buffer := [0, 0],
            readerIndexes := [0, 0], readerActiveFlags := [1, 1] }
        handles := [1, 0]
        written := [] }
      { ring :=
          { size := 2, bitWiseValue := 1, headIndex := 3, nextReaderIndex := 2, buffer := [8, 9],
            readerIndexes := [3, 3], readerActiveFlags := [1, 1] }
        handles := [1, 0]
        written := [7, 8, 9] }
      [] [(0, 7), (1, 7), (0, 8), (1, 8), (1, 9), (0, 9)]
      (by decide) (by decide) (by decide) (by decide) (by decide) (by decide) (by decide)
      (by decide) (by decide)⟩

/-- Late registration where the scan bound is right: take any sequential history `pre` on a fresh buffer of
power-of-two size after which `N` values have been written, then a successful
`CreateConsumer`, then any further schedule `post` that does not remove the new consumer
(no call blocks; fewer than `2 ^ 32 - 1` writes in all; the histories are free of `Remove`
or the table has at most `2 ^ 32 - 2` slots).  The cursor of the new consumer equals the
write cursor `N`; its `Read` blocks right after registration and, later, exactly when it has
read as many values as were written since; and its `k`-th completed `Read` returns the
value written at position `N + k`, never one of the first `N`. -/
theorem late_registration {T : Type} [Inhabited T] (e readers N : Nat)
    (pre post : List (Op T)) (s0 sN s2 : Sys T) (b1 : RingBuffer T) (c : Consumer)
    (logN log : List (Nat × T)) (he : e < 32) (hr : readers < u32)
    (hboot : boot (2 ^ e) readers = some s0)
    (hpre : run s0 pre = some (sN, logN))
    (hN : sN.written.length = N)
    (hcreate : CreateConsumer sN.ring = Outcome.done (b1, Result.ok c))
    (hpost : run { sN with ring := b1, handles := c.id :: sN.handles } post = some (s2, log))
    (hkeep : ∀ op ∈ post, op ≠ Op.remove c.id)
    (hreg : readers < u32 - 1 ∨ ∀ op ∈ pre ++ post, op.isRemove = false)
    (hw : s2.written.length < u32 - 1) :
    b1.readerIndexes[c.id]? = some b1.headIndex ∧ b1.headIndex = N ∧
      read b1 c.id = Outcome.blocked ∧
      s2.written = sN.written ++ writesOf post ∧
      (read s2.ring c.id = Outcome.blocked ↔
        (readsOf c.id log).length = (writesOf post).length) ∧
      (readsOf c.id log).length ≤ (writesOf post).length ∧
      ∀ k, k < (readsOf c.id log).length → (readsOf c.id log)[k]? = s2.written[N + k]? := by
  have hinv0 := inv_boot he hr hboot
  have hwr2 := run_written post _ s2 log hpost
  simp only [] at hwr2
  have hregpre : readers < u32 - 1 ∨ ∀ op ∈ pre, op.isRemove = false :=
    hreg.imp id (fun h op hop => h op (List.mem_append_left _ hop))
  have hregpost : readers < u32 - 1 ∨ ∀ op ∈ post, op.isRemove = false :=
    hreg.imp id (fun h op hop => h op (List.mem_append_right _ hop))
  have hwN : sN.written.length < u32 - 1 := by
    rw [hwr2, List.length_append] at hw; omega
  have hinvN := run_inv pre s0 sN logN hinv0 hpre hregpre hwN
  rcases inv_create hinvN hcreate with ⟨h1, _, _⟩ | ⟨i, hi, hri, _, _, hb1, hinv1⟩
  · cases h1
  · have hci : c.id = i := by cases hri; rfl
    rw [hci] at hpost hkeep ⊢
    have hsN := hinvN.shape
    have hhead : b1.headIndex = N := by rw [hb1]; show sN.ring.headIndex = N; rw [hinvN.head, hN]
    have hf : b1.readerActiveFlags[i]? = some 1 := by
      rw [hb1]
      exact List.getElem?_set_self (by rw [hsN.flg]; exact hi)
    have hc : b1.readerIndexes[i]? = some N := by
      rw [hb1]
      show (sN.ring.readerIndexes.set i sN.ring.headIndex)[i]? = some N
      rw [List.getElem?_set_self (by rw [hsN.idx]; exact hi), hinvN.head, hN]
    obtain ⟨hinv2, _, hc2, hvals⟩ :=
      run_track post _ s2 log N hinv1 hf hc hpost hkeep hregpost hw
    have hs1 := hinv1.shape
    have hlen2 : s2.written.length = N + (writesOf post).length := by
      rw [hwr2, List.length_append, hN]
    have hcur := hinv2.cursor_le i _ hc2
    rw [hinv2.head, hlen2] at hcur
    refine ⟨by rw [hc, hhead], hhead, ?_, hwr2, ?_, by omega, hvals⟩
    · rw [read_blocked_iff hs1 i]
      exact ⟨N, hc, by
        show b1.headIndex < (N + 1) % u32
        rw [hhead, Nat.mod_eq_of_lt (by omega)]; omega⟩
    · rw [read_blocked_iff hinv2.shape i]
      constructor
      · rintro ⟨c2, h1, h2⟩
        rw [hc2] at h1
        have h3 := Option.some.inj h1
        rw [← h3, hinv2.head, hlen2, Nat.mod_eq_of_lt (by omega)] at h2
        omega
      · intro h1
        refine ⟨_, hc2, ?_⟩
        rw [hinv2.head, hlen2, Nat.mod_eq_of_lt (by omega)]
        omega

/-- Late registration on a buffer of size 2: two values are written, a second consumer registers, then
write 7, the new consumer reads, the old one reads, write 8, the new consumer reads. -/
theorem late_registration_witness :
    ([1, 2] : List Nat)[1]? = some 2 ∧ (2 : Nat) = 2 ∧
      read ({ size := 2, bitWiseValue := 1, headIndex := 2, nextReaderIndex := 2,
              buffer := [6, 5], readerIndexes := [1, 2], readerActiveFlags := [1, 1] } :
            RingBuffer Nat) 1 = Outcome.blocked ∧
      ([5, 6, 7, 8] : List Nat) = [5, 6] ++ writesOf ([Op.write 7, Op.read 1, Op.read 0,
        Op.write 8, Op.read 1] : List (Op Nat)) ∧
      (read ({ size := 2, bitWiseValue := 1, headIndex := 4, nextReaderIndex := 2,
               buffer := [8, 7], readerIndexes := [2, 4], readerActiveFlags := [1, 1] } :
             RingBuffer Nat) 1 = Outcome.blocked ↔
        (readsOf 1 ([(1, 7), (0, 6), (1, 8)] : List (Nat × Nat))).length =
          (writesOf ([Op.write 7, Op.read 1, Op.read 0, Op.write 8, Op.read 1] :
            List (Op Nat))).length) ∧
      (readsOf 1 ([(1, 7), (0, 6), (1, 8)] : List (Nat × Nat))).length ≤
        (writesOf ([Op.write 7, Op.read 1, Op.read 0, Op.write 8, Op.read 1] :
          List (Op Nat))).length ∧
      ∀ k, k < (readsOf 1 ([(1, 7), (0, 6), (1, 8)] : List (Nat × Nat))).length →
        (readsOf 1 ([(1, 7), (0, 6), (1, 8)] : List (Nat × Nat)))[k]? =
          ([5, 6, 7, 8] : List Nat)[2 + k]? :=
  late_registration 1 2 2
    [Op.create, Op.write 5, Op.read 0, Op.write 6]
    [Op.write 7, Op.read 1, Op.read 0, Op.write 8, Op.read 1]
    { ring :=
        { size := 2, bitWiseValue := 1, headIndex := 0, nextReaderIndex := 0, buffer := [0, 0],
          readerIndexes := [0, 0], readerActiveFlags := [0, 0] }
      handles := []
      written := [] }
    { ring :=
        { size := 2, bitWiseValue := 1, headIndex := 2, nextReaderIndex := 1, buffer := [6, 5],
          readerIndexes := [1, 0], readerActiveFlags := [1, 0] }
      handles := [0]
      written := [5, 6] }
    { ring :=
        { size := 2, bitWiseValue := 1, headIndex := 4, nextReaderIndex := 2, buffer := [8, 7],
          readerIndexes := [2, 4], readerActiveFlags := [1, 1] }
      handles := [1, 0]
      written := [5, 6, 7, 8] }
    { size := 2, bitWiseValue := 1, headIndex := 2, nextReaderIndex := 2, buffer := [6, 5],
      readerIndexes := [1, 2], readerActiveFlags := [1, 1] }
    { id := 1 }
    [(0, 5)] [(1, 7), (0, 6), (1, 8)]
    (by decide) (by decide) (by decide) (by decide) (by decide) (by decide) (by decide)
    (by decide) (by decide) (by decide)


/-! ## Construction -/

theorem land_even_odd (m k : Nat) : (2 * m) &&& (2 * k + 1) = 2 * (m &&& k) := by
  have h := Nat.land_bit false m true k
  simpa [Nat.bit_val] using h

theorem land_odd_even (m : Nat) : (2 * m + 1) &&& (2 * m) = 2 * m := by
  have h := Nat.land_bit true m false m
  simpa [Nat.bit_val] using h

/-- A positive number that shares no bit with its predecessor is a power of two. -/
theorem pow_of_and_pred (n : Nat) : 0 < n → n &&& (n - 1) = 0 → ∃ k, n = 2 ^ k := by
  induction n using Nat.strong_induction_on with
  | _ n ih =>
    intro hpos h
    rcases Nat.even_or_odd' n with ⟨m, hm | hm⟩
    · have hm1 : 0 < m := by omega
      have hpred : n - 1 = 2 * (m - 1) + 1 := by omega
      rw [hpred, hm, land_even_odd] at h
      have h2 : m &&& (m - 1) = 0 := by omega
      obtain ⟨k, hk⟩ := ih m (by omega) hm1 h2
      exact ⟨k + 1, by rw [hm, hk, pow_succ]; ring⟩
    · by_cases hm0 : m = 0
      · exact ⟨0, by rw [hm, hm0]; rfl⟩
      · have hpred : n - 1 = 2 * m := by omega
        rw [hpred, hm, land_odd_even] at h
        omega

/-- For every size from 1 to `2 ^ 32 - 1`, `NewRingBuffer` returns `InvalidBufferSize`
exactly when the size is not a power of two. -/
theorem NewRingBuffer_error_iff {T : Type} [Inhabited T] (size readers : Nat)
    (h1 : 0 < size) (h2 : size < u32) :
    (NewRingBuffer size readers : Result (RingBuffer T)) =
        Result.error QueueError.InvalidBufferSize ↔ ¬ ∃ k, size = 2 ^ k := by
  have hpred : (size + u32 - 1) % u32 = size - 1 := by
    unfold u32 at *; omega
  unfold NewRingBuffer
  rw [hpred]
  constructor
  · intro h ⟨k, hk⟩
    rw [hk, pow_and_pred] at h
    simp at h
  · intro h
    have hne : size &&& (size - 1) ≠ 0 := fun h0 => h (pow_of_and_pred size h1 h0)
    rw [if_pos hne]

/-- C6 (power-of-two validation), the input on which the code departs from the claim:
0 is not a power of two, yet `NewRingBuffer(0, readers)` returns no error.  It returns a
buffer with an empty backing array and the mask `2 ^ 32 - 1`, on which the first `Write`
indexes out of range. -/
theorem NewRingBuffer_zero_accepted (readers : Nat) :
    (¬ ∃ k, 0 = 2 ^ k) ∧
      (NewRingBuffer 0 readers : Result (RingBuffer Nat)) = Result.ok
        { size := 0
          bitWiseValue := 4294967295
          headIndex := 0
          nextReaderIndex := 0
          buffer := []
          readerIndexes := List.replicate readers 0
          readerActiveFlags := List.replicate readers 0 } ∧
      ∀ v : Nat, Write
        ({ size := 0
           bitWiseValue := 4294967295
           headIndex := 0
           nextReaderIndex := 0
           buffer := []
           readerIndexes := List.replicate readers 0
           readerActiveFlags := List.replicate readers 0 } : RingBuffer Nat) v
        = Outcome.panic := by
  refine ⟨?_, rfl, fun v => rfl⟩
  rintro ⟨k, hk⟩
  exact absurd hk.symm (by positivity)

/-! ## Registration when the table is full -/

theorem createFrom_error_inv {T : Type} (b b1 : RingBuffer T) (e : QueueError) (m : Nat) :
    ∀ k, createFrom b (List.range' k m) = Outcome.done (b1, Result.error e) →
      e = QueueError.NoAvaliableConsumerSlot ∧ b1 = b ∧
        ∀ j, k ≤ j → j < k + m → b.readerActiveFlags[j]? ≠ some 0 := by
  induction m with
  | zero =>
    intro k h
    simp only [List.range'_zero, createFrom, Outcome.done.injEq, Prod.mk.injEq,
      Result.error.injEq] at h
    exact ⟨h.2.symm, h.1.symm, fun j h1 h2 => by omega⟩
  | succ m ih =>
    intro k h
    rw [List.range'_succ] at h
    unfold createFrom at h
    cases hf : b.readerActiveFlags[k]? with
    | none => rw [hf] at h; cases h
    | some f =>
      rw [hf] at h
      simp only [] at h
      by_cases h0 : f = 0
      · rw [if_pos h0] at h
        cases hc : claimSlot b k with
        | done p =>
          obtain ⟨b4, c⟩ := p
          rw [hc] at h
          cases h
        | blocked => rw [hc] at h; cases h
        | panic => rw [hc] at h; cases h
      · rw [if_neg h0] at h
        obtain ⟨h1, h2, h3⟩ := ih (k + 1) h
        refine ⟨h1, h2, ?_⟩
        intro j hj1 hj2
        by_cases hjk : j = k
        · subst hjk
          rw [hf]
          intro hcon
          exact h0 (Option.some.inj hcon)
        · exact h3 j (by omega) (by omega)

/-- C7 (registration capacity error): for every buffer state, `CreateConsumer` returns the
error `NoAvaliableConsumerSlot` exactly when no slot of the table is Free (flag 0); whenever
it returns an error, the error is that one and the buffer is returned with every field
unchanged.  In particular it fails on every table of length 0, and on a fresh buffer of
power-of-two size the first `readers` registrations succeed and the next one fails. -/
theorem create_error_iff_full {T : Type} [Inhabited T] (b : RingBuffer T) :
    ((∃ b1, CreateConsumer b = Outcome.done (b1, Result.error QueueError.NoAvaliableConsumerSlot))
        ↔ ∀ j, j < b.readerActiveFlags.length → b.readerActiveFlags[j]? ≠ some 0) ∧
      (∀ b1 e, CreateConsumer b = Outcome.done (b1, Result.error e) →
        e = QueueError.NoAvaliableConsumerSlot ∧ b1 = b) ∧
      (b.readerActiveFlags = [] →
        CreateConsumer b = Outcome.done (b, Result.error QueueError.NoAvaliableConsumerSlot)) ∧
      (∀ (e readers : Nat) (s0 : Sys T), e < 32 → readers < u32 →
        boot (2 ^ e) readers = some s0 →
        ∃ s1, run s0 (List.replicate readers Op.create) = some (s1, []) ∧
          (∀ j, j ∈ s1.handles ↔ j < readers) ∧
          CreateConsumer s1.ring =
            Outcome.done (s1.ring, Result.error QueueError.NoAvaliableConsumerSlot)) := by
  have hinvert : ∀ b1 e, CreateConsumer b = Outcome.done (b1, Result.error e) →
      e = QueueError.NoAvaliableConsumerSlot ∧ b1 = b ∧
        ∀ j, j < b.readerActiveFlags.length → b.readerActiveFlags[j]? ≠ some 0 := by
    intro b1 e h
    unfold CreateConsumer at h
    rw [List.range_eq_range'] at h
    obtain ⟨h1, h2, h3⟩ := createFrom_error_inv b b1 e _ 0 h
    exact ⟨h1, h2, fun j hj => h3 j (Nat.zero_le _) (by omega)⟩
  refine ⟨⟨?_, ?_⟩, ?_, ?_, ?_⟩
  · rintro ⟨b1, h⟩
    exact (hinvert b1 _ h).2.2
  · intro h
    exact ⟨b, CreateConsumer_full b h⟩
  · intro b1 e h
    exact ⟨(hinvert b1 e h).1, (hinvert b1 e h).2.1⟩
  · intro h
    exact CreateConsumer_full b (fun j hj => by rw [h] at hj; cases hj)
  · intro e readers s0 he hr hboot
    obtain ⟨s1, hrun, hreg, _, _, _⟩ :=
      registered_run readers s0 (registered_boot he hr hboot) (le_refl _)
    refine ⟨s1, hrun, hreg.handles, CreateConsumer_full s1.ring ?_⟩
    intro j hj
    rw [hreg.inv.shape.flg] at hj
    rw [hreg.active j hj]
    simp

/-- C7 on a table whose two slots are Active. -/
theorem create_error_iff_full_witness :
    CreateConsumer
        ({ size := 2, bitWiseValue := 1, headIndex := 0, nextReaderIndex := 2, buffer := [0, 0],
           readerIndexes := [0, 0], readerActiveFlags := [1, 1] } : RingBuffer Nat) =
      Outcome.done
        ({ size := 2, bitWiseValue := 1, headIndex := 0, nextReaderIndex := 2, buffer := [0, 0],
           readerIndexes := [0, 0], readerActiveFlags := [1, 1] },
          Result.error QueueError.NoAvaliableConsumerSlot) := by
  obtain ⟨b1, h⟩ :=
    (create_error_iff_full
      ({ size := 2, bitWiseValue := 1, headIndex := 0, nextReaderIndex := 2, buffer := [0, 0],
         readerIndexes := [0, 0], readerActiveFlags := [1, 1] } : RingBuffer Nat)).1.mpr
      (by decide)
  have h2 :=
    ((create_error_iff_full
      ({ size := 2, bitWiseValue := 1, headIndex := 0, nextReaderIndex := 2, buffer := [0, 0],
         readerIndexes := [0, 0], readerActiveFlags := [1, 1] } : RingBuffer Nat)).2.1 b1 _ h).2
  rw [h, h2]

/-! ## Cursor wrap-around in `read` -/

/-- While neither counter has wrapped (`cursor <= headIndex`, `cursor + 1 < 2 ^ 32`), `read`
blocks exactly when the lag is 0. -/
theorem read_blocked_iff_lag {T : Type} {b : RingBuffer T} {n : Nat} (hs : Shape b n)
    {id c : Nat} (hc : b.readerIndexes[id]? = some c) (hle : c ≤ b.headIndex)
    (hlt : c + 1 < u32) : read b id = Outcome.blocked ↔ b.headIndex - c = 0 := by
  rw [read_blocked_iff hs id]
  constructor
  · rintro ⟨c1, h1, h2⟩
    rw [hc] at h1
    have h3 := Option.some.inj h1
    rw [← h3, Nat.mod_eq_of_lt hlt] at h2
    omega
  · intro h
    exact ⟨c, hc, by rw [Nat.mod_eq_of_lt hlt]; omega⟩

/-- C9 (cursor wrap-around), two inputs on which the code departs from the claim.  With
`headIndex = cursor = 2 ^ 32 - 1` the lag is 0 and nothing is unread, yet `read` does not
block: `cursor + 1` wraps to 0, the comparison `0 > headIndex` is false, and the call returns
the stale cell 0 and sets the cursor to 0.  With `headIndex = 0` (just past the wrap),
`cursor = 2 ^ 32 - 2` and size 2 the lag is 2, within the size, yet `read` blocks. -/
theorem read_at_wrap :
    ((4294967295 + u32 - 4294967295) % u32 = 0 ∧
      read ({ size := 1, bitWiseValue := 0, headIndex := 4294967295, nextReaderIndex := 1,
              buffer := [7], readerIndexes := [4294967295], readerActiveFlags := [1] } :
            RingBuffer Nat) 0 =
        Outcome.done (7,
          { size := 1, bitWiseValue := 0, headIndex := 4294967295, nextReaderIndex := 1,
            buffer := [7], readerIndexes := [0], readerActiveFlags := [1] })) ∧
      ((0 + u32 - 4294967294) % u32 = 2 ∧
        read ({ size := 2, bitWiseValue := 1, headIndex := 0, nextReaderIndex := 1,
                buffer := [8, 7], readerIndexes := [4294967294], readerActiveFlags := [1] } :
              RingBuffer Nat) 0 = Outcome.blocked) := by
  decide

/-! ## Removal and the writer -/

theorem Shape.remove {T : Type} {b : RingBuffer T} {n : Nat} (hs : Shape b n)
    (hnext : 0 < b.nextReaderIndex) (id : Nat) :
    Shape
      { b with
        readerActiveFlags := b.readerActiveFlags.set id 0
        nextReaderIndex :=
          if b.nextReaderIndex = (id + u32 - 1) % u32 then (b.nextReaderIndex + u32 - 1) % u32
          else b.nextReaderIndex } n := by
  have h1 := hs.next
  have h2 := hs.nlt
  refine ⟨hs.pow, hs.mask, hs.buf, hs.idx, by simp [hs.flg], hs.nlt, ?_⟩
  show (if b.nextReaderIndex = (id + u32 - 1) % u32 then (b.nextReaderIndex + u32 - 1) % u32
    else b.nextReaderIndex) ≤ n
  split_ifs
  · unfold u32 at *; omega
  · exact h1

/-- A removed consumer stops back-pressuring the writer where the scan bound is not zero:
in every state of the data
model (power-of-two size, mask `size - 1`, tables of equal length, scan bound within the table
and not zero, as it is in sequential use once a consumer exists), in the state after `Remove(c)` the `Write`
blocks exactly when some slot other than `c`'s, below `nextReaderIndex`, is Active with
cursor + size equal to `headIndex` on `uint32`; the freed slot itself never holds the writer
back, every other slot holds it back as before, and when no other scanned slot does so the
`Write` completes. -/
theorem remove_unblocks_writer {T : Type} (b b1 : RingBuffer T) (n id : Nat) (v : T)
    (hs : Shape b n) (hnext : 0 < b.nextReaderIndex)
    (hrm : removeConsumer b id = Outcome.done b1) :
    (Write b1 v = Outcome.blocked ↔
        ∃ i, i ≠ id ∧ i < b1.nextReaderIndex ∧ holdsBack b1 i) ∧
      ¬ holdsBack b1 id ∧
      (∀ i, i ≠ id → (holdsBack b1 i ↔ holdsBack b i)) ∧
      ((∀ i, i ≠ id → i < b1.nextReaderIndex → ¬ holdsBack b i) →
        ∃ b2, Write b1 v = Outcome.done b2) := by
  obtain ⟨hlt, rfl⟩ := removeConsumer_done_inv hrm
  have hs1 := hs.remove hnext id
  have hfreed : ¬ holdsBack
      { b with
        readerActiveFlags := b.readerActiveFlags.set id 0
        nextReaderIndex :=
          if b.nextReaderIndex = (id + u32 - 1) % u32 then (b.nextReaderIndex + u32 - 1) % u32
          else b.nextReaderIndex } id := by
    rintro ⟨hf, _⟩
    have hf1 : (b.readerActiveFlags.set id 0)[id]? = some 1 := hf
    rw [List.getElem?_set_self hlt] at hf1
    cases hf1
  have hother : ∀ i, i ≠ id →
      (holdsBack
        { b with
          readerActiveFlags := b.readerActiveFlags.set id 0
          nextReaderIndex :=
            if b.nextReaderIndex = (id + u32 - 1) % u32 then
              (b.nextReaderIndex + u32 - 1) % u32
            else b.nextReaderIndex } i ↔ holdsBack b i) := by
    intro i hi
    unfold holdsBack
    show (b.readerActiveFlags.set id 0)[i]? = some 1 ∧ _ ↔ _
    rw [List.getElem?_set_ne (Ne.symm hi)]
  refine ⟨?_, hfreed, hother, ?_⟩
  · rw [Write_blocked_iff hs1 v]
    constructor
    · rintro ⟨i, hi, hh⟩
      refine ⟨i, ?_, hi, hh⟩
      intro hid
      rw [hid] at hh
      exact hfreed hh
    · rintro ⟨i, _, hi, hh⟩
      exact ⟨i, hi, hh⟩
  · intro hfree
    refine ⟨_, Write_done_of_free hs1 v ?_⟩
    intro i hi hh
    by_cases hid : i = id
    · rw [hid] at hh
      exact hfreed hh
    · exact hfree i hid hi ((hother i hid).mp hh)

/-- Removal on a buffer of size 2 on which consumer 0 is two values behind: `Write` is blocked
before `Remove` and completes after it. -/
theorem remove_unblocks_writer_witness :
    Write ({ size := 2, bitWiseValue := 1, headIndex := 2, nextReaderIndex := 2,
             buffer := [8, 7], readerIndexes := [0, 2], readerActiveFlags := [1, 1] } :
           RingBuffer Nat) 9 = Outcome.blocked ∧
      ∃ b2, Write ({ size := 2, bitWiseValue := 1, headIndex := 2, nextReaderIndex := 2,
                     buffer := [8, 7], readerIndexes := [0, 2], readerActiveFlags := [0, 1] } :
                   RingBuffer Nat) 9 = Outcome.done b2 :=
  ⟨by decide,
    (remove_unblocks_writer
      { size := 2, bitWiseValue := 1, headIndex := 2, nextReaderIndex := 2,
        buffer := [8, 7], readerIndexes := [0, 2], readerActiveFlags := [1, 1] }
      { size := 2, bitWiseValue := 1, headIndex := 2, nextReaderIndex := 2,
        buffer := [8, 7], readerIndexes := [0, 2], readerActiveFlags := [0, 1] }
      2 0 9
      ⟨⟨1, by decide, by decide⟩, by decide, by decide, by decide, by decide, by decide,
        by decide⟩
      (by decide) (by decide)).2.2.2
      (by
        intro i hid hi
        have h1 : i = 1 := by
          have h2 : i < 2 := hi
          omega
        subst h1
        rintro ⟨_, c, hc, hh⟩
        have hc1 : c = 2 := by
          have h3 : ([0, 2] : List Nat)[1]? = some c := hc
          simp at h3
          omega
        subst hc1
        revert hh
        decide)⟩

/-! ## Slot reuse -/

/-- On a full table of at most `2 ^ 32 - 2` slots whose scan bound is the table length,
removing any consumer and registering again claims the freed slot, seeds its cursor with
`headIndex`, and leaves every Active slot below the scan bound. -/
theorem slot_reuse_below_limit {T : Type} (b : RingBuffer T) (m id : Nat) (hs : Shape b m)
    (hm : m < u32 - 1) (hall : ∀ j, j < m → b.readerActiveFlags[j]? = some 1)
    (hbound : b.nextReaderIndex = m) (hid : id < m) :
    CreateConsumer b = Outcome.done (b, Result.error QueueError.NoAvaliableConsumerSlot) ∧
      ∃ b1 b2, removeConsumer b id = Outcome.done b1 ∧
        CreateConsumer b1 = Outcome.done (b2, Result.ok { id := id }) ∧
        b2.readerIndexes[id]? = some b2.headIndex ∧ b2.headIndex = b.headIndex ∧
        b2.nextReaderIndex = m ∧
        ∀ j, b2.readerActiveFlags[j]? = some 1 → j < b2.nextReaderIndex := by
  have hfull : CreateConsumer b =
      Outcome.done (b, Result.error QueueError.NoAvaliableConsumerSlot) :=
    CreateConsumer_full b (fun j hj => by rw [hs.flg] at hj; rw [hall j hj]; simp)
  refine ⟨hfull, ?_⟩
  have hrm := removeConsumer_eq b id (by rw [hs.flg]; exact hid)
  have hcas : b.nextReaderIndex ≠ (id + u32 - 1) % u32 :=
    remove_cas_fails (by omega) (le_of_eq hbound) hm
  rw [if_neg hcas] at hrm
  have hclaim := CreateConsumer_claim
    { b with readerActiveFlags := b.readerActiveFlags.set id 0 } id
    (by
      show (b.readerActiveFlags.set id 0)[id]? = some 0
      exact List.getElem?_set_self (by rw [hs.flg]; exact hid))
    (by show id < b.readerIndexes.length; rw [hs.idx]; exact hid)
    (by
      intro j hj
      show (b.readerActiveFlags.set id 0)[j]? ≠ some 0
      rw [List.getElem?_set_ne (by omega), hall j (by omega)]
      simp)
  have hmod : id % u32 = id := Nat.mod_eq_of_lt (by omega)
  have hne : b.nextReaderIndex ≠ id := by omega
  rw [hmod] at hclaim
  simp only [List.set_set] at hclaim
  rw [if_neg hne] at hclaim
  refine ⟨_, _, hrm, hclaim, ?_, rfl, hbound, ?_⟩
  · show (b.readerIndexes.set id b.headIndex)[id]? = some b.headIndex
    exact List.getElem?_set_self (by rw [hs.idx]; exact hid)
  · intro j hj
    show j < b.nextReaderIndex
    have hj1 : (b.readerActiveFlags.set id 1)[j]? = some 1 := hj
    have hlen : j < (b.readerActiveFlags.set id 1).length := (List.getElem?_eq_some.mp hj1).1
    rw [List.length_set, hs.flg] at hlen
    omega

/-- On a full table of exactly `2 ^ 32 - 1` slots, `Remove` of consumer 0 finds
`nextReaderIndex` equal to `0 - 1` on `uint32`, so its compare-and-swap succeeds and lowers the
scan bound to `n - 1`; the next `CreateConsumer` claims slot 0 and leaves the bound there,
with slot `n - 1` still Active. -/
theorem slot_reuse_at_limit {T : Type} (b : RingBuffer T) (n : Nat)
    (hflg : b.readerActiveFlags.length = n) (hidx : b.readerIndexes.length = n)
    (hn : n + 1 = u32) (hnext : b.nextReaderIndex = n)
    (hall : ∀ j, j < n → b.readerActiveFlags[j]? = some 1) :
    ∃ b1 b2, removeConsumer b 0 = Outcome.done b1 ∧
      CreateConsumer b1 = Outcome.done (b2, Result.ok { id := 0 }) ∧
      b2.readerActiveFlags[n - 1]? = some 1 ∧ b2.nextReaderIndex = n - 1 := by
  have hpos : 0 < n := by unfold u32 at hn; omega
  have hrm := removeConsumer_eq b 0 (by rw [hflg]; exact hpos)
  have hcas : b.nextReaderIndex = (0 + u32 - 1) % u32 := by
    rw [hnext]; unfold u32 at *; omega
  have hnew : (b.nextReaderIndex + u32 - 1) % u32 = n - 1 := by
    rw [hnext]; unfold u32 at *; omega
  rw [if_pos hcas, hnew] at hrm
  have hclaim := CreateConsumer_claim
    { b with readerActiveFlags := b.readerActiveFlags.set 0 0, nextReaderIndex := n - 1 } 0
    (by
      show (b.readerActiveFlags.set 0 0)[0]? = some 0
      exact List.getElem?_set_self (by rw [hflg]; exact hpos))
    (by show 0 < b.readerIndexes.length; rw [hidx]; exact hpos)
    (by intro j hj; omega)
  have hne : n - 1 ≠ 0 % u32 := by unfold u32 at *; omega
  simp only [List.set_set] at hclaim
  rw [if_neg hne] at hclaim
  refine ⟨_, _, hrm, hclaim, ?_, rfl⟩
  show (b.readerActiveFlags.set 0 1)[n - 1]? = some 1
  rw [List.getElem?_set_ne (by unfold u32 at hn; omega)]
  exact hall (n - 1) (by omega)

/-- C8 (slot reuse), the input on which the code departs from the claim: a table of
`2 ^ 32 - 1` slots, all Active, with the scan bound `2 ^ 32 - 1`.  `Remove` of consumer 0
followed by `CreateConsumer` returns slot 0 again, but the scan bound is then `2 ^ 32 - 2`
while slot `2 ^ 32 - 2` is Active: an Active slot is not below `nextReaderIndex`. -/
theorem slot_reuse_corrupts_bound :
    ∃ b1 b2 : RingBuffer Nat,
      removeConsumer
          ({ size := 1, bitWiseValue := 0, headIndex := 0, nextReaderIndex := 4294967295,
             buffer := [0], readerIndexes := List.replicate 4294967295 0,
             readerActiveFlags := List.replicate 4294967295 1 } : RingBuffer Nat) 0 =
        Outcome.done b1 ∧
      CreateConsumer b1 = Outcome.done (b2, Result.ok { id := 0 }) ∧
      b2.readerActiveFlags[4294967294]? = some 1 ∧
      ¬ 4294967294 < b2.nextReaderIndex := by
  obtain ⟨b1, b2, h1, h2, h3, h4⟩ :=
    slot_reuse_at_limit
      ({ size := 1, bitWiseValue := 0, headIndex := 0, nextReaderIndex := 4294967295,
         buffer := [0], readerIndexes := List.replicate 4294967295 0,
         readerActiveFlags := List.replicate 4294967295 1 } : RingBuffer Nat) 4294967295
      (List.length_replicate _ _) (List.length_replicate _ _) rfl rfl
      (fun j hj => by
        show (List.replicate 4294967295 1)[j]? = some 1
        rw [List.getElem?_replicate, if_pos hj])
  refine ⟨b1, b2, h1, h2, h3, ?_⟩
  rw [h4]
  omega

/-! ## Reachable states; the table of `2 ^ 32 - 1` slots -/

theorem Reach.refl {T : Type} (s : Sys T) : Reach s s := ⟨[], [], rfl⟩

theorem Reach.trans {T : Type} {s0 s1 s2 : Sys T} (h1 : Reach s0 s1) (h2 : Reach s1 s2) :
    Reach s0 s2 := by
  obtain ⟨ops1, l1, hr1⟩ := h1
  obtain ⟨ops2, l2, hr2⟩ := h2
  exact ⟨ops1 ++ ops2, l1 ++ l2, run_append ops1 ops2 s0 s1 s2 l1 l2 hr1 hr2⟩

theorem Reach.step {T : Type} {s0 s s1 : Sys T} {op : Op T} {ev : List (Nat × T)}
    (h : Reach s0 s) (hst : step s op = some (s1, ev)) : Reach s0 s1 := by
  refine h.trans ⟨[op], ev, ?_⟩
  simp only [run, hst, List.append_nil]

/-- Every reachable state of a fresh buffer of power-of-two size satisfies the invariant, as
long as fewer than `2 ^ 32 - 1` values were written and either the table has at most
`2 ^ 32 - 2` slots or no consumer was removed. -/
theorem reach_inv {T : Type} [Inhabited T] {e readers : Nat} {s0 s : Sys T}
    {ops : List (Op T)} {log : List (Nat × T)} (he : e < 32) (hr : readers < u32)
    (hboot : boot (2 ^ e) readers = some s0) (hrun : run s0 ops = some (s, log))
    (hreg : readers < u32 - 1 ∨ ∀ op ∈ ops, op.isRemove = false)
    (hw : s.written.length < u32 - 1) : Inv s readers :=
  run_inv ops s0 s log (inv_boot he hr hboot) hrun hreg hw

theorem drained_first {T : Type} {s : Sys T} {n : Nat} (h : Registered s n n)
    (hn : n + 1 = u32) :
    ∃ s1, step s (Op.remove 0) = some (s1, []) ∧ Drained s1 n 1 ∧
      s1.ring.size = s.ring.size := by
  have hs := h.inv.shape
  have hpos : 0 < n := by unfold u32 at hn; omega
  have hrm := removeConsumer_eq s.ring 0 (by rw [hs.flg]; exact hpos)
  have hcas : s.ring.nextReaderIndex = (0 + u32 - 1) % u32 := by
    rw [h.next]; unfold u32 at *; omega
  have hnew : (s.ring.nextReaderIndex + u32 - 1) % u32 = n - 1 := by
    rw [h.next]; unfold u32 at *; omega
  rw [if_pos hcas, hnew] at hrm
  have hmem : 0 ∈ s.handles := (h.handles 0).mpr hpos
  refine
    ⟨{ s with
        ring :=
          { s.ring with
            readerActiveFlags := s.ring.readerActiveFlags.set 0 0
            nextReaderIndex := n - 1 } },
      by simp only [step, if_pos hmem, hrm], ?_, rfl⟩
  refine
    { shape := ⟨hs.pow, hs.mask, hs.buf, hs.idx, by simp [hs.flg], hs.nlt, Nat.sub_le _ _⟩
      nothing := h.nothing
      head := by
        show s.ring.headIndex = 0
        rw [h.inv.head, h.nothing]; rfl
      freed := ?_
      active := ?_
      handles := h.handles
      cursors := h.cursors
      next := rfl }
  · intro j hj
    have hj0 : j = 0 := by omega
    subst hj0
    show (s.ring.readerActiveFlags.set 0 0)[0]? = some 0
    exact List.getElem?_set_self (by rw [hs.flg]; exact hpos)
  · intro j hj1 hj2
    show (s.ring.readerActiveFlags.set 0 0)[j]? = some 1
    rw [List.getElem?_set_ne (by omega)]
    exact h.active j hj2

theorem drained_step {T : Type} {s : Sys T} {n k : Nat} (h : Drained s n k)
    (hk1 : 1 ≤ k) (hk : k < n) :
    ∃ s1, step s (Op.remove k) = some (s1, []) ∧ Drained s1 n (k + 1) ∧
      s1.ring.size = s.ring.size := by
  have hs := h.shape
  have hnlt := hs.nlt
  have hrm := removeConsumer_eq s.ring k (by rw [hs.flg]; exact hk)
  have hcas : s.ring.nextReaderIndex ≠ (k + u32 - 1) % u32 := by
    rw [h.next]; unfold u32 at *; omega
  rw [if_neg hcas] at hrm
  have hmem : k ∈ s.handles := (h.handles k).mpr hk
  refine
    ⟨{ s with ring := { s.ring with readerActiveFlags := s.ring.readerActiveFlags.set k 0 } },
      by simp only [step, if_pos hmem, hrm], ?_, rfl⟩
  refine
    { shape := ⟨hs.pow, hs.mask, hs.buf, hs.idx, by simp [hs.flg], hs.nlt, hs.next⟩
      nothing := h.nothing
      head := h.head
      freed := ?_
      active := ?_
      handles := h.handles
      cursors := h.cursors
      next := h.next }
  · intro j hj
    show (s.ring.readerActiveFlags.set k 0)[j]? = some 0
    by_cases hjk : k = j
    · subst hjk
      exact List.getElem?_set_self (by rw [hs.flg]; exact hk)
    · rw [List.getElem?_set_ne hjk]
      exact h.freed j (by omega)
  · intro j hj1 hj2
    show (s.ring.readerActiveFlags.set k 0)[j]? = some 1
    rw [List.getElem?_set_ne (by omega)]
    exact h.active j (by omega) hj2

theorem drained_reach {T : Type} {s : Sys T} {n : Nat} (h : Drained s n 1) (k : Nat) :
    1 ≤ k → k ≤ n → ∃ s1, Reach s s1 ∧ Drained s1 n k ∧ s1.ring.size = s.ring.size := by
  induction k with
  | zero => intro h1; omega
  | succ k ih =>
    intro _ hk
    by_cases hk0 : k = 0
    · subst hk0
      exact ⟨s, Reach.refl s, h, rfl⟩
    · obtain ⟨s1, hr1, hd1, hsz1⟩ := ih (by omega) (by omega)
      obtain ⟨s2, hst, hd2, hsz2⟩ := drained_step hd1 (by omega) (by omega)
      exact ⟨s2, hr1.step hst, hd2, by rw [hsz2, hsz1]⟩

/-- On a fresh buffer with `2 ^ 32 - 1` slots, registering every slot and then removing the
consumers `0, 1, ..., 2 ^ 32 - 3` reaches a state in which slot `2 ^ 32 - 2` is the only
Active one and the scan bound is `2 ^ 32 - 2`: the scan of `Write` does not visit it. -/
theorem limit_drained {T : Type} [Inhabited T] {e n : Nat} (he : e < 32) (hn : n + 1 = u32)
    {s0 : Sys T} (hboot : boot (2 ^ e) n = some s0) :
    ∃ s, Reach s0 s ∧ Drained s n (n - 1) ∧ s.ring.size = 2 ^ e := by
  have hnlt : n < u32 := by omega
  have h2 : 2 ≤ n := by unfold u32 at hn; omega
  have hreg0 := registered_boot he hnlt hboot
  have hsz0 : s0.ring.size = 2 ^ e := by
    rw [boot_pow he] at hboot
    cases hboot
    rfl
  obtain ⟨s1, hrun1, hreg1, hsz1, _, _⟩ := registered_run n s0 hreg0 (le_refl _)
  obtain ⟨s2, hst2, hd2, hsz2⟩ := drained_first hreg1 hn
  obtain ⟨s3, hr3, hd3, hsz3⟩ := drained_reach hd2 (n - 1) (by omega) (by omega)
  have hr1 : Reach s0 s1 := ⟨_, _, hrun1⟩
  exact ⟨s3, (hr1.step hst2).trans hr3, hd3, by rw [hsz3, hsz2, hsz1, hsz0]⟩

/-- A `Write` completes whenever every slot below the scan bound is Free. -/
theorem step_write_free {T : Type} {s : Sys T} {n : Nat} (hs : Shape s.ring n)
    (hfree : ∀ j, j < s.ring.nextReaderIndex → s.ring.readerActiveFlags[j]? = some 0) (v : T) :
    step s (Op.write v) = some
      ({ s with
          ring :=
            { s.ring with
              buffer := s.ring.buffer.set ((s.ring.headIndex + 1) % u32 % s.ring.size) v
              headIndex := (s.ring.headIndex + 1) % u32 }
          written := s.written ++ [v] }, []) := by
  have hw := Write_done_of_free hs v (fun i hi hh => by
    have h1 := hh.1
    rw [hfree i hi] at h1
    cases h1)
  simp only [step, hw]

/-! ## Back-pressure and the capacity invariant -/

/-- On a table of at most `2 ^ 32 - 2` slots (or in a history without `Remove`), every state
reachable from a fresh buffer of power-of-two size with fewer than `2 ^ 32 - 1` writes keeps
every Active consumer between `headIndex - size` and `headIndex`, and every position such a
consumer has not read still holds the value written for it. -/
theorem capacity_invariant_below_limit {T : Type} [Inhabited T] (e readers : Nat)
    (s0 s : Sys T) (ops : List (Op T)) (log : List (Nat × T)) (he : e < 32)
    (hr : readers < u32) (hboot : boot (2 ^ e) readers = some s0)
    (hrun : run s0 ops = some (s, log))
    (hreg : readers < u32 - 1 ∨ ∀ op ∈ ops, op.isRemove = false)
    (hw : s.written.length < u32 - 1) :
    ∀ (i c : Nat), s.ring.readerActiveFlags[i]? = some 1 →
      s.ring.readerIndexes[i]? = some c →
      c ≤ s.ring.headIndex ∧ s.ring.headIndex - c ≤ s.ring.size ∧
        ∀ (p : Nat), c < p → p ≤ s.ring.headIndex →
          ∃ v, s.written[p - 1]? = some v ∧
            s.ring.buffer[p &&& s.ring.bitWiseValue]? = some v := by
  have hinv := reach_inv he hr hboot hrun hreg hw
  intro i c hf hc
  have h1 := hinv.cursor_le i c hc
  have h2 := hinv.lag i c hf hc
  refine ⟨h1, by omega, ?_⟩
  intro p hp1 hp2
  have h3 := hinv.cells p (by omega) hp2 (by omega)
  have h4 : p - 1 < s.written.length := by rw [← hinv.head]; omega
  refine ⟨s.written[p - 1], List.getElem?_eq_getElem h4, ?_⟩
  rw [hinv.shape.mask_index, h3, List.getElem?_eq_getElem h4]

/-- In a state of the invariant with exactly one Active consumer, `Write` blocks exactly
when `headIndex` minus the cursor of that consumer equals the size. -/
theorem write_blocked_iff_lag {T : Type} {s : Sys T} {n i c : Nat} (hinv : Inv s n)
    (hf : s.ring.readerActiveFlags[i]? = some 1)
    (hone : ∀ j, s.ring.readerActiveFlags[j]? = some 1 → j = i)
    (hc : s.ring.readerIndexes[i]? = some c) (v : T) :
    Write s.ring v = Outcome.blocked ↔ s.ring.headIndex - c = s.ring.size := by
  have hs := hinv.shape
  have h1 := hinv.cursor_le i c hc
  have h2 := hinv.wlt
  have h3 := hinv.head
  have h4 := hs.size_lt
  have h5 := hs.size_pos
  rw [Write_blocked_iff hs v]
  constructor
  · rintro ⟨j, _, hfj, cj, hcj, hh⟩
    have hji := hone j hfj
    subst hji
    rw [hc] at hcj
    have hcc := Option.some.inj hcj
    subst hcc
    by_cases h6 : c + s.ring.size < u32
    · rw [Nat.mod_eq_of_lt h6] at hh; omega
    · exfalso
      have h7 : (c + s.ring.size) % u32 = c + s.ring.size - u32 := by
        unfold u32 at *; omega
      rw [h7] at hh
      unfold u32 at *; omega
  · intro h
    refine ⟨i, hinv.active_lt i hf, hf, c, hc, ?_⟩
    rw [Nat.mod_eq_of_lt (by unfold u32 at *; omega)]
    omega

/-- While the single Active consumer does not read, the writer can complete exactly as many
writes as the consumer is short of a full buffer. -/
theorem writes_until_full {T : Type} {n i c : Nat} (vs : List T) :
    ∀ (s : Sys T), Inv s n → s.ring.readerActiveFlags[i]? = some 1 →
      (∀ j, s.ring.readerActiveFlags[j]? = some 1 → j = i) →
      s.ring.readerIndexes[i]? = some c →
      s.ring.headIndex + vs.length ≤ c + s.ring.size →
      s.written.length + vs.length < u32 - 1 →
      ∃ s1, run s (vs.map Op.write) = some (s1, []) ∧ Inv s1 n ∧
        s1.ring.readerActiveFlags = s.ring.readerActiveFlags ∧
        s1.ring.readerIndexes = s.ring.readerIndexes ∧
        s1.ring.size = s.ring.size ∧
        s1.ring.headIndex = s.ring.headIndex + vs.length := by
  induction vs with
  | nil =>
    intro s hinv _ _ _ _ _
    exact ⟨s, rfl, hinv, rfl, rfl, rfl, rfl⟩
  | cons v vs ih =>
    intro s hinv hf hone hc hroom hw
    simp only [List.length_cons] at hroom hw
    have hcle := hinv.cursor_le i c hc
    have hpos := hinv.shape.size_pos
    have hnb : Write s.ring v ≠ Outcome.blocked := by
      rw [Ne, write_blocked_iff_lag hinv hf hone hc v]
      omega
    have hfree : ∀ j, j < s.ring.nextReaderIndex → ¬ holdsBack s.ring j := by
      intro j hj hh
      exact hnb ((Write_blocked_iff hinv.shape v).mpr ⟨j, hj, hh⟩)
    have hwr := Write_done_of_free hinv.shape v hfree
    have hinv1 := inv_write hinv hwr (by omega)
    have hhead : (s.ring.headIndex + 1) % u32 = s.ring.headIndex + 1 := by
      have := hinv.head
      exact Nat.mod_eq_of_lt (by omega)
    obtain ⟨s2, hrun2, hinv2, h1, h2, h3, h4⟩ :=
      ih _ hinv1 hf hone hc
        (by
          show (s.ring.headIndex + 1) % u32 + vs.length ≤ c + s.ring.size
          rw [hhead]; omega)
        (by
          show (s.written ++ [v]).length + vs.length < u32 - 1
          rw [List.length_append, List.length_singleton]; omega)
    refine ⟨s2, ?_, hinv2, h1, h2, h3, ?_⟩
    · simp only [List.map_cons, run, step, hwr, hrun2, List.append_nil]
    · rw [h4]
      show (s.ring.headIndex + 1) % u32 + vs.length = s.ring.headIndex + (vs.length + 1)
      rw [hhead]; omega

/-- On a table of at most `2 ^ 32 - 2` slots (or in a history without `Remove`), in every
state reachable from a fresh buffer of power-of-two size with exactly one Active consumer:
`Write` blocks exactly when `headIndex` minus its cursor equals the size; when the consumer
has read everything, `size` further writes complete and the next one blocks; and whenever
`Write` is blocked, one `Read` by that consumer completes and leaves `Write` unblocked. -/
theorem backpressure_below_limit {T : Type} [Inhabited T] (e readers i c : Nat)
    (s0 s : Sys T) (ops : List (Op T)) (log : List (Nat × T)) (he : e < 32)
    (hr : readers < u32) (hboot : boot (2 ^ e) readers = some s0)
    (hrun : run s0 ops = some (s, log))
    (hreg : readers < u32 - 1 ∨ ∀ op ∈ ops, op.isRemove = false)
    (hw : s.written.length < u32 - 1)
    (hf : s.ring.readerActiveFlags[i]? = some 1)
    (hone : ∀ j, s.ring.readerActiveFlags[j]? = some 1 → j = i)
    (hc : s.ring.readerIndexes[i]? = some c) :
    (∀ v, Write s.ring v = Outcome.blocked ↔ s.ring.headIndex - c = s.ring.size) ∧
      (∀ vs : List T, c = s.ring.headIndex → vs.length = s.ring.size →
        s.written.length + vs.length < u32 - 1 →
        ∃ s1, run s (vs.map Op.write) = some (s1, []) ∧
          ∀ v, Write s1.ring v = Outcome.blocked) ∧
      (∀ v, Write s.ring v = Outcome.blocked →
        ∃ x b1, read s.ring i = Outcome.done (x, b1) ∧ ∃ b2, Write b1 v = Outcome.done b2) := by
  have hinv := reach_inv he hr hboot hrun hreg hw
  have hs := hinv.shape
  refine ⟨fun v => write_blocked_iff_lag hinv hf hone hc v, ?_, ?_⟩
  · intro vs hc0 hlen hw2
    obtain ⟨s1, hrun1, hinv1, h1, h2, h3, h4⟩ :=
      writes_until_full vs s hinv hf hone hc (by omega) hw2
    refine ⟨s1, hrun1, fun v => ?_⟩
    rw [write_blocked_iff_lag hinv1 (by rw [h1]; exact hf) (by rw [h1]; exact hone)
      (by rw [h2]; exact hc) v, h4, h3]
    omega
  · intro v hb
    have hlag := (write_blocked_iff_lag hinv hf hone hc v).mp hb
    have hpos := hs.size_pos
    have h1 := hinv.cursor_le i c hc
    have h2 := hinv.head
    have hmod : (c + 1) % u32 = c + 1 := Nat.mod_eq_of_lt (by omega)
    obtain ⟨x, _, hrd⟩ := read_done_of_le hs hc (by rw [hmod]; omega)
    refine ⟨x, _, hrd, ?_⟩
    have hinv1 := inv_read hinv hrd
    have hlen : i < s.ring.readerIndexes.length := (List.getElem?_eq_some.mp hc).1
    have hnb : Write { s.ring with readerIndexes := s.ring.readerIndexes.set i ((c + 1) % u32) } v
        ≠ Outcome.blocked := by
      rw [Ne, write_blocked_iff_lag (i := i) (c := c + 1) hinv1 hf hone
        (by
          show (s.ring.readerIndexes.set i ((c + 1) % u32))[i]? = some (c + 1)
          rw [List.getElem?_set_self hlen, hmod]) v]
      show ¬ s.ring.headIndex - (c + 1) = s.ring.size
      omega
    have hfree : ∀ j, j < s.ring.nextReaderIndex →
        ¬ holdsBack { s.ring with readerIndexes := s.ring.readerIndexes.set i ((c + 1) % u32) } j := by
      intro j hj hh
      exact hnb ((Write_blocked_iff hinv1.shape v).mpr ⟨j, hj, hh⟩)
    exact ⟨_, Write_done_of_free hinv1.shape v hfree⟩

/-- After the registrations and removals of `limit_drained` on a table of `2 ^ 32 - 1` slots
and size 1, one `Write` completes; slot `2 ^ 32 - 2` is then the only Active one, one value
behind, and is still not scanned. -/
theorem limit_one_write {T : Type} [Inhabited T] {n : Nat} (hn : n + 1 = u32) {s0 : Sys T}
    (hboot : boot (2 ^ 0) n = some s0) (v : T) :
    ∃ s, Reach s0 s ∧ Shape s.ring n ∧ s.written = [v] ∧ s.ring.size = 1 ∧
      s.ring.headIndex = 1 ∧ s.ring.nextReaderIndex = n - 1 ∧
      (∀ j, j < n - 1 → s.ring.readerActiveFlags[j]? = some 0) ∧
      s.ring.readerActiveFlags[n - 1]? = some 1 ∧
      s.ring.readerIndexes[n - 1]? = some 0 := by
  have h2 : 2 ≤ n := by unfold u32 at hn; omega
  obtain ⟨s, hr, hd, hsz⟩ := limit_drained (by decide) hn hboot
  have hs := hd.shape
  have hst := step_write_free hs (fun j hj => hd.freed j (by rw [hd.next] at hj; exact hj)) v
  refine ⟨_, hr.step hst, ?_, ?_, ?_, ?_, hd.next, hd.freed,
    hd.active (n - 1) (le_refl _) (by omega), hd.cursors (n - 1) (by omega)⟩
  · exact ⟨hs.pow, hs.mask, by simp [hs.buf], hs.idx, hs.flg, hs.nlt, hs.next⟩
  · show s.written ++ [v] = [v]
    rw [hd.nothing]; rfl
  · show s.ring.size = 1
    rw [hsz]; rfl
  · show (s.ring.headIndex + 1) % u32 = 1
    rw [hd.head]; rfl

/-- C4 (back-pressure), the input on which the code departs from the claim: size 1 and
`2 ^ 32 - 1` slots.  Register every slot, remove the consumers `0 .. 2 ^ 32 - 3` (the removal
of consumer 0 lowers the scan bound to `2 ^ 32 - 2`), write once.  The state has exactly one
Active consumer, `headIndex` minus its cursor equals the size, and `Write` completes instead
of blocking. -/
theorem no_backpressure_at_limit :
    ∃ s0 s : Sys Nat, boot 1 4294967295 = some s0 ∧ Reach s0 s ∧ s.written.length = 1 ∧
      (∀ j, s.ring.readerActiveFlags[j]? = some 1 ↔ j = 4294967294) ∧
      s.ring.readerIndexes[4294967294]? = some 0 ∧
      s.ring.headIndex - 0 = s.ring.size ∧
      ∃ b, Write s.ring 9 = Outcome.done b := by
  have hboot := boot_pow (T := Nat) (e := 0) (by decide) 4294967295
  obtain ⟨s, hr, hs, hwr, hsz, hhead, hnext, hfreed, hact, hcur⟩ :=
    limit_one_write (n := 4294967295) rfl hboot 7
  refine ⟨_, s, hboot, hr, by rw [hwr]; rfl, ?_, hcur, by rw [hhead, hsz], ?_⟩
  · intro j
    constructor
    · intro hj
      have hlen : j < s.ring.readerActiveFlags.length := (List.getElem?_eq_some.mp hj).1
      rw [hs.flg] at hlen
      by_contra hne
      have h0 := hfreed j (by omega)
      rw [h0] at hj
      cases hj
    · intro hj
      rw [hj]; exact hact
  · refine ⟨_, Write_done_of_free hs 9 ?_⟩
    intro j hj hh
    have h1 := hh.1
    rw [hfreed j (by rw [hnext] at hj; exact hj)] at h1
    cases h1

/-- C5 (capacity invariant), the input on which the code departs from the claim: size 1 and
`2 ^ 32 - 1` slots.  Register every slot, remove the consumers `0 .. 2 ^ 32 - 3`, write
twice.  Slot `2 ^ 32 - 2` is Active with cursor 0 while `headIndex` is 2: the consumer is
more than `size` behind, and the value written first, which it has not read, is
overwritten. -/
theorem capacity_overrun_at_limit :
    ∃ s0 s : Sys Nat, boot 1 4294967295 = some s0 ∧ Reach s0 s ∧ s.written = [7, 8] ∧
      s.ring.readerActiveFlags[4294967294]? = some 1 ∧
      s.ring.readerIndexes[4294967294]? = some 0 ∧
      s.ring.size = 1 ∧ s.ring.headIndex = 2 ∧
      ¬ s.ring.headIndex - 0 ≤ s.ring.size ∧
      s.ring.buffer[1 &&& s.ring.bitWiseValue]? = some 8 := by
  have hboot := boot_pow (T := Nat) (e := 0) (by decide) 4294967295
  obtain ⟨s, hr, hs, hwr, hsz, hhead, hnext, hfreed, hact, hcur⟩ :=
    limit_one_write (n := 4294967295) rfl hboot 7
  have hst := step_write_free hs (fun j hj => hfreed j (by rw [hnext] at hj; exact hj)) 8
  have hlen : 0 < s.ring.buffer.length := by rw [hs.buf, hsz]; decide
  refine ⟨_, _, hboot, hr.step hst, ?_, hact, hcur, hsz, ?_, ?_, ?_⟩
  · show s.written ++ [8] = [7, 8]
    rw [hwr]; rfl
  · show (s.ring.headIndex + 1) % u32 = 2
    rw [hhead]; rfl
  · show ¬ (s.ring.headIndex + 1) % u32 - 0 ≤ s.ring.size
    rw [hhead, hsz]; decide
  · show (s.ring.buffer.set ((s.ring.headIndex + 1) % u32 % s.ring.size) 8)[
      1 &&& s.ring.bitWiseValue]? = some 8
    rw [hs.mask_index, hsz, hhead]
    exact List.getElem?_set_self hlen

/-! ## Postconditions of the four operations -/

/-- Whenever `Write` returns, only `headIndex` and one cell of the backing array changed. -/
theorem Write_done_eq {T : Type} {b b1 : RingBuffer T} {v : T}
    (h : Write b v = Outcome.done b1) :
    writeScan b (List.range b.nextReaderIndex) = Outcome.done () ∧
      (b.headIndex + 1) % u32 &&& b.bitWiseValue < b.buffer.length ∧
      b1 = { b with
        buffer := b.buffer.set ((b.headIndex + 1) % u32 &&& b.bitWiseValue) v
        headIndex := (b.headIndex + 1) % u32 } := by
  unfold Write at h
  cases hw : writeScan b (List.range b.nextReaderIndex) with
  | done r =>
    rw [hw] at h
    simp only [] at h
    by_cases hlt : (b.headIndex + 1) % u32 &&& b.bitWiseValue < b.buffer.length
    · rw [if_pos hlt] at h
      exact ⟨rfl, hlt, (Outcome.done.inj h).symm⟩
    · rw [if_neg hlt] at h; cases h
  | blocked => rw [hw] at h; cases h
  | panic => rw [hw] at h; cases h

/-- On a well-shaped buffer `Write` never indexes out of range. -/
theorem Write_ne_panic {T : Type} {b : RingBuffer T} {n : Nat} (hs : Shape b n) (v : T) :
    Write b v ≠ Outcome.panic := by
  intro h
  by_cases hb : ∃ i, i < b.nextReaderIndex ∧ holdsBack b i
  · rw [(Write_blocked_iff hs v).mpr hb] at h; cases h
  · have := Write_done_of_free hs v (fun i hi hh => hb ⟨i, hi, hh⟩)
    rw [this] at h; cases h

theorem Write_done_of_not_blocked {T : Type} {b : RingBuffer T} {n : Nat} (hs : Shape b n)
    (v : T) (h : Write b v ≠ Outcome.blocked) : ∃ b1, Write b v = Outcome.done b1 := by
  cases hw : Write b v with
  | done b1 => exact ⟨b1, rfl⟩
  | blocked => exact absurd hw h
  | panic => exact absurd hw (Write_ne_panic hs v)

/-- Adding a consumer does not block writes, nor does removing one where the scan bound is
not zero: in every state of the data
model (power-of-two size, mask `size - 1`, tables of equal length, scan bound within the
table) in which `Write` would not block, `Write` completes in the state after a successful
`CreateConsumer`; the new slot is seeded at `headIndex`, so its cursor plus `size` differs
from `headIndex`.  It also completes in the state after `Remove` of any consumer, the scan
bound being not zero as it is in sequential use once a consumer exists. -/
theorem registration_keeps_writer_free {T : Type} (b : RingBuffer T) (n : Nat) (v : T)
    (hs : Shape b n) (hfree : Write b v ≠ Outcome.blocked) :
    (∀ b1 c, CreateConsumer b = Outcome.done (b1, Result.ok c) →
        ¬ holdsBack b1 c.id ∧ ∃ b2, Write b1 v = Outcome.done b2) ∧
      (∀ id b1, 0 < b.nextReaderIndex → removeConsumer b id = Outcome.done b1 →
        ∃ b2, Write b1 v = Outcome.done b2) := by
  have hnb : ∀ i, i < b.nextReaderIndex → ¬ holdsBack b i := by
    intro i hi hh
    exact hfree ((Write_blocked_iff hs v).mpr ⟨i, hi, hh⟩)
  have hnlt := hs.nlt
  have hnext := hs.next
  have hpos := hs.size_pos
  have hsz := hs.size_lt
  constructor
  · intro b1 c hcc
    rcases CreateConsumer_cases b (by rw [hs.idx, hs.flg]) with ⟨_, heq⟩ | ⟨i, hi, h0, _, heq⟩
    · rw [heq] at hcc; cases hcc
    · rw [hs.flg] at hi
      have hmod : i % u32 = i := Nat.mod_eq_of_lt (by omega)
      have hmod1 : (i + 1) % u32 = i + 1 := Nat.mod_eq_of_lt (by omega)
      rw [heq] at hcc
      simp only [Outcome.done.injEq, Prod.mk.injEq, Result.ok.injEq, hmod, hmod1] at hcc
      obtain ⟨hb, hc⟩ := hcc
      subst hb
      subst hc
      have hs1 : Shape
          { b with
            readerActiveFlags := b.readerActiveFlags.set i 1
            readerIndexes := b.readerIndexes.set i b.headIndex
            nextReaderIndex := if b.nextReaderIndex = i then i + 1 else b.nextReaderIndex } n := by
        refine ⟨hs.pow, hs.mask, hs.buf, by simp [hs.idx], by simp [hs.flg], hs.nlt, ?_⟩
        show (if b.nextReaderIndex = i then i + 1 else b.nextReaderIndex) ≤ n
        split_ifs <;> omega
      have hnew : ¬ holdsBack
          { b with
            readerActiveFlags := b.readerActiveFlags.set i 1
            readerIndexes := b.readerIndexes.set i b.headIndex
            nextReaderIndex := if b.nextReaderIndex = i then i + 1 else b.nextReaderIndex }
          i := by
        rintro ⟨_, c, hc, hh⟩
        have hc1 : (b.readerIndexes.set i b.headIndex)[i]? = some c := hc
        rw [List.getElem?_set_self (by rw [hs.idx]; exact hi)] at hc1
        have hcc := Option.some.inj hc1
        subst hcc
        have hh1 : (b.headIndex + b.size) % u32 = b.headIndex := hh
        unfold u32 at *
        omega
      refine ⟨hnew, ?_⟩
      refine ⟨_, Write_done_of_free hs1 v ?_⟩
      intro j hj hh
      by_cases hji : j = i
      · rw [hji] at hh; exact hnew hh
      · have hj1 : j < (if b.nextReaderIndex = i then i + 1 else b.nextReaderIndex) := hj
        have hj2 : j < b.nextReaderIndex := by
          split_ifs at hj1 <;> omega
        apply hnb j hj2
        obtain ⟨hf, c, hc, hh1⟩ := hh
        have hf1 : (b.readerActiveFlags.set i 1)[j]? = some 1 := hf
        have hc1 : (b.readerIndexes.set i b.headIndex)[j]? = some c := hc
        rw [List.getElem?_set_ne (Ne.symm hji)] at hf1 hc1
        exact ⟨hf1, c, hc1, hh1⟩
  · intro id b1 hpos1 hrm
    obtain ⟨hlt, rfl⟩ := removeConsumer_done_inv hrm
    have hs1 := hs.remove hpos1 id
    refine ⟨_, Write_done_of_free hs1 v ?_⟩
    intro j hj hh
    have hj1 : j < (if b.nextReaderIndex = (id + u32 - 1) % u32 then
        (b.nextReaderIndex + u32 - 1) % u32 else b.nextReaderIndex) := hj
    have hj2 : j < b.nextReaderIndex := by
      split_ifs at hj1
      · unfold u32 at *; omega
      · exact hj1
    apply hnb j hj2
    obtain ⟨hf, c, hc, hh1⟩ := hh
    have hf1 : (b.readerActiveFlags.set id 0)[j]? = some 1 := hf
    by_cases hji : id = j
    · subst hji
      rw [List.getElem?_set_self hlt] at hf1
      cases hf1
    · rw [List.getElem?_set_ne hji] at hf1
      exact ⟨hf1, c, hc, hh1⟩

/-- Registration and removal on a buffer of size 2 with one consumer that has read everything: `Write` completes
after a second registration, and after the removal of the first consumer. -/
theorem registration_keeps_writer_free_witness :
    (∃ b2, Write ({ size := 2, bitWiseValue := 1, headIndex := 1, nextReaderIndex := 2,
                    buffer := [0, 7], readerIndexes := [1, 1], readerActiveFlags := [1, 1] } :
                  RingBuffer Nat) 8 = Outcome.done b2) ∧
      ∃ b2, Write ({ size := 2, bitWiseValue := 1, headIndex := 1, nextReaderIndex := 1,
                     buffer := [0, 7], readerIndexes := [1, 0], readerActiveFlags := [0, 0] } :
                   RingBuffer Nat) 8 = Outcome.done b2 :=
  ⟨((registration_keeps_writer_free
      { size := 2, bitWiseValue := 1, headIndex := 1, nextReaderIndex := 1,
        buffer := [0, 7], readerIndexes := [1, 0], readerActiveFlags := [1, 0] } 2 8
      ⟨⟨1, by decide, by decide⟩, by decide, by decide, by decide, by decide, by decide,
        by decide⟩
      (by decide)).1
      { size := 2, bitWiseValue := 1, headIndex := 1, nextReaderIndex := 2,
        buffer := [0, 7], readerIndexes := [1, 1], readerActiveFlags := [1, 1] }
      { id := 1 } (by decide)).2,
    (registration_keeps_writer_free
      { size := 2, bitWiseValue := 1, headIndex := 1, nextReaderIndex := 1,
        buffer := [0, 7], readerIndexes := [1, 0], readerActiveFlags := [1, 0] } 2 8
      ⟨⟨1, by decide, by decide⟩, by decide, by decide, by decide, by decide, by decide,
        by decide⟩
      (by decide)).2 0
      { size := 2, bitWiseValue := 1, headIndex := 1, nextReaderIndex := 1,
        buffer := [0, 7], readerIndexes := [1, 0], readerActiveFlags := [0, 0] }
      (by decide) (by decide)⟩

/-- C12 (removal shrinks the high-water mark when the removed slot is just below it), inputs
on which the code departs from the claim.  After `NewRingBuffer(2, 1)` and one
`CreateConsumer` the consumer has id 0 and `nextReaderIndex` is `0 + 1`, yet `Remove` leaves
`nextReaderIndex` at 1: the compare-and-swap expects `readerID - 1`, which is `2 ^ 32 - 1` on
`uint32`.  With three consumers registered, `Remove` of the last one (id 2,
`nextReaderIndex = 3`) leaves the bound at 3 as well.  In a state with `nextReaderIndex = 1`
and a consumer of id 2, where the claim says the bound is left unchanged, `Remove` lowers
it to 0. -/
theorem remove_keeps_mark_of_top_slot :
    CreateConsumer
        ({ size := 2, bitWiseValue := 1, headIndex := 0, nextReaderIndex := 0, buffer := [0, 0],
           readerIndexes := [0], readerActiveFlags := [0] } : RingBuffer Nat) =
      Outcome.done
        ({ size := 2, bitWiseValue := 1, headIndex := 0, nextReaderIndex := 1, buffer := [0, 0],
           readerIndexes := [0], readerActiveFlags := [1] }, Result.ok { id := 0 }) ∧
      removeConsumer
        ({ size := 2, bitWiseValue := 1, headIndex := 0, nextReaderIndex := 1, buffer := [0, 0],
           readerIndexes := [0], readerActiveFlags := [1] } : RingBuffer Nat) 0 =
      Outcome.done
        { size := 2, bitWiseValue := 1, headIndex := 0, nextReaderIndex := 1, buffer := [0, 0],
          readerIndexes := [0], readerActiveFlags := [0] } ∧
      removeConsumer
        ({ size := 2, bitWiseValue := 1, headIndex := 0, nextReaderIndex := 3, buffer := [0, 0],
           readerIndexes := [0, 0, 0], readerActiveFlags := [1, 1, 1] } : RingBuffer Nat) 2 =
      Outcome.done
        { size := 2, bitWiseValue := 1, headIndex := 0, nextReaderIndex := 3, buffer := [0, 0],
          readerIndexes := [0, 0, 0], readerActiveFlags := [1, 1, 0] } ∧
      removeConsumer
        ({ size := 2, bitWiseValue := 1, headIndex := 0, nextReaderIndex := 1, buffer := [0, 0],
           readerIndexes := [0, 0, 0], readerActiveFlags := [1, 1, 1] } : RingBuffer Nat) 2 =
      Outcome.done
        { size := 2, bitWiseValue := 1, headIndex := 0, nextReaderIndex := 0, buffer := [0, 0],
          readerIndexes := [0, 0, 0], readerActiveFlags := [1, 1, 0] } := by
  decide

/-- What `removeConsumer` does to the scan bound in every state: it lowers it by one on
`uint32` exactly when it equals `readerID - 1` on `uint32`, and leaves the rest of the buffer
but the flag of the slot unchanged. -/
theorem removeConsumer_mark {T : Type} (b b1 : RingBuffer T) (id : Nat)
    (h : removeConsumer b id = Outcome.done b1) :
    b1.nextReaderIndex =
        (if b.nextReaderIndex = (id + u32 - 1) % u32 then (b.nextReaderIndex + u32 - 1) % u32
          else b.nextReaderIndex) ∧
      b1.readerActiveFlags = b.readerActiveFlags.set id 0 ∧
      b1.readerIndexes = b.readerIndexes ∧ b1.headIndex = b.headIndex ∧
      b1.buffer = b.buffer ∧ b1.size = b.size ∧ b1.bitWiseValue = b.bitWiseValue := by
  obtain ⟨_, rfl⟩ := removeConsumer_done_inv h
  exact ⟨rfl, rfl, rfl, rfl, rfl, rfl, rfl⟩

/-! ## Index safety -/

/-- On every buffer that `NewRingBuffer` returns for a size from 1 to `2 ^ 32 - 1`, every
masked index is within the backing array. -/
theorem index_in_range_of_pos {T : Type} [Inhabited T] (size readers p : Nat)
    (b : RingBuffer T) (h1 : 0 < size) (h2 : size < u32)
    (h : NewRingBuffer size readers = Result.ok b) :
    p &&& b.bitWiseValue < b.buffer.length := by
  have hpow : ∃ k, size = 2 ^ k := by
    by_contra hcon
    rw [(NewRingBuffer_error_iff size readers h1 h2).mpr hcon] at h
    cases h
  obtain ⟨k, rfl⟩ := hpow
  have hpred : (2 ^ k + u32 - 1) % u32 = 2 ^ k - 1 := by
    unfold u32 at *; omega
  unfold NewRingBuffer at h
  rw [hpred, pow_and_pred] at h
  simp only [ne_eq, not_true_eq_false, if_false, Result.ok.injEq] at h
  rw [← h]
  show p &&& (2 ^ k - 1) < (List.replicate (2 ^ k) default).length
  rw [mask_eq_mod, List.length_replicate]
  exact Nat.mod_lt _ h1

/-- C15 (index safety), the input on which the code departs from the claim:
`NewRingBuffer(0, readers)` returns a buffer without error, its mask is `2 ^ 32 - 1` and its
backing array is empty, so for `p = headIndex + 1 = 1` the index `p & bitWiseValue` is 1, not
less than `len(buffer) = 0`, and `Write` indexes out of range. -/
theorem index_out_of_range_size_zero (readers : Nat) :
    ∃ b : RingBuffer Nat, NewRingBuffer 0 readers = Result.ok b ∧
      (b.headIndex + 1) % u32 &&& b.bitWiseValue = 1 ∧ b.buffer.length = 0 ∧
      ¬ (b.headIndex + 1) % u32 &&& b.bitWiseValue < b.buffer.length ∧
      Write b 7 = Outcome.panic := by
  refine
    ⟨{ size := 0, bitWiseValue := 4294967295, headIndex := 0, nextReaderIndex := 0,
        buffer := [], readerIndexes := List.replicate readers 0,
        readerActiveFlags := List.replicate readers 0 }, rfl, ?_, rfl, ?_, rfl⟩
  · show (0 + 1) % u32 &&& 4294967295 = 1
    decide
  · show ¬ (0 + 1) % u32 &&& 4294967295 < ([] : List Nat).length
    decide

/-- C16 (registration postcondition): in every state whose two slot tables have the same
length, below `2 ^ 32`, and in which some slot is Free, `CreateConsumer` claims the Free slot
`i` of lowest index: it returns a consumer with id `i` and no error; in the state it returns
slot `i` is Active with cursor equal to `headIndex`; `nextReaderIndex` is `i + 1` if it was
`i` and is unchanged otherwise; `headIndex`, the backing array, size, mask and the state and
cursor of every other slot are unchanged. -/
theorem create_postcondition {T : Type} (b : RingBuffer T)
    (hlen : b.readerIndexes.length = b.readerActiveFlags.length)
    (hn : b.readerActiveFlags.length < u32)
    (hfree : ∃ k : Nat, b.readerActiveFlags[k]? = some 0) :
    ∃ i b1, b.readerActiveFlags[i]? = some 0 ∧
      (∀ j, j < i → b.readerActiveFlags[j]? ≠ some 0) ∧
      CreateConsumer b = Outcome.done (b1, Result.ok { id := i }) ∧
      b1.readerActiveFlags[i]? = some 1 ∧ b1.readerIndexes[i]? = some b.headIndex ∧
      (b.nextReaderIndex = i → b1.nextReaderIndex = i + 1) ∧
      (b.nextReaderIndex ≠ i → b1.nextReaderIndex = b.nextReaderIndex) ∧
      b1.headIndex = b.headIndex ∧ b1.buffer = b.buffer ∧ b1.size = b.size ∧
      b1.bitWiseValue = b.bitWiseValue ∧
      b1.readerActiveFlags.length = b.readerActiveFlags.length ∧
      b1.readerIndexes.length = b.readerIndexes.length ∧
      ∀ j, j ≠ i → b1.readerActiveFlags[j]? = b.readerActiveFlags[j]? ∧
        b1.readerIndexes[j]? = b.readerIndexes[j]? := by
  rcases CreateConsumer_cases b hlen with ⟨hfull, _⟩ | ⟨i, hi, h0, hlow, heq⟩
  · obtain ⟨k, hk⟩ := hfree
    have hklt : k < b.readerActiveFlags.length := (List.getElem?_eq_some.mp hk).1
    exact absurd hk (hfull k hklt)
  · have hmod : i % u32 = i := Nat.mod_eq_of_lt (by omega)
    have hmod1 : (i + 1) % u32 = i + 1 := Nat.mod_eq_of_lt (by omega)
    rw [hmod, hmod1] at heq
    refine ⟨i, _, h0, hlow, heq, ?_, ?_, ?_, ?_, rfl, rfl, rfl, rfl, ?_, ?_, ?_⟩
    · exact List.getElem?_set_self hi
    · exact List.getElem?_set_self (by rw [hlen]; exact hi)
    · intro h
      show (if b.nextReaderIndex = i then i + 1 else b.nextReaderIndex) = i + 1
      rw [if_pos h]
    · intro h
      show (if b.nextReaderIndex = i then i + 1 else b.nextReaderIndex) = b.nextReaderIndex
      rw [if_neg h]
    · exact List.length_set _ _ _
    · exact List.length_set _ _ _
    · intro j hj
      exact ⟨List.getElem?_set_ne (Ne.symm hj), List.getElem?_set_ne (Ne.symm hj)⟩

/-- C16 on a table whose slot 0 is Active and slot 1 is Free, with the scan bound 1. -/
theorem create_postcondition_witness :
    ∃ i b1, ([1, 0] : List Nat)[i]? = some 0 ∧
      CreateConsumer
          ({ size := 2, bitWiseValue := 1, headIndex := 1, nextReaderIndex := 1,
             buffer := [0, 7], readerIndexes := [1, 0], readerActiveFlags := [1, 0] } :
            RingBuffer Nat) = Outcome.done (b1, Result.ok { id := i }) ∧
      b1.readerActiveFlags[i]? = some 1 ∧ b1.readerIndexes[i]? = some 1 := by
  obtain ⟨i, b1, h1, _, h3, h4, h5, _⟩ :=
    create_postcondition
      ({ size := 2, bitWiseValue := 1, headIndex := 1, nextReaderIndex := 1,
         buffer := [0, 7], readerIndexes := [1, 0], readerActiveFlags := [1, 0] } :
        RingBuffer Nat)
      (by decide) (by decide) ⟨1, by decide⟩
  exact ⟨i, b1, h1, h3, h4, h5⟩

/-- C17 (`Write` postcondition and frame): in every state, whenever `Write(v)` returns, the
new `headIndex` is the old one plus 1 on `uint32`, the cell at index
`(old headIndex + 1) & bitWiseValue` holds `v`, and every other cell of the backing array,
every cursor and flag, size, mask and `nextReaderIndex` are unchanged; and in every state of
the data model (power-of-two size, mask `size - 1`, scan bound within the tables) a `Write`
that does not block returns. -/
theorem write_postcondition {T : Type} (b : RingBuffer T) (v : T) :
    (∀ b1, Write b v = Outcome.done b1 →
        b1.headIndex = (b.headIndex + 1) % u32 ∧
        b1.buffer[(b.headIndex + 1) % u32 &&& b.bitWiseValue]? = some v ∧
        (∀ k, k ≠ (b.headIndex + 1) % u32 &&& b.bitWiseValue →
          b1.buffer[k]? = b.buffer[k]?) ∧
        b1.buffer.length = b.buffer.length ∧
        b1.readerIndexes = b.readerIndexes ∧ b1.readerActiveFlags = b.readerActiveFlags ∧
        b1.size = b.size ∧ b1.bitWiseValue = b.bitWiseValue ∧
        b1.nextReaderIndex = b.nextReaderIndex) ∧
      (∀ n, Shape b n → Write b v ≠ Outcome.blocked → ∃ b1, Write b v = Outcome.done b1) := by
  constructor
  · intro b1 h
    obtain ⟨_, hlt, rfl⟩ := Write_done_eq h
    refine ⟨rfl, List.getElem?_set_self hlt, ?_, List.length_set _ _ _, rfl, rfl, rfl, rfl,
      rfl⟩
    intro k hk
    exact List.getElem?_set_ne (Ne.symm hk)
  · intro n hs h
    exact Write_done_of_not_blocked hs v h

/-- C17 on a buffer of size 2 with one consumer that has read the only value written. -/
theorem write_postcondition_witness :
    Write ({ size := 2, bitWiseValue := 1, headIndex := 1, nextReaderIndex := 1,
             buffer := [0, 7], readerIndexes := [1], readerActiveFlags := [1] } :
           RingBuffer Nat) 8 =
      Outcome.done
        { size := 2, bitWiseValue := 1, headIndex := 2, nextReaderIndex := 1,
          buffer := [8, 7], readerIndexes := [1], readerActiveFlags := [1] } ∧
      (2 : Nat) = (1 + 1) % u32 := by
  have h :
      Write
          ({ size := 2, bitWiseValue := 1, headIndex := 1, nextReaderIndex := 1,
             buffer := [0, 7], readerIndexes := [1], readerActiveFlags := [1] } :
            RingBuffer Nat) 8 =
        Outcome.done
          { size := 2, bitWiseValue := 1, headIndex := 2, nextReaderIndex := 1,
            buffer := [8, 7], readerIndexes := [1], readerActiveFlags := [1] } := by
    decide
  exact ⟨h, ((write_postcondition _ 8).1 _ h).1⟩

/-- C18 (`Read` postcondition and frame): in every state of the data model (power-of-two
size, mask `size - 1`, backing array of that length) with `headIndex` a `uint32`, for every
slot `i` with cursor `c` such that `c + 1 <= headIndex`, `Read` does not block: it returns
the cell at index `(c + 1) & bitWiseValue`, sets the cursor of slot `i` to `c + 1`, and
leaves `headIndex`, the backing array, `nextReaderIndex`, size, mask, every flag and the
cursor of every other slot unchanged. -/
theorem read_postcondition {T : Type} (b : RingBuffer T) (n i c : Nat) (hs : Shape b n)
    (hh : b.headIndex < u32) (hc : b.readerIndexes[i]? = some c)
    (hle : c + 1 ≤ b.headIndex) :
    ∃ x b1, read b i = Outcome.done (x, b1) ∧
      b.buffer[(c + 1) &&& b.bitWiseValue]? = some x ∧
      b1.readerIndexes[i]? = some (c + 1) ∧
      (∀ j, j ≠ i → b1.readerIndexes[j]? = b.readerIndexes[j]?) ∧
      b1.readerIndexes.length = b.readerIndexes.length ∧
      b1.headIndex = b.headIndex ∧ b1.buffer = b.buffer ∧
      b1.nextReaderIndex = b.nextReaderIndex ∧
      b1.readerActiveFlags = b.readerActiveFlags ∧ b1.size = b.size ∧
      b1.bitWiseValue = b.bitWiseValue := by
  have hmod : (c + 1) % u32 = c + 1 := Nat.mod_eq_of_lt (by omega)
  obtain ⟨x, hx, hrd⟩ := read_done_of_le hs hc (by rw [hmod]; exact hle)
  rw [hmod] at hx hrd
  have hlen : i < b.readerIndexes.length := (List.getElem?_eq_some.mp hc).1
  refine ⟨x, _, hrd, ?_, List.getElem?_set_self hlen, ?_, List.length_set _ _ _, rfl, rfl, rfl,
    rfl, rfl, rfl⟩
  · rw [hs.mask_index]; exact hx
  · intro j hj
    exact List.getElem?_set_ne (Ne.symm hj)

/-- C18 on a buffer of size 2 whose consumer 0 has read one of two values. -/
theorem read_postcondition_witness :
    ∃ x b1,
      read ({ size := 2, bitWiseValue := 1, headIndex := 2, nextReaderIndex := 1,
              buffer := [8, 7], readerIndexes := [1], readerActiveFlags := [1] } :
            RingBuffer Nat) 0 = Outcome.done (x, b1) ∧
        ([8, 7] : List Nat)[(1 + 1) &&& 1]? = some x ∧ b1.readerIndexes[0]? = some (1 + 1) := by
  obtain ⟨x, b1, h1, h2, h3, _⟩ :=
    read_postcondition
      ({ size := 2, bitWiseValue := 1, headIndex := 2, nextReaderIndex := 1,
         buffer := [8, 7], readerIndexes := [1], readerActiveFlags := [1] } : RingBuffer Nat)
      1 0 1
      ⟨⟨1, by decide, by decide⟩, by decide, by decide, by decide, by decide, by decide,
        by decide⟩
      (by decide) (by decide) (by decide)
  exact ⟨x, b1, h1, h2, h3⟩

/-! ## The slot table in sequential runs of any length -/

theorem boot_some {T : Type} [Inhabited T] {size readers : Nat} {s0 : Sys T}
    (h : boot size readers = some s0) :
    s0.handles = [] ∧ s0.written = [] ∧ s0.ring.size = size ∧ s0.ring.headIndex = 0 ∧
      s0.ring.nextReaderIndex = 0 ∧ s0.ring.readerIndexes = List.replicate readers 0 ∧
      s0.ring.readerActiveFlags = List.replicate readers 0 := by
  unfold boot at h
  cases hn : (NewRingBuffer size readers : Result (RingBuffer T)) with
  | error e => rw [hn] at h; cases h
  | ok b =>
    rw [hn] at h
    simp only [Option.some.injEq] at h
    unfold NewRingBuffer at hn
    split_ifs at hn
    simp only [Result.ok.injEq] at hn
    rw [← h, ← hn]
    exact ⟨rfl, rfl, rfl, rfl, rfl, rfl, rfl⟩

/-- A call of `CreateConsumer` in a run either finds the table full and changes nothing, or
claims the lowest Free slot and hands out its index. -/
theorem step_create_cases {T : Type} {s s1 : Sys T} {ev : List (Nat × T)}
    (h : step s Op.create = some (s1, ev))
    (hlen : s.ring.readerIndexes.length = s.ring.readerActiveFlags.length)
    (hn : s.ring.readerActiveFlags.length < u32) :
    ev = [] ∧
      (s1 = s ∨
        ∃ i, i < s.ring.readerActiveFlags.length ∧ s.ring.readerActiveFlags[i]? = some 0 ∧
          (∀ j, j < i → s.ring.readerActiveFlags[j]? ≠ some 0) ∧
          s1 =
            { s with
              ring :=
                { s.ring with
                  readerActiveFlags := s.ring.readerActiveFlags.set i 1
                  readerIndexes := s.ring.readerIndexes.set i s.ring.headIndex
                  nextReaderIndex :=
                    if s.ring.nextReaderIndex = i then i + 1 else s.ring.nextReaderIndex }
              handles := i :: s.handles }) := by
  rcases CreateConsumer_cases s.ring hlen with ⟨_, heq⟩ | ⟨i, hi, h0, hlow, heq⟩
  · simp only [step, heq, Option.some.injEq, Prod.mk.injEq] at h
    exact ⟨h.2.symm, Or.inl h.1.symm⟩
  · have hmod : i % u32 = i := Nat.mod_eq_of_lt (by omega)
    have hmod1 : (i + 1) % u32 = i + 1 := Nat.mod_eq_of_lt (by omega)
    rw [hmod, hmod1] at heq
    simp only [step, heq, Option.some.injEq, Prod.mk.injEq] at h
    exact ⟨h.2.symm, Or.inr ⟨i, hi, h0, hlow, h.1.symm⟩⟩

theorem slots_boot {T : Type} [Inhabited T] {size readers : Nat} {s0 : Sys T}
    (hr : readers < u32) (h : boot size readers = some s0) : Slots s0 readers := by
  obtain ⟨h1, _, _, _, h5, h6, h7⟩ := boot_some h
  have hflag : ∀ (i f : Nat), s0.ring.readerActiveFlags[i]? = some f → f = 0 := by
    intro i f hf
    rw [h7, List.getElem?_replicate] at hf
    split_ifs at hf
    exact (Option.some.inj hf).symm
  refine ⟨?_, ?_, hr, ?_, ?_, ?_, ?_, Or.inl ⟨?_, ?_, ?_⟩⟩
  · rw [h7, List.length_replicate]
  · rw [h6, List.length_replicate]
  · rw [h5]; exact Nat.zero_le _
  · exact fun i f hf => Or.inl (hflag i f hf)
  · rw [h1]; intro id hid; cases hid
  · intro i hf
    have := hflag i 1 hf
    omega
  · intro i hf
    have := hflag i 1 hf
    omega
  · rw [h1]; intro id hid; cases hid
  · rw [h5]; intro hpos; omega

/-- Every call of a run keeps the facts about the slot table; on a table of at most
`2 ^ 32 - 2` slots it does not lower the scan bound. -/
theorem slots_step {T : Type} {s s1 : Sys T} {n : Nat} {op : Op T} {ev : List (Nat × T)}
    (hsl : Slots s n) (h : step s op = some (s1, ev)) :
    Slots s1 n ∧ (n + 1 < u32 → s.ring.nextReaderIndex ≤ s1.ring.nextReaderIndex) := by
  have hnlt := hsl.nlt
  have hnext := hsl.next_le
  cases op with
  | create =>
    obtain ⟨_, hcase⟩ := step_create_cases h (by rw [hsl.idx, hsl.flg]) (by rw [hsl.flg]; exact hnlt)
    rcases hcase with rfl | ⟨i, hi, h0, hlow, rfl⟩
    · exact ⟨hsl, fun _ => le_refl _⟩
    · rw [hsl.flg] at hi
      have hset1 : ∀ (j : Nat), (s.ring.readerActiveFlags.set i 1)[j]? = some 1 →
          j = i ∨ s.ring.readerActiveFlags[j]? = some 1 := by
        intro j hj
        by_cases hji : i = j
        · exact Or.inl hji.symm
        · rw [List.getElem?_set_ne hji] at hj; exact Or.inr hj
      refine ⟨?_, ?_⟩
      · refine
          { flg := by simp [hsl.flg]
            idx := by simp [hsl.idx]
            nlt := hnlt
            next_le := by
              show (if s.ring.nextReaderIndex = i then i + 1 else s.ring.nextReaderIndex) ≤ n
              split_ifs <;> omega
            flags01 := ?_
            handles_n := ?_
            active_handle := ?_
            mode := ?_ }
        · intro j f hf
          have hf1 : (s.ring.readerActiveFlags.set i 1)[j]? = some f := hf
          by_cases hji : i = j
          · subst hji
            rw [List.getElem?_set_self (by rw [hsl.flg]; exact hi)] at hf1
            exact Or.inr (Option.some.inj hf1).symm
          · rw [List.getElem?_set_ne hji] at hf1
            exact hsl.flags01 j f hf1
        · intro id hid
          rcases List.mem_cons.mp hid with h1 | h1
          · omega
          · exact hsl.handles_n id h1
        · intro j hj
          rcases hset1 j hj with h1 | h1
          · rw [h1]; exact List.mem_cons_self _ _
          · exact List.mem_cons_of_mem _ (hsl.active_handle j h1)
        · rcases hsl.mode with ⟨ha, hh, ht⟩ | ⟨hb1, hb2⟩
          · left
            have hle : i ≤ s.ring.nextReaderIndex := by
              by_contra hcon
              have hlt : s.ring.nextReaderIndex < i := by omega
              have hlen : s.ring.nextReaderIndex < s.ring.readerActiveFlags.length := by
                rw [hsl.flg]; omega
              have hget := List.getElem?_eq_getElem hlen
              rcases hsl.flags01 _ _ hget with hz | ho
              · exact hlow _ hlt (by rw [hget, hz])
              · have := ha _ (by rw [hget, ho])
                omega
            refine ⟨?_, ?_, ?_⟩
            · intro j hj
              show j < (if s.ring.nextReaderIndex = i then i + 1 else s.ring.nextReaderIndex)
              rcases hset1 j hj with h1 | h1
              · split_ifs <;> omega
              · have := ha j h1
                split_ifs <;> omega
            · intro id hid
              show id < (if s.ring.nextReaderIndex = i then i + 1 else s.ring.nextReaderIndex)
              rcases List.mem_cons.mp hid with h1 | h1
              · split_ifs <;> omega
              · have := hh id h1
                split_ifs <;> omega
            · show 0 < (if s.ring.nextReaderIndex = i then i + 1 else s.ring.nextReaderIndex) →
                (if s.ring.nextReaderIndex = i then i + 1 else s.ring.nextReaderIndex) - 1 ∈
                  i :: s.handles
              split_ifs with hni
              · intro _
                rw [Nat.add_sub_cancel]; exact List.mem_cons_self _ _
              · intro hpos
                exact List.mem_cons_of_mem _ (ht hpos)
          · right
            refine ⟨hb1, ?_⟩
            show n ≤ (if s.ring.nextReaderIndex = i then i + 1 else s.ring.nextReaderIndex) + 1
            split_ifs <;> omega
      · intro _
        show s.ring.nextReaderIndex ≤
          (if s.ring.nextReaderIndex = i then i + 1 else s.ring.nextReaderIndex)
        split_ifs <;> omega
  | write v =>
    obtain ⟨_, b1, hwr, rfl⟩ := step_write_inv h
    obtain ⟨_, _, rfl⟩ := Write_done_eq hwr
    exact ⟨⟨hsl.flg, hsl.idx, hsl.nlt, hsl.next_le, hsl.flags01, hsl.handles_n,
      hsl.active_handle, hsl.mode⟩, fun _ => le_refl _⟩
  | read id =>
    obtain ⟨_, v, b1, hrd, _, rfl⟩ := step_read_inv h
    obtain ⟨c, _, _, _, rfl⟩ := read_done_inv hrd
    exact ⟨⟨hsl.flg, by simp [hsl.idx], hsl.nlt, hsl.next_le, hsl.flags01, hsl.handles_n,
      hsl.active_handle, hsl.mode⟩, fun _ => le_refl _⟩
  | remove id =>
    obtain ⟨hid, _, b1, hrm, rfl⟩ := step_remove_inv h
    obtain ⟨hlt, rfl⟩ := removeConsumer_done_inv hrm
    have hidn := hsl.handles_n id hid
    have hset0 : ∀ (j : Nat), (s.ring.readerActiveFlags.set id 0)[j]? = some 1 →
        s.ring.readerActiveFlags[j]? = some 1 := by
      intro j hj
      by_cases hji : id = j
      · subst hji
        rw [List.getElem?_set_self hlt] at hj
        cases hj
      · rw [List.getElem?_set_ne hji] at hj; exact hj
    have hmodeNext :
        ((∀ id1 ∈ s.handles, id1 < s.ring.nextReaderIndex) ∨
          (n + 1 = u32 ∧ n ≤ s.ring.nextReaderIndex + 1)) := by
      rcases hsl.mode with ⟨_, hh, _⟩ | hb
      · exact Or.inl hh
      · exact Or.inr hb
    refine ⟨?_, ?_⟩
    · refine
        { flg := by simp [hsl.flg]
          idx := hsl.idx
          nlt := hnlt
          next_le := ?_
          flags01 := ?_
          handles_n := hsl.handles_n
          active_handle := fun j hj => hsl.active_handle j (hset0 j hj)
          mode := ?_ }
      · show (if s.ring.nextReaderIndex = (id + u32 - 1) % u32 then
          (s.ring.nextReaderIndex + u32 - 1) % u32 else s.ring.nextReaderIndex) ≤ n
        rcases hmodeNext with hh | ⟨hb1, hb2⟩
        · have := hh id hid
          split_ifs
          · unfold u32 at *; omega
          · exact hnext
        · split_ifs
          · unfold u32 at *; omega
          · exact hnext
      · intro j f hf
        have hf1 : (s.ring.readerActiveFlags.set id 0)[j]? = some f := hf
        by_cases hji : id = j
        · subst hji
          rw [List.getElem?_set_self hlt] at hf1
          exact Or.inl (Option.some.inj hf1).symm
        · rw [List.getElem?_set_ne hji] at hf1
          exact hsl.flags01 j f hf1
      · rcases hsl.mode with ⟨ha, hh, ht⟩ | ⟨hb1, hb2⟩
        · have hidlt := hh id hid
          by_cases hcas : s.ring.nextReaderIndex = (id + u32 - 1) % u32
          · right
            show n + 1 = u32 ∧ n ≤ (if s.ring.nextReaderIndex = (id + u32 - 1) % u32 then
              (s.ring.nextReaderIndex + u32 - 1) % u32 else s.ring.nextReaderIndex) + 1
            rw [if_pos hcas]
            unfold u32 at *
            omega
          · left
            refine ⟨?_, ?_, ?_⟩
            · intro j hj
              show j < (if s.ring.nextReaderIndex = (id + u32 - 1) % u32 then
                (s.ring.nextReaderIndex + u32 - 1) % u32 else s.ring.nextReaderIndex)
              rw [if_neg hcas]
              exact ha j (hset0 j hj)
            · intro id1 hid1
              show id1 < (if s.ring.nextReaderIndex = (id + u32 - 1) % u32 then
                (s.ring.nextReaderIndex + u32 - 1) % u32 else s.ring.nextReaderIndex)
              rw [if_neg hcas]
              exact hh id1 hid1
            · show 0 < (if s.ring.nextReaderIndex = (id + u32 - 1) % u32 then
                  (s.ring.nextReaderIndex + u32 - 1) % u32 else s.ring.nextReaderIndex) →
                (if s.ring.nextReaderIndex = (id + u32 - 1) % u32 then
                  (s.ring.nextReaderIndex + u32 - 1) % u32 else s.ring.nextReaderIndex) - 1 ∈
                  s.handles
              rw [if_neg hcas]
              exact ht
        · right
          refine ⟨hb1, ?_⟩
          show n ≤ (if s.ring.nextReaderIndex = (id + u32 - 1) % u32 then
            (s.ring.nextReaderIndex + u32 - 1) % u32 else s.ring.nextReaderIndex) + 1
          split_ifs
          · unfold u32 at *; omega
          · exact hb2
    · intro hsmall
      show s.ring.nextReaderIndex ≤ (if s.ring.nextReaderIndex = (id + u32 - 1) % u32 then
        (s.ring.nextReaderIndex + u32 - 1) % u32 else s.ring.nextReaderIndex)
      rcases hmodeNext with hh | ⟨hb1, _⟩
      · have := hh id hid
        split_ifs
        · unfold u32 at *; omega
        · exact le_refl _
      · omega

theorem slots_run {T : Type} {n : Nat} (ops : List (Op T)) :
    ∀ (s s1 : Sys T) (log : List (Nat × T)), Slots s n → run s ops = some (s1, log) →
      Slots s1 n ∧ (n + 1 < u32 → s.ring.nextReaderIndex ≤ s1.ring.nextReaderIndex) := by
  induction ops with
  | nil =>
    intro s s1 log hsl h
    simp only [run, Option.some.injEq, Prod.mk.injEq] at h
    rw [← h.1]
    exact ⟨hsl, fun _ => le_refl _⟩
  | cons op ops ih =>
    intro s s1 log hsl h
    obtain ⟨t, ev, evs, hst, hrun, _⟩ := run_cons_inv h
    obtain ⟨hslt, hmono1⟩ := slots_step hsl hst
    obtain ⟨hsl1, hmono2⟩ := ih t s1 evs hslt hrun
    exact ⟨hsl1, fun hn => le_trans (hmono1 hn) (hmono2 hn)⟩

/-- On a table of at most `2 ^ 32 - 2` slots the scan bound is a strict upper bound of the
Active slots and of the ids handed out, and its predecessor is one of these ids. -/
theorem Slots.bounded {T : Type} {s : Sys T} {n : Nat} (hsl : Slots s n) (hn : n + 1 < u32) :
    (∀ (i : Nat), s.ring.readerActiveFlags[i]? = some 1 → i < s.ring.nextReaderIndex) ∧
      (∀ id ∈ s.handles, id < s.ring.nextReaderIndex) ∧
      (0 < s.ring.nextReaderIndex → s.ring.nextReaderIndex - 1 ∈ s.handles) := by
  rcases hsl.mode with ha | ⟨hb, _⟩
  · exact ha
  · omega

theorem lt_onePastMax {l : List Nat} {id : Nat} (h : id ∈ l) : id < onePastMax l := by
  induction l with
  | nil => cases h
  | cons x xs ih =>
    unfold onePastMax
    rcases List.mem_cons.mp h with rfl | h1
    · omega
    · have := ih h1
      omega

theorem onePastMax_mem {l : List Nat} (h : 0 < onePastMax l) : onePastMax l - 1 ∈ l := by
  induction l with
  | nil => simp [onePastMax] at h
  | cons x xs ih =>
    unfold onePastMax at h ⊢
    by_cases hx : onePastMax xs ≤ x + 1
    · rw [Nat.max_eq_left hx, Nat.add_sub_cancel]
      exact List.mem_cons_self _ _
    · rw [Nat.max_eq_right (by omega)]
      exact List.mem_cons_of_mem _ (ih (by omega))

theorem eq_onePastMax {l : List Nat} {k : Nat} (h1 : ∀ id ∈ l, id < k)
    (h2 : 0 < k → k - 1 ∈ l) : k = onePastMax l := by
  by_cases hk : 0 < k
  · have h3 := lt_onePastMax (h2 hk)
    have h4 := h1 _ (onePastMax_mem (by omega))
    omega
  · by_cases hp : 0 < onePastMax l
    · have := h1 _ (onePastMax_mem hp)
      omega
    · omega

/-! ## The scan bound in sequential use -/

/-- C13 (the high-water mark is a safe upper bound in sequential use): in every state reached
from `NewRingBuffer(size, readers)` with `readers <= 2 ^ 32 - 2` by a sequence of complete
`CreateConsumer`, `Write`, `Read` and `Remove` calls on consumer ids that `CreateConsumer`
returned, every slot whose flag is Active has an index strictly below `nextReaderIndex`, so
it is one of the indices the scan of `Write` visits, and `Write` blocks whenever such a slot
holds the writer back. -/
theorem scan_bound_covers_active {T : Type} [Inhabited T] (size readers : Nat) (s0 s : Sys T)
    (ops : List (Op T)) (log : List (Nat × T)) (hr : readers < u32 - 1)
    (hboot : boot size readers = some s0) (hrun : run s0 ops = some (s, log)) :
    (∀ (i : Nat), s.ring.readerActiveFlags[i]? = some 1 →
        i < s.ring.nextReaderIndex ∧ i ∈ List.range s.ring.nextReaderIndex) ∧
      ∀ (i : Nat) (v : T), holdsBack s.ring i → Write s.ring v = Outcome.blocked := by
  have hsl := (slots_run ops s0 s log (slots_boot (by omega) hboot) hrun).1
  have hb := hsl.bounded (by omega)
  constructor
  · intro i hi
    exact ⟨hb.1 i hi, List.mem_range.mpr (hb.1 i hi)⟩
  · intro i v hh
    have hrange : ∀ j ∈ List.range s.ring.nextReaderIndex,
        j < s.ring.readerActiveFlags.length ∧ j < s.ring.readerIndexes.length := by
      intro j hj
      have h1 := List.mem_range.mp hj
      have h2 := hsl.next_le
      rw [hsl.flg, hsl.idx]
      omega
    have hscan : writeScan s.ring (List.range s.ring.nextReaderIndex) = Outcome.blocked :=
      (writeScan_blocked_iff s.ring _ hrange).mpr
        ⟨i, List.mem_range.mpr (hb.1 i hh.1), hh⟩
    unfold Write
    rw [hscan]

/-- C13 on a buffer of size 2 with 3 slots after two registrations, the removal of consumer
0, a write and a read: slot 1 is Active and below the scan bound 2. -/
theorem scan_bound_covers_active_witness :
    (1 : Nat) < 2 ∧ 1 ∈ List.range 2 :=
  (scan_bound_covers_active 2 3
    { ring :=
        { size := 2, bitWiseValue := 1, headIndex := 0, nextReaderIndex := 0, buffer := [0, 0],
          readerIndexes := [0, 0, 0], readerActiveFlags := [0, 0, 0] }
      handles := []
      written := [] }
    { ring :=
        { size := 2, bitWiseValue := 1, headIndex := 1, nextReaderIndex := 2, buffer := [0, 7],
          readerIndexes := [0, 1, 0], readerActiveFlags := [0, 1, 0] }
      handles := [1, 0]
      written := [7] }
    [Op.create, Op.create, Op.remove 0, Op.write 7, Op.read 1]
    [(1, 7)]
    (by decide) (by decide) (by decide)).1 1 (by decide)

/-- C19 (in sequential use the high-water mark never shrinks): in every state reached from
`NewRingBuffer(size, readers)` with `readers <= 2 ^ 32 - 2` by a sequence of complete
`CreateConsumer`, `Write`, `Read` and `Remove` calls on consumer ids that `CreateConsumer`
returned, `nextReaderIndex` equals one plus the largest id handed out so far (0 if none);
for every such id the compare-and-swap of `removeConsumer` fails (`nextReaderIndex` differs
from `readerID - 1` on `uint32`), `Remove` returns and leaves `nextReaderIndex` unchanged;
and `nextReaderIndex` in every state reached by further such calls is not smaller. -/
theorem mark_never_shrinks {T : Type} [Inhabited T] (size readers : Nat) (s0 s : Sys T)
    (ops : List (Op T)) (log : List (Nat × T)) (hr : readers < u32 - 1)
    (hboot : boot size readers = some s0) (hrun : run s0 ops = some (s, log)) :
    s.ring.nextReaderIndex = onePastMax s.handles ∧
      (∀ id ∈ s.handles, s.ring.nextReaderIndex ≠ (id + u32 - 1) % u32 ∧
        ∃ b1, removeConsumer s.ring id = Outcome.done b1 ∧
          b1.nextReaderIndex = s.ring.nextReaderIndex) ∧
      ∀ (more : List (Op T)) (s1 : Sys T) (log1 : List (Nat × T)),
        run s more = some (s1, log1) → s.ring.nextReaderIndex ≤ s1.ring.nextReaderIndex := by
  have hsl := (slots_run ops s0 s log (slots_boot (by omega) hboot) hrun).1
  have hb := hsl.bounded (by omega)
  refine ⟨eq_onePastMax hb.2.1 hb.2.2, ?_, ?_⟩
  · intro id hid
    have hcas : s.ring.nextReaderIndex ≠ (id + u32 - 1) % u32 :=
      remove_cas_fails (hb.2.1 id hid) hsl.next_le hr
    refine ⟨hcas, _, removeConsumer_eq s.ring id ?_, ?_⟩
    · rw [hsl.flg]; exact hsl.handles_n id hid
    · show (if s.ring.nextReaderIndex = (id + u32 - 1) % u32 then
          (s.ring.nextReaderIndex + u32 - 1) % u32 else s.ring.nextReaderIndex) =
        s.ring.nextReaderIndex
      rw [if_neg hcas]
  · intro more s1 log1 hmore
    exact (slots_run more s s1 log1 hsl hmore).2 (by omega)

/-- C19 on a buffer of size 2 with 3 slots after two registrations and the removal of the
consumer registered last: the scan bound is 2, one plus the largest id handed out. -/
theorem mark_never_shrinks_witness :
    (2 : Nat) = onePastMax [1, 0] :=
  (mark_never_shrinks 2 3
    { ring :=
        { size := 2, bitWiseValue := 1, headIndex := 0, nextReaderIndex := 0, buffer := [0, 0],
          readerIndexes := [0, 0, 0], readerActiveFlags := [0, 0, 0] }
      handles := []
      written := [] }
    { ring :=
        { size := 2, bitWiseValue := 1, headIndex := 0, nextReaderIndex := 2, buffer := [0, 0],
          readerIndexes := [0, 0, 0], readerActiveFlags := [1, 0, 0] }
      handles := [1, 0]
      written := [] }
    [Op.create, Op.create, Op.remove 1]
    ([] : List (Nat × Nat))
    (by decide) (by decide) (by decide)).1

/-! ## The counters in sequential runs, and the absence of mutual blocking -/

theorem counters_boot {T : Type} [Inhabited T] {e readers : Nat} (he : e < 32) {s0 : Sys T}
    (h : boot (2 ^ e) readers = some s0) : Counters s0 := by
  rw [boot_pow he] at h
  cases h
  refine ⟨⟨e, he, rfl⟩, rfl, by simp, rfl, by simp [u32], ?_⟩
  intro i c hc
  have hc1 : (List.replicate readers 0)[i]? = some c := hc
  rw [List.getElem?_replicate] at hc1
  split_ifs at hc1
  exact le_of_eq (Option.some.inj hc1).symm

/-- Every call of a run that leaves fewer than `2 ^ 32 - 1` values written keeps the facts
about the counters. -/
theorem counters_step {T : Type} {s s1 : Sys T} {n : Nat} {op : Op T} {ev : List (Nat × T)}
    (hc : Counters s) (hsl : Slots s n) (h : step s op = some (s1, ev))
    (hw : s1.written.length < u32 - 1) : Counters s1 := by
  have hhead := hc.head
  cases op with
  | create =>
    obtain ⟨_, hcase⟩ :=
      step_create_cases h (by rw [hsl.idx, hsl.flg]) (by rw [hsl.flg]; exact hsl.nlt)
    rcases hcase with rfl | ⟨i, hi, h0, hlow, rfl⟩
    · exact hc
    · refine ⟨hc.pow, hc.mask, hc.buf, hc.head, hc.wlt, ?_⟩
      intro j c hj
      have hj1 : (s.ring.readerIndexes.set i s.ring.headIndex)[j]? = some c := hj
      show c ≤ s.ring.headIndex
      by_cases hji : i = j
      · subst hji
        rw [List.getElem?_set_self (by rw [hsl.idx, ← hsl.flg]; exact hi)] at hj1
        exact le_of_eq (Option.some.inj hj1).symm
      · rw [List.getElem?_set_ne hji] at hj1
        exact hc.cursor_le j c hj1
  | write v =>
    obtain ⟨_, b1, hwr, rfl⟩ := step_write_inv h
    obtain ⟨_, _, rfl⟩ := Write_done_eq hwr
    have hw1 : (s.written ++ [v]).length < u32 - 1 := hw
    rw [List.length_append, List.length_singleton] at hw1
    have hmod : (s.ring.headIndex + 1) % u32 = s.ring.headIndex + 1 :=
      Nat.mod_eq_of_lt (by omega)
    refine ⟨hc.pow, hc.mask, ?_, ?_, hw, ?_⟩
    · show (s.ring.buffer.set _ v).length = s.ring.size
      rw [List.length_set]; exact hc.buf
    · show (s.ring.headIndex + 1) % u32 = (s.written ++ [v]).length
      rw [hmod, List.length_append, List.length_singleton, hhead]
    · intro j c hj
      show c ≤ (s.ring.headIndex + 1) % u32
      rw [hmod]
      have := hc.cursor_le j c hj
      omega
  | read id =>
    obtain ⟨_, v, b1, hrd, _, rfl⟩ := step_read_inv h
    obtain ⟨c, hcid, hle, _, rfl⟩ := read_done_inv hrd
    refine ⟨hc.pow, hc.mask, hc.buf, hc.head, hc.wlt, ?_⟩
    intro j c1 hj
    have hj1 : (s.ring.readerIndexes.set id ((c + 1) % u32))[j]? = some c1 := hj
    show c1 ≤ s.ring.headIndex
    by_cases hji : id = j
    · subst hji
      rw [List.getElem?_set_self (List.getElem?_eq_some.mp hcid).1] at hj1
      rw [← Option.some.inj hj1]; exact hle
    · rw [List.getElem?_set_ne hji] at hj1
      exact hc.cursor_le j c1 hj1
  | remove id =>
    obtain ⟨_, _, b1, hrm, rfl⟩ := step_remove_inv h
    obtain ⟨_, rfl⟩ := removeConsumer_done_inv hrm
    exact ⟨hc.pow, hc.mask, hc.buf, hc.head, hc.wlt, hc.cursor_le⟩

theorem counters_run {T : Type} {n : Nat} (ops : List (Op T)) :
    ∀ (s s1 : Sys T) (log : List (Nat × T)), Counters s → Slots s n →
      run s ops = some (s1, log) → s1.written.length < u32 - 1 → Counters s1 := by
  induction ops with
  | nil =>
    intro s s1 log hc _ h _
    simp only [run, Option.some.injEq, Prod.mk.injEq] at h
    rw [← h.1]
    exact hc
  | cons op ops ih =>
    intro s s1 log hc hsl h hw
    obtain ⟨t, ev, evs, hst, hrun, _⟩ := run_cons_inv h
    have hwt : t.written.length < u32 - 1 := by
      have h1 := run_written ops t s1 evs hrun
      rw [h1, List.length_append] at hw
      omega
    exact ih t s1 evs (counters_step hc hsl hst hwt) (slots_step hsl hst).1 hrun hw

/-- The slot table and the counters of a run give the shape of the data model. -/
theorem shape_of_counters {T : Type} {s : Sys T} {n : Nat} (hc : Counters s)
    (hsl : Slots s n) : Shape s.ring n :=
  ⟨hc.pow, hc.mask, hc.buf, hsl.idx, hsl.flg, hsl.nlt, hsl.next_le⟩

/-- C20 (no mutual blocking): in every state reached from `NewRingBuffer(2 ^ e, readers)`
by a sequence of complete `CreateConsumer`, `Write`, `Read` and `Remove` calls with fewer
than `2 ^ 32 - 1` values written, whenever `Write` is blocked there is a slot that is
Active, whose id was returned by `CreateConsumer`, which holds the writer back, and whose
`Read` returns a value: it is not blocked.  No bound on the number of slots is needed. -/
theorem no_mutual_blocking {T : Type} [Inhabited T] (e readers : Nat) (s0 s : Sys T)
    (ops : List (Op T)) (log : List (Nat × T)) (v : T) (he : e < 32) (hr : readers < u32)
    (hboot : boot (2 ^ e) readers = some s0) (hrun : run s0 ops = some (s, log))
    (hw : s.written.length < u32 - 1) (hblk : Write s.ring v = Outcome.blocked) :
    ∃ i, s.ring.readerActiveFlags[i]? = some 1 ∧ i ∈ s.handles ∧ holdsBack s.ring i ∧
      read s.ring i ≠ Outcome.blocked ∧ ∃ x b1, read s.ring i = Outcome.done (x, b1) := by
  have hsl := (slots_run ops s0 s log (slots_boot hr hboot) hrun).1
  have hc := counters_run ops s0 s log (counters_boot he hboot) (slots_boot hr hboot) hrun hw
  have hs := shape_of_counters hc hsl
  obtain ⟨i, _, hh⟩ := (Write_blocked_iff hs v).mp hblk
  obtain ⟨hf, c, hci, hlag⟩ := hh
  have hcle := hc.cursor_le i c hci
  have hhead := hc.head
  have hwlt := hc.wlt
  have hpos := hs.size_pos
  have hsz := hs.size_lt
  have hle : c + 1 ≤ s.ring.headIndex := by
    by_cases h6 : c + s.ring.size < u32
    · rw [Nat.mod_eq_of_lt h6] at hlag; omega
    · exfalso
      have h7 : (c + s.ring.size) % u32 = c + s.ring.size - u32 := by
        unfold u32 at *; omega
      rw [h7] at hlag
      unfold u32 at *; omega
  have hmod : (c + 1) % u32 = c + 1 := Nat.mod_eq_of_lt (by omega)
  obtain ⟨x, _, hrd⟩ := read_done_of_le hs hci (by rw [hmod]; exact hle)
  refine ⟨i, hf, hsl.active_handle i hf, ⟨hf, c, hci, hlag⟩, ?_, x, _, hrd⟩
  rw [hrd]
  intro h
  cases h

/-- C20 on a buffer of size 2 with one consumer that has read nothing of the two values
written: `Write` is blocked and the `Read` of consumer 0 returns. -/
theorem no_mutual_blocking_witness :
    Write ({ size := 2, bitWiseValue := 1, headIndex := 2, nextReaderIndex := 1,
             buffer := [8, 7], readerIndexes := [0], readerActiveFlags := [1] } :
           RingBuffer Nat) 9 = Outcome.blocked ∧
      ∃ i, ([1] : List Nat)[i]? = some 1 ∧ i ∈ [0] ∧
        ∃ x b1,
          read ({ size := 2, bitWiseValue := 1, headIndex := 2, nextReaderIndex := 1,
                  buffer := [8, 7], readerIndexes := [0], readerActiveFlags := [1] } :
                RingBuffer Nat) i = Outcome.done (x, b1) := by
  refine ⟨by decide, ?_⟩
  obtain ⟨i, h1, h2, _, _, h3⟩ :=
    no_mutual_blocking 1 1
      { ring :=
          { size := 2, bitWiseValue := 1, headIndex := 0, nextReaderIndex := 0,
            buffer := [0, 0], readerIndexes := [0], readerActiveFlags := [0] }
        handles := []
        written := [] }
      { ring :=
          { size := 2, bitWiseValue := 1, headIndex := 2, nextReaderIndex := 1,
            buffer := [8, 7], readerIndexes := [0], readerActiveFlags := [1] }
        handles := [0]
        written := [7, 8] }
      [Op.create, Op.write 7, Op.write 8]
      ([] : List (Nat × Nat)) 9
      (by decide) (by decide) (by decide) (by decide) (by decide) (by decide)
  exact ⟨i, h1, h2, h3⟩

/-! ## Interleaved registrations -/

/-- The scan of a single call walks over the slots that are not Free without changing the
buffer. -/
theorem createSteps_skip {T : Type} (b : RingBuffer T) (k : Nat) :
    ∀ (i : Nat), i + k ≤ b.readerActiveFlags.length →
      (∀ (j : Nat), i ≤ j → j < i + k → b.readerActiveFlags[j]? ≠ some 0) →
      createSteps k (b, Pc.scan i) = (b, Pc.scan (i + k)) := by
  induction k with
  | zero => intro i _ _; rfl
  | succ k ih =>
    intro i hlen hskip
    have hi : i < b.readerActiveFlags.length := by omega
    have hstep : createStep b (Pc.scan i) = (b, Pc.scan (i + 1)) := by
      simp only [createStep, hi, if_true, hskip i (le_refl _) (by omega), if_false]
    show createSteps k (createStep b (Pc.scan i)) = (b, Pc.scan (i + (k + 1)))
    rw [hstep, ih (i + 1) (by omega) (fun j h1 h2 => hskip j (by omega) (by omega))]
    congr 2
    omega

theorem createSteps_add {T : Type} (k m : Nat) :
    ∀ (p : RingBuffer T × Pc), createSteps (k + m) p = createSteps m (createSteps k p) := by
  induction k with
  | zero => intro p; rw [Nat.zero_add]; rfl
  | succ k ih =>
    intro p
    rw [Nat.add_right_comm]
    exact ih (createStep p.1 p.2)

/-- A call of `CreateConsumer` that runs its atomic actions alone, one after the other,
ends in the state and with the result of the sequential `CreateConsumer`. -/
theorem createSteps_alone {T : Type} (b : RingBuffer T)
    (hlen : b.readerIndexes.length = b.readerActiveFlags.length) :
    (∃ k b1 c, createSteps k (b, Pc.scan 0) = (b1, Pc.returned c.id) ∧
        CreateConsumer b = Outcome.done (b1, Result.ok c)) ∨
      (∃ k, createSteps k (b, Pc.scan 0) = (b, Pc.failed) ∧
        CreateConsumer b =
          Outcome.done (b, Result.error QueueError.NoAvaliableConsumerSlot)) := by
  rcases CreateConsumer_cases b hlen with ⟨hfull, heq⟩ | ⟨i, hi, h0, hlow, heq⟩
  · right
    refine ⟨b.readerActiveFlags.length + 1, ?_, heq⟩
    rw [createSteps_add,
      createSteps_skip b b.readerActiveFlags.length 0 (by omega)
        (fun j _ h2 => hfull j (by omega))]
    simp [createSteps, createStep]
  · left
    refine ⟨i + 4, _, { id := i % u32 }, ?_, heq⟩
    rw [createSteps_add, createSteps_skip b i 0 (by omega) (fun j _ h2 => hlow j (by omega))]
    have hi2 : i < b.readerIndexes.length := by rw [hlen]; exact hi
    simp only [createSteps, createStep, Nat.zero_add, hi, hi2, h0, if_true, List.length_set,
      List.set_set]
    split_ifs <;> rfl

/-- One atomic action of a call keeps the slot it has claimed not Free, and neither frees
nor claims a slot that is not Free and that the call has not claimed. -/
theorem createStep_owner {T : Type} (b : RingBuffer T) (pc : Pc) (n : Nat)
    (hflg : b.readerActiveFlags.length = n) (hn : n < u32)
    (hown : ∀ (i : Nat), pc.owner = some i → i < n ∧ b.readerActiveFlags[i]? ≠ some 0) :
    (createStep b pc).1.readerActiveFlags.length = n ∧
      (∀ (i : Nat), (createStep b pc).2.owner = some i →
        i < n ∧ (createStep b pc).1.readerActiveFlags[i]? ≠ some 0) ∧
      ∀ (j : Nat), j < n → b.readerActiveFlags[j]? ≠ some 0 → pc.owner ≠ some j →
        (createStep b pc).1.readerActiveFlags[j]? ≠ some 0 ∧
          (createStep b pc).2.owner ≠ some j := by
  cases pc with
  | scan i =>
    by_cases hi : i < b.readerActiveFlags.length
    · by_cases h0 : b.readerActiveFlags[i]? = some 0
      · have hstep : createStep b (Pc.scan i) =
            ({ b with readerActiveFlags := b.readerActiveFlags.set i 2 }, Pc.seed i) := by
          simp only [createStep, hi, h0, if_true]
        rw [hstep]
        refine ⟨by simp [hflg], ?_, ?_⟩
        · intro k hk
          have hk1 : i = k := Option.some.inj hk
          subst hk1
          refine ⟨by omega, ?_⟩
          show (b.readerActiveFlags.set i 2)[i]? ≠ some 0
          rw [List.getElem?_set_self hi]
          intro h; cases h
        · intro j _ hj _
          have hne : i ≠ j := by
            intro h; subst h; exact hj h0
          refine ⟨?_, ?_⟩
          · show (b.readerActiveFlags.set i 2)[j]? ≠ some 0
            rw [List.getElem?_set_ne hne]; exact hj
          · intro h
            exact hne (Option.some.inj h)
      · have hstep : createStep b (Pc.scan i) = (b, Pc.scan (i + 1)) := by
          simp only [createStep, hi, h0, if_true, if_false]
        rw [hstep]
        refine ⟨hflg, ?_, ?_⟩
        · intro k hk; cases hk
        · intro j _ hj _
          exact ⟨hj, fun h => by cases h⟩
    · have hstep : createStep b (Pc.scan i) = (b, Pc.failed) := by
        simp only [createStep, hi, if_false]
      rw [hstep]
      refine ⟨hflg, ?_, ?_⟩
      · intro k hk; cases hk
      · intro j _ hj _
        exact ⟨hj, fun h => by cases h⟩
  | seed i =>
    obtain ⟨hin, hi0⟩ := hown i rfl
    by_cases hi : i < b.readerIndexes.length
    · have hstep : createStep b (Pc.seed i) =
          ({ b with readerIndexes := b.readerIndexes.set i b.headIndex }, Pc.activate i) := by
        simp only [createStep, hi, if_true]
      rw [hstep]
      refine ⟨hflg, ?_, ?_⟩
      · intro k hk
        have hk1 : i = k := Option.some.inj hk
        subst hk1
        exact ⟨hin, hi0⟩
      · intro j _ hj hne
        exact ⟨hj, hne⟩
    · have hstep : createStep b (Pc.seed i) = (b, Pc.crashed) := by
        simp only [createStep, hi, if_false]
      rw [hstep]
      refine ⟨hflg, ?_, ?_⟩
      · intro k hk; cases hk
      · intro j _ hj _
        exact ⟨hj, fun h => by cases h⟩
  | activate i =>
    obtain ⟨hin, _⟩ := hown i rfl
    have hstep : createStep b (Pc.activate i) =
        ({ b with readerActiveFlags := b.readerActiveFlags.set i 1 }, Pc.advance i) := rfl
    rw [hstep]
    refine ⟨by simp [hflg], ?_, ?_⟩
    · intro k hk
      have hk1 : i = k := Option.some.inj hk
      subst hk1
      refine ⟨hin, ?_⟩
      show (b.readerActiveFlags.set i 1)[i]? ≠ some 0
      rw [List.getElem?_set_self (by omega)]
      intro h; cases h
    · intro j _ hj hne
      have hne1 : i ≠ j := fun h => hne (by rw [h]; rfl)
      refine ⟨?_, fun h => hne1 (Option.some.inj h)⟩
      show (b.readerActiveFlags.set i 1)[j]? ≠ some 0
      rw [List.getElem?_set_ne hne1]; exact hj
  | advance i =>
    obtain ⟨hin, hi0⟩ := hown i rfl
    have hmod : i % u32 = i := Nat.mod_eq_of_lt (by omega)
    have hflags : (createStep b (Pc.advance i)).1.readerActiveFlags = b.readerActiveFlags := by
      simp only [createStep]
      split_ifs <;> rfl
    have hpc : (createStep b (Pc.advance i)).2 = Pc.returned i := by
      simp only [createStep, hmod]
    rw [hflags, hpc]
    refine ⟨hflg, ?_, ?_⟩
    · intro k hk
      have hk1 : i = k := Option.some.inj hk
      subst hk1
      exact ⟨hin, hi0⟩
    · intro j _ hj hne
      exact ⟨hj, hne⟩
  | returned id => exact ⟨hflg, hown, fun j _ hj hne => ⟨hj, hne⟩⟩
  | failed => exact ⟨hflg, hown, fun j _ hj hne => ⟨hj, hne⟩⟩
  | crashed => exact ⟨hflg, hown, fun j _ hj hne => ⟨hj, hne⟩⟩

/-- Along every interleaving of two calls of `CreateConsumer`, each call keeps the slot it
has claimed not Free and the two calls never hold the same slot. -/
theorem race_owner {T : Type} (n : Nat) (sched : List Bool) :
    ∀ (r : Race T), r.ring.readerActiveFlags.length = n → n < u32 →
      (∀ (i : Nat), r.first.owner = some i → i < n ∧ r.ring.readerActiveFlags[i]? ≠ some 0) →
      (∀ (i : Nat), r.second.owner = some i → i < n ∧ r.ring.readerActiveFlags[i]? ≠ some 0) →
      (∀ (i : Nat), r.first.owner = some i → r.second.owner ≠ some i) →
      ∀ (i : Nat), (race r sched).first.owner = some i → (race r sched).second.owner ≠ some i := by
  induction sched with
  | nil => intro r _ _ _ _ hd; exact hd
  | cons who rest ih =>
    intro r hflg hn h1 h2 hd
    show ∀ (i : Nat), (race (raceStep r who) rest).first.owner = some i →
      (race (raceStep r who) rest).second.owner ≠ some i
    cases who with
    | true =>
      obtain ⟨ha, hb, hc⟩ := createStep_owner r.ring r.first n hflg hn h1
      have hstep : raceStep r true =
          { ring := (createStep r.ring r.first).1, first := (createStep r.ring r.first).2,
            second := r.second } := rfl
      rw [hstep]
      refine ih _ ha hn hb ?_ ?_
      · intro j hj
        obtain ⟨hjn, hj0⟩ := h2 j hj
        exact ⟨hjn, (hc j hjn hj0 (fun h => hd j h hj)).1⟩
      · intro j hj1 hj2
        obtain ⟨hjn, hj0⟩ := h2 j hj2
        exact (hc j hjn hj0 (fun h => hd j h hj2)).2 hj1
    | false =>
      obtain ⟨ha, hb, hc⟩ := createStep_owner r.ring r.second n hflg hn h2
      have hstep : raceStep r false =
          { ring := (createStep r.ring r.second).1, first := r.first,
            second := (createStep r.ring r.second).2 } := rfl
      rw [hstep]
      refine ih _ ha hn ?_ hb ?_
      · intro j hj
        obtain ⟨hjn, hj0⟩ := h1 j hj
        exact ⟨hjn, (hc j hjn hj0 (fun h => hd j hj h)).1⟩
      · intro j hj1 hj2
        obtain ⟨hjn, hj0⟩ := h1 j hj1
        exact (hc j hjn hj0 (fun h => hd j hj1 h)).2 hj2

/-- Two interleaved calls of `CreateConsumer` on a buffer with fewer than `2 ^ 32` slots
never return the same consumer id, whatever the interleaving. -/
theorem race_ids_distinct {T : Type} (b : RingBuffer T) (sched : List Bool) (a c : Nat)
    (hn : b.readerActiveFlags.length < u32)
    (h1 : (race { ring := b, first := Pc.scan 0, second := Pc.scan 0 } sched).first =
      Pc.returned a)
    (h2 : (race { ring := b, first := Pc.scan 0, second := Pc.scan 0 } sched).second =
      Pc.returned c) : a ≠ c := by
  intro hac
  subst hac
  have h := race_owner b.readerActiveFlags.length sched
    ({ ring := b, first := Pc.scan 0, second := Pc.scan 0 } : Race T) rfl hn
    (fun i hi => by cases hi) (fun i hi => by cases hi) (fun i hi => by cases hi) a
    (by rw [h1]; rfl)
  exact h (by rw [h2]; rfl)

/-- C14 (the high-water mark stays a safe upper bound when registrations interleave), the
interleaving on which the code departs from the claim.  On the buffer that
`NewRingBuffer(2, 2)` returns, the first call claims slot 0; the second call then fails on
slot 0, claims slot 1, seeds and activates it, and its compare-and-swap of `nextReaderIndex`
from 1 to 2 fails because the bound is still 0; the first call then seeds and activates
slot 0 and moves the bound from 0 to 1.  Both calls have returned, with ids 0 and 1, slot 1
is Active and `nextReaderIndex` is 1.  From that state, after two writes and one read by
consumer 0, a third `Write` completes although consumer 1 has read nothing and is two
writes behind on a buffer of size 2: the value 7 it has not read is overwritten. -/
theorem interleaved_registration_loses_bound :
    (NewRingBuffer 2 2 : Result (RingBuffer Nat)) =
        Result.ok
          { size := 2, bitWiseValue := 1, headIndex := 0, nextReaderIndex := 0,
            buffer := [0, 0], readerIndexes := [0, 0], readerActiveFlags := [0, 0] } ∧
      race
          ({ ring :=
               { size := 2, bitWiseValue := 1, headIndex := 0, nextReaderIndex := 0,
                 buffer := [0, 0], readerIndexes := [0, 0], readerActiveFlags := [0, 0] }
             first := Pc.scan 0
             second := Pc.scan 0 } : Race Nat)
          [true, false, false, false, false, false, true, true, true] =
        { ring :=
            { size := 2, bitWiseValue := 1, headIndex := 0, nextReaderIndex := 1,
              buffer := [0, 0], readerIndexes := [0, 0], readerActiveFlags := [1, 1] }
          first := Pc.returned 0
          second := Pc.returned 1 } ∧
      ([1, 1] : List Nat)[1]? = some 1 ∧ ¬ (1 < 1) ∧
      run
          ({ ring :=
               { size := 2, bitWiseValue := 1, headIndex := 0, nextReaderIndex := 1,
                 buffer := [0, 0], readerIndexes := [0, 0], readerActiveFlags := [1, 1] }
             handles := [1, 0]
             written := [] } : Sys Nat)
          [Op.write 7, Op.write 8, Op.read 0, Op.write 9] =
        some
          ({ ring :=
               { size := 2, bitWiseValue := 1, headIndex := 3, nextReaderIndex := 1,
                 buffer := [8, 9], readerIndexes := [1, 0], readerActiveFlags := [1, 1] }
             handles := [1, 0]
             written := [7, 8, 9] }, [(0, 7)]) := by
  decide

/-! ## States in which the scan bound is wrong -/

/-- The scan of `Write` over a list in two parts: the second part is scanned only when the
first part neither yields nor indexes out of range. -/
theorem writeScan_append {T : Type} (b : RingBuffer T) (l1 l2 : List Nat) :
    writeScan b (l1 ++ l2) =
      match writeScan b l1 with
      | Outcome.done () => writeScan b l2
      | Outcome.blocked => Outcome.blocked
      | Outcome.panic => Outcome.panic := by
  induction l1 with
  | nil => rfl
  | cons i rest ih =>
    simp only [List.cons_append, writeScan]
    cases hf : b.readerActiveFlags[i]? with
    | none => rfl
    | some f =>
      simp only []
      by_cases h1 : f = 1
      · simp only [h1, if_true]
        cases hc : b.readerIndexes[i]? with
        | none => rfl
        | some c =>
          simp only []
          by_cases h2 : (c + b.size) % u32 = b.headIndex
          · simp only [h2, if_true]
          · simp only [h2, if_false]; exact ih
      · simp only [h1, if_false]; exact ih

/-- When the scan of the first `m` slots yields, `Write` is blocked, whatever the scan
bound above `m`. -/
theorem Write_blocked_of_prefix {T : Type} (b : RingBuffer T) (v : T) (m : Nat)
    (hm : m ≤ b.nextReaderIndex) (h : writeScan b (List.range m) = Outcome.blocked) :
    Write b v = Outcome.blocked := by
  have hsplit : b.nextReaderIndex = m + (b.nextReaderIndex - m) := by omega
  unfold Write
  rw [hsplit, List.range_add, writeScan_append, h]

/-- When the scan of the first `m` slots passes, the scan bound is above `m` and the flag
table has no slot `m`, `Write` indexes the flag table out of range. -/
theorem Write_panic_of_prefix {T : Type} (b : RingBuffer T) (v : T) (m : Nat)
    (hm : m < b.nextReaderIndex) (h : writeScan b (List.range m) = Outcome.done ())
    (hout : b.readerActiveFlags[m]? = none) : Write b v = Outcome.panic := by
  have hsplit : b.nextReaderIndex = m + (b.nextReaderIndex - m - 1 + 1) := by omega
  unfold Write
  rw [hsplit, List.range_add, writeScan_append, h, List.range_succ_eq_map]
  simp only [List.map_cons, Nat.add_zero, writeScan, hout]

/-- C3 (late registration), the input on which the code departs from the claim: size 1 and
`2 ^ 32 - 1` slots.  Every slot is registered before any write, so the consumer of slot
`2 ^ 32 - 2` registers after `N = 0` values; the consumers `0 .. 2 ^ 32 - 3` are removed (the
removal of consumer 0 lowers the scan bound to `2 ^ 32 - 2`), then 7 and 8 are written.  The
consumer of slot `2 ^ 32 - 2` is Active, its id was returned by `CreateConsumer`, it has
read nothing (cursor 0), and its first completed `Read` returns 8, while the value written
at position `N + 0` is 7. -/
theorem late_registration_at_limit :
    ∃ s0 s : Sys Nat, boot 1 4294967295 = some s0 ∧ Reach s0 s ∧ s.written = [7, 8] ∧
      4294967294 ∈ s.handles ∧
      s.ring.readerActiveFlags[4294967294]? = some 1 ∧
      s.ring.readerIndexes[4294967294]? = some 0 ∧
      s.written[0 + 0]? = some 7 ∧
      ∃ b1, read s.ring 4294967294 = Outcome.done (8, b1) := by
  have hboot := boot_pow (T := Nat) (e := 0) (by decide) 4294967295
  obtain ⟨s, hr, hs, hwr, hsz, hhead, hnext, hfreed, hact, hcur⟩ :=
    limit_one_write (n := 4294967295) rfl hboot 7
  have hst := step_write_free hs (fun j hj => hfreed j (by rw [hnext] at hj; exact hj)) 8
  have hlen : 0 < s.ring.buffer.length := by rw [hs.buf, hsz]; decide
  have hreach := hr.step hst
  have hs2 : Shape
      { s.ring with
        buffer := s.ring.buffer.set ((s.ring.headIndex + 1) % u32 % s.ring.size) 8
        headIndex := (s.ring.headIndex + 1) % u32 } 4294967295 :=
    ⟨hs.pow, hs.mask, by simp [hs.buf], hs.idx, hs.flg, hs.nlt, hs.next⟩
  obtain ⟨ops, log, hrun⟩ := hreach
  have hsl := (slots_run ops _ _ log (slots_boot (by decide) hboot) hrun).1
  have hwr2 : s.written ++ [8] = [7, 8] := by rw [hwr]; rfl
  obtain ⟨x, hx, hrd⟩ := read_done_of_le hs2 hcur (by
    show (0 + 1) % u32 ≤ (s.ring.headIndex + 1) % u32
    rw [hhead]; decide)
  have hx8 : x = 8 := by
    have hx1 : (s.ring.buffer.set ((s.ring.headIndex + 1) % u32 % s.ring.size) 8)[
        (0 + 1) % u32 % s.ring.size]? = some x := hx
    rw [hsz, Nat.mod_one, Nat.mod_one, List.getElem?_set_self hlen] at hx1
    exact (Option.some.inj hx1).symm
  rw [hx8] at hrd
  refine ⟨_, _, hboot, ⟨ops, log, hrun⟩, hwr2, hsl.active_handle _ hact, hact, hcur, ?_,
    _, hrd⟩
  show (s.written ++ [8])[0 + 0]? = some 7
  rw [hwr]; rfl

/-- C10 (a removed consumer stops back-pressuring the writer), the state on which the code
departs from the claim.  On the buffer that `NewRingBuffer(2, 2)` returns, a first call of
`CreateConsumer` claims slot 0 and a second call completes on slot 1 (its compare-and-swap
of `nextReaderIndex` from 1 to 2 fails, the bound stays 0); 7 and 8 are written; the first
call seeds and activates slot 0 and has not yet reached its compare-and-swap of the bound.
Consumer 1 is then the only one exactly `size` behind.  `Remove` of consumer 1 finds
`nextReaderIndex` equal to `readerID - 1 = 0` and stores `0 - 1 = 2 ^ 32 - 1`; no other slot
holds the writer back, yet `Write` does not complete: its scan indexes slot 2 of a table of
two slots. -/
theorem remove_wraps_bound_write_panics :
    race
        ({ ring :=
             { size := 2, bitWiseValue := 1, headIndex := 0, nextReaderIndex := 0,
               buffer := [0, 0], readerIndexes := [0, 0], readerActiveFlags := [0, 0] }
           first := Pc.scan 0
           second := Pc.scan 0 } : Race Nat)
        [true, false, false, false, false, false] =
      { ring :=
          { size := 2, bitWiseValue := 1, headIndex := 0, nextReaderIndex := 0,
            buffer := [0, 0], readerIndexes := [0, 0], readerActiveFlags := [2, 1] }
        first := Pc.seed 0
        second := Pc.returned 1 } ∧
      Write ({ size := 2, bitWiseValue := 1, headIndex := 0, nextReaderIndex := 0,
               buffer := [0, 0], readerIndexes := [0, 0], readerActiveFlags := [2, 1] } :
             RingBuffer Nat) 7 =
        Outcome.done
          { size := 2, bitWiseValue := 1, headIndex := 1, nextReaderIndex := 0,
            buffer := [0, 7], readerIndexes := [0, 0], readerActiveFlags := [2, 1] } ∧
      Write ({ size := 2, bitWiseValue := 1, headIndex := 1, nextReaderIndex := 0,
               buffer := [0, 7], readerIndexes := [0, 0], readerActiveFlags := [2, 1] } :
             RingBuffer Nat) 8 =
        Outcome.done
          { size := 2, bitWiseValue := 1, headIndex := 2, nextReaderIndex := 0,
            buffer := [8, 7], readerIndexes := [0, 0], readerActiveFlags := [2, 1] } ∧
      createSteps 2
          (({ size := 2, bitWiseValue := 1, headIndex := 2, nextReaderIndex := 0,
              buffer := [8, 7], readerIndexes := [0, 0], readerActiveFlags := [2, 1] } :
            RingBuffer Nat), Pc.seed 0) =
        ({ size := 2, bitWiseValue := 1, headIndex := 2, nextReaderIndex := 0,
           buffer := [8, 7], readerIndexes := [2, 0], readerActiveFlags := [1, 1] },
          Pc.advance 0) ∧
      holdsBack
        ({ size := 2, bitWiseValue := 1, headIndex := 2, nextReaderIndex := 0,
           buffer := [8, 7], readerIndexes := [2, 0], readerActiveFlags := [1, 1] } :
          RingBuffer Nat) 1 ∧
      removeConsumer
          ({ size := 2, bitWiseValue := 1, headIndex := 2, nextReaderIndex := 0,
             buffer := [8, 7], readerIndexes := [2, 0], readerActiveFlags := [1, 1] } :
            RingBuffer Nat) 1 =
        Outcome.done
          { size := 2, bitWiseValue := 1, headIndex := 2, nextReaderIndex := 4294967295,
            buffer := [8, 7], readerIndexes := [2, 0], readerActiveFlags := [1, 0] } ∧
      (∀ i, ¬ holdsBack
        ({ size := 2, bitWiseValue := 1, headIndex := 2, nextReaderIndex := 4294967295,
           buffer := [8, 7], readerIndexes := [2, 0], readerActiveFlags := [1, 0] } :
          RingBuffer Nat) i) ∧
      Write ({ size := 2, bitWiseValue := 1, headIndex := 2, nextReaderIndex := 4294967295,
               buffer := [8, 7], readerIndexes := [2, 0], readerActiveFlags := [1, 0] } :
             RingBuffer Nat) 9 = Outcome.panic := by
  refine ⟨by decide, by decide, by decide, by decide, ⟨by decide, 0, by decide, by decide⟩,
    by decide, ?_, ?_⟩
  · rintro i ⟨hf, c, hc, hh⟩
    have hf1 : ([1, 0] : List Nat)[i]? = some 1 := hf
    have hc1 : ([2, 0] : List Nat)[i]? = some c := hc
    have hh1 : (c + 2) % u32 = 2 := hh
    match i, hf1, hc1 with
    | 0, _, hc1 =>
      have hc2 : c = 2 := (Option.some.inj hc1).symm
      subst hc2
      revert hh1
      decide
    | 1, hf1, _ => cases hf1
    | i + 2, hf1, _ => cases hf1
  · exact Write_panic_of_prefix _ 9 2 (by decide) (by decide) (by decide)

/-- C11 (adding or removing a consumer does not block writes), the state on which the code
departs from the claim.  On the buffer that `NewRingBuffer(2, 2)` returns, a first call of
`CreateConsumer` claims slot 0, a second call completes on slot 1 (the bound stays 0), and
the first call seeds and activates slot 0 without having reached its compare-and-swap of
the bound; 7 and 8 are written.  In that state `Write` would not block: it completes.
`Remove` of consumer 1 finds `nextReaderIndex` equal to `readerID - 1 = 0` and stores
`2 ^ 32 - 1`; the scan of `Write` now visits slot 0, which is two values behind on a buffer
of size 2, and `Write` blocks. -/
theorem remove_wraps_bound_write_blocks :
    race
        ({ ring :=
             { size := 2, bitWiseValue := 1, headIndex := 0, nextReaderIndex := 0,
               buffer := [0, 0], readerIndexes := [0, 0], readerActiveFlags := [0, 0] }
           first := Pc.scan 0
           second := Pc.scan 0 } : Race Nat)
        [true, false, false, false, false, false, true, true] =
      { ring :=
          { size := 2, bitWiseValue := 1, headIndex := 0, nextReaderIndex := 0,
            buffer := [0, 0], readerIndexes := [0, 0], readerActiveFlags := [1, 1] }
        first := Pc.advance 0
        second := Pc.returned 1 } ∧
      Write ({ size := 2, bitWiseValue := 1, headIndex := 0, nextReaderIndex := 0,
               buffer := [0, 0], readerIndexes := [0, 0], readerActiveFlags := [1, 1] } :
             RingBuffer Nat) 7 =
        Outcome.done
          { size := 2, bitWiseValue := 1, headIndex := 1, nextReaderIndex := 0,
            buffer := [0, 7], readerIndexes := [0, 0], readerActiveFlags := [1, 1] } ∧
      Write ({ size := 2, bitWiseValue := 1, headIndex := 1, nextReaderIndex := 0,
               buffer := [0, 7], readerIndexes := [0, 0], readerActiveFlags := [1, 1] } :
             RingBuffer Nat) 8 =
        Outcome.done
          { size := 2, bitWiseValue := 1, headIndex := 2, nextReaderIndex := 0,
            buffer := [8, 7], readerIndexes := [0, 0], readerActiveFlags := [1, 1] } ∧
      Write ({ size := 2, bitWiseValue := 1, headIndex := 2, nextReaderIndex := 0,
               buffer := [8, 7], readerIndexes := [0, 0], readerActiveFlags := [1, 1] } :
             RingBuffer Nat) 9 =
        Outcome.done
          { size := 2, bitWiseValue := 1, headIndex := 3, nextReaderIndex := 0,
            buffer := [8, 9], readerIndexes := [0, 0], readerActiveFlags := [1, 1] } ∧
      removeConsumer
          ({ size := 2, bitWiseValue := 1, headIndex := 2, nextReaderIndex := 0,
             buffer := [8, 7], readerIndexes := [0, 0], readerActiveFlags := [1, 1] } :
            RingBuffer Nat) 1 =
        Outcome.done
          { size := 2, bitWiseValue := 1, headIndex := 2, nextReaderIndex := 4294967295,
            buffer := [8, 7], readerIndexes := [0, 0], readerActiveFlags := [1, 0] } ∧
      Write ({ size := 2, bitWiseValue := 1, headIndex := 2, nextReaderIndex := 4294967295,
               buffer := [8, 7], readerIndexes := [0, 0], readerActiveFlags := [1, 0] } :
             RingBuffer Nat) 9 = Outcome.blocked := by
  refine ⟨by decide, by decide, by decide, by decide, by decide, ?_⟩
  exact Write_blocked_of_prefix _ 9 1 (by decide) (by decide)

end LockFreeQueue
